import Mathlib

/-!
HDR tone mapping and layer compositing (`src/image.cpp`).

A shallow embedding of `filmic`, `normalize255`, `tonemap` and `compose`.

Number model.  The C++ code computes in `float`.  A finite `float` is modelled by the rational
number it denotes, and every arithmetic operation of the source (`+`, `-`, `*`,
`/` on `float`) is the exact rational operation followed by `f32round`, the
IEEE-754 binary32 round-to-nearest, ties-to-even rounding (24 significant bits,
gradual underflow below `2^-126`).  The rational model has no overflow; it is
the code's arithmetic as long as no result exceeds `FLT_MAX`.  The byte
pipelines of `tonemap` and `compose` stay far below that.  `filmic` takes any
`float`, so it is also given on IEEE 754 data with infinities and NaN
(`filmicIEEE`), and the rational model is shown to agree with it for
`|x| ≤ 2^63` (`filmicIEEE_finite`).

`pow` comes from the C library, which is not among the sources, so it is a
parameter (`Libm`) of which only the special values fixed by Annex F of the C
standard are assumed.  Where a claim depends on the values of `pow` at the gamma
exponents, it is settled for the correctly rounded power (`Libm.rounded`, the
real power of the spec rounded to binary32), and the lemma behind it holds for
every library of the stated accuracy.

The conversion `float -> unsigned char` truncates toward zero.  For values whose
truncation does not fit a byte the C++ standard leaves the result undefined; the
model takes the low eight bits of the truncated integer (`toByte`), and each
confirming theorem establishes that the converted value is in range wherever
that matters.
-/

/-! ## binary32 rounding -/

/-- Floor of the binary logarithm of `n` (for `1 ≤ n ≤ fuel`), by repeated halving. -/
def log2Fuel : ℕ → ℕ → ℕ
  | 0, _ => 0
  | fuel + 1, n => if n < 2 then 0 else log2Fuel fuel (n / 2) + 1

/-- Binary exponent of a positive rational: the `e` with `2^e ≤ a < 2^(e+1)`. -/
def ilog2 (a : ℚ) : ℤ :=
  let n := a.num.natAbs
  let e : ℤ := (log2Fuel n n : ℤ) - (log2Fuel a.den a.den : ℤ)
  if (2 : ℚ) ^ e ≤ a then e else e - 1

/-- Nearest integer, ties to the even neighbour. -/
def roundEven (t : ℚ) : ℤ :=
  let f := ⌊t⌋
  let r := t - f
  if r < 1 / 2 then f else if 1 / 2 < r then f + 1 else if f % 2 = 0 then f else f + 1

/-- Spacing of the binary32 grid around `q ≠ 0`: `2^(e-23)` where `e` is the
binary exponent of `q`, not below the exponent `-126` of the subnormals. -/
def f32ulp (q : ℚ) : ℚ := (2 : ℚ) ^ (max (ilog2 |q|) (-126) - 23)

/-- Rounding of a rational to the nearest binary32 value (ties to even). -/
def f32round (q : ℚ) : ℚ :=
  if q = 0 then 0 else (roundEven (q / f32ulp q) : ℚ) * f32ulp q

/-- A rational that is exactly representable in binary32. -/
def IsF32 (q : ℚ) : Prop := f32round q = q

instance (q : ℚ) : Decidable (IsF32 q) := by unfold IsF32; infer_instance

/-- `float` addition. -/
def fadd (a b : ℚ) : ℚ := f32round (a + b)
/-- `float` subtraction. -/
def fsub (a b : ℚ) : ℚ := f32round (a - b)
/-- `float` multiplication. -/
def fmul (a b : ℚ) : ℚ := f32round (a * b)
/-- `float` division. -/
def fdiv (a b : ℚ) : ℚ := f32round (a / b)

/-- Conversion `float -> unsigned char`: truncation toward zero, then the low
eight bits. -/
def toByte (v : ℚ) : ℕ := Int.toNat ((if 0 ≤ v then ⌊v⌋ else ⌈v⌉) % 256)

/-- The C library as far as `image.cpp` uses it: `pow` on `float`, with the
special values prescribed by C11 Annex F.10.4.4 (`pow(x, 0) = 1`,
`pow(1, y) = 1`, `pow(0, y) = 0` for `y > 0`). -/
structure Libm where
  pow : ℚ → ℚ → ℚ
  pow_exp_zero : ∀ x, pow x 0 = 1
  pow_base_one : ∀ y, pow 1 y = 1
  pow_base_zero : ∀ y, 0 < y → pow 0 y = 0

/-- A computable `Libm` that has the special values of Annex F and nothing more:
the exponent is truncated to an integer, so it is not the power at the gamma
exponents.  It shows that the laws of `Libm` are satisfiable and stands for the
C library in closed examples of statements that hold for every `Libm` (the
linear mode, where `pow` is only called with exponent `1`, and the special
values).  The C library of the sRGB statements is `Libm.rounded`. -/
def Libm.intPow : Libm where
  pow x y := if y = 0 then 1 else if x = 1 then 1 else if x = 0 then 0
    else f32round (x ^ ⌊y⌋)
  pow_exp_zero x := by simp
  pow_base_one y := by simp
  pow_base_zero y hy := by simp [ne_of_gt hy]

/-! ## Data model -/

/-- Modelled from the spec: `vec4f` is declared in `image.h`, which is not among
the sources; section 3 describes it as four `float` channels (r,g,b,a). -/
structure vec4f where
  x : ℚ
  y : ℚ
  z : ℚ
  w : ℚ
deriving DecidableEq

/-- Modelled from the spec: `vec4b` is declared in `image.h`, which is not among
the sources; section 3 describes it as four byte channels (r,g,b,a). -/
structure vec4b where
  x : ℕ
  y : ℕ
  z : ℕ
  w : ℕ
deriving DecidableEq

/-- All four channels are bytes. -/
def vec4b.valid (v : vec4b) : Prop := v.x < 256 ∧ v.y < 256 ∧ v.z < 256 ∧ v.w < 256

instance (v : vec4b) : Decidable v.valid := by unfold vec4b.valid; infer_instance

/-- Modelled from the spec: `operator+` on `vec4f` lives in the missing header;
section 4.3(d) applies the blend "independently to each of the four channels". -/
def vec4f.add (a b : vec4f) : vec4f :=
  ⟨fadd a.x b.x, fadd a.y b.y, fadd a.z b.z, fadd a.w b.w⟩

/-- Modelled from the spec: `operator*` of a `vec4f` by a `float` lives in the
missing header; every channel is multiplied by the scalar. -/
def vec4f.scale (a : vec4f) (s : ℚ) : vec4f :=
  ⟨fmul a.x s, fmul a.y s, fmul a.z s, fmul a.w s⟩

/-- Modelled from the spec: `image4f` is declared in `image.h`; section 3 gives
it a width, a height and a row-major pixel sequence. -/
structure image4f where
  width : ℕ
  height : ℕ
  pixels : List vec4f
deriving DecidableEq

/-- Modelled from the spec: `image4b` is declared in `image.h`; section 3 gives
it a width, a height and a row-major pixel sequence. -/
structure image4b where
  width : ℕ
  height : ℕ
  pixels : List vec4b
deriving DecidableEq

/-- Modelled from the spec: the default constructor `image4b()` of the missing
header yields the 0x0 buffer without pixels. -/
def image4b.empty : image4b := ⟨0, 0, []⟩

/-- Modelled from the spec: the constructor `image4b(w, h)` of the missing
header yields `w*h` zero (transparent black) pixels. -/
def image4b.make (w h : ℕ) : image4b := ⟨w, h, List.replicate (w * h) ⟨0, 0, 0, 0⟩⟩

/-- Read of `img.pixels[i]`. -/
def image4b.pixel (img : image4b) (i : ℕ) : vec4b := img.pixels.getD i ⟨0, 0, 0, 0⟩

/-- Write of `img.pixels[i]`. -/
def image4b.store (img : image4b) (i : ℕ) (v : vec4b) : image4b :=
  { img with pixels := img.pixels.set i v }

/-- Read of `img.pixels[i]`. -/
def image4f.pixel (img : image4f) (i : ℕ) : vec4f := img.pixels.getD i ⟨0, 0, 0, 0⟩

/-- The buffer invariant of section 3: `pixels.length = width * height`. -/
def image4b.wf (img : image4b) : Prop := img.pixels.length = img.width * img.height

instance (img : image4b) : Decidable img.wf := by unfold image4b.wf; infer_instance

/-- The buffer invariant of section 3: `pixels.length = width * height`. -/
def image4f.wf (img : image4f) : Prop := img.pixels.length = img.width * img.height

instance (img : image4f) : Decidable img.wf := by unfold image4f.wf; infer_instance

/-! ## The source functions -/

/-- The `float` literal `2.51f`. -/
def c251 : ℚ := f32round (251 / 100)
/-- The `float` literal `0.03f`. -/
def c003 : ℚ := f32round (3 / 100)
/-- The `float` literal `2.43f`. -/
def c243 : ℚ := f32round (243 / 100)
/-- The `float` literal `0.59f`. -/
def c059 : ℚ := f32round (59 / 100)
/-- The `float` literal `0.14f`. -/
def c014 : ℚ := f32round (14 / 100)
/-- The `float` literal `2.2f`. -/
def GAMMA : ℚ := f32round (22 / 10)
/-- The constant `INVERSE_GAMMA = 1.0f/2.2f` of `tonemap` and `compose`. -/
def INVERSE_GAMMA : ℚ := fdiv 1 GAMMA

/-- `filmic` (image.cpp:54-61), in the model without overflow: the value that the
code computes as long as no operation overflows, which is the case for
`|x| ≤ 2^63` (`filmicIEEE_finite`); `filmicIEEE` is the same expression on
IEEE 754 data. -/
def filmic (x : ℚ) : ℚ :=
  let num := fadd (fmul (fmul c251 x) x) (fmul c003 x)
  let den := fadd (fadd (fmul (fmul c243 x) x) (fmul c059 x)) c014
  fdiv num den

/-- `normalize255` (image.cpp:64-75). -/
def normalize255 (v : vec4b) : vec4f :=
  ⟨fdiv v.x 255, fdiv v.y 255, fdiv v.z 255, fdiv v.w 255⟩

/-- The three colour channels of the pixel after the exposure, filmic and gamma
steps and the `min(.., 1.0f)` of `tonemap` (image.cpp:149-178); alpha is carried
along untouched. -/
def tonemapColor (m : Libm) (exposure : ℚ) (use_filmic no_srgb : Bool) (pixel : vec4f) :
    vec4f :=
  let output_in_sRGB := !no_srgb
  -- Scale by exposure
  let pixel : vec4f :=
    ⟨fmul (m.pow 2 exposure) pixel.x, fmul (m.pow 2 exposure) pixel.y,
     fmul (m.pow 2 exposure) pixel.z, pixel.w⟩
  let pixel : vec4f :=
    if use_filmic then ⟨filmic pixel.x, filmic pixel.y, filmic pixel.z, pixel.w⟩ else pixel
  let pixel : vec4f :=
    if output_in_sRGB then
      ⟨m.pow pixel.x INVERSE_GAMMA, m.pow pixel.y INVERSE_GAMMA, m.pow pixel.z INVERSE_GAMMA,
       pixel.w⟩
    else pixel
  -- Clamp to [0, 1]
  ⟨min pixel.x 1, min pixel.y 1, min pixel.z 1, pixel.w⟩

/-- The body of the pixel loop of `tonemap` (image.cpp:149-184): the byte pixel
stored for one HDR pixel. -/
def tonemapPixel (m : Libm) (exposure : ℚ) (use_filmic no_srgb : Bool) (pixel : vec4f) :
    vec4b :=
  let pixel := tonemapColor m exposure use_filmic no_srgb pixel
  -- Map to [0, 255] and cast to int
  ⟨toByte (fmul 255 pixel.x), toByte (fmul 255 pixel.y), toByte (fmul 255 pixel.z),
   toByte (fmul 255 pixel.w)⟩

/-- `tonemap` (image.cpp:141-188). -/
def tonemap (m : Libm) (hdr : image4f) (exposure : ℚ) (use_filmic no_srgb : Bool) : image4b :=
  (List.range hdr.pixels.length).foldl
    (fun result i => result.store i (tonemapPixel m exposure use_filmic no_srgb (hdr.pixel i)))
    (image4b.make hdr.width hdr.height)

/-- The blended pixel of `compose` before the conversion to bytes
(image.cpp:206-236). -/
def composeColor (m : Libm) (premultiplied no_srgb : Bool) (above below : vec4b) : vec4f :=
  let output_in_sRGB := !no_srgb
  let pixel_above := normalize255 above
  let pixel_below := normalize255 below
  let pixel_above : vec4f :=
    if output_in_sRGB then
      ⟨m.pow pixel_above.x GAMMA, m.pow pixel_above.y GAMMA, m.pow pixel_above.z GAMMA,
       pixel_above.w⟩
    else pixel_above
  let pixel_below : vec4f :=
    if output_in_sRGB then
      ⟨m.pow pixel_below.x GAMMA, m.pow pixel_below.y GAMMA, m.pow pixel_below.z GAMMA,
       pixel_below.w⟩
    else pixel_below
  let pixel_above : vec4f :=
    if !premultiplied then
      -- Premultiply
      ⟨fmul pixel_above.x pixel_above.w, fmul pixel_above.y pixel_above.w,
       fmul pixel_above.z pixel_above.w, pixel_above.w⟩
    else pixel_above
  -- Blend One OneMinusSrcAlpha
  let pixel := pixel_above.add (pixel_below.scale (fsub 1 pixel_above.w))
  if output_in_sRGB then
    ⟨m.pow pixel.x INVERSE_GAMMA, m.pow pixel.y INVERSE_GAMMA, m.pow pixel.z INVERSE_GAMMA,
     pixel.w⟩
  else pixel

/-- The body of the pixel loop of `compose` (image.cpp:206-241): the byte pixel
stored over `below` when `above` is composited onto it. -/
def composePixel (m : Libm) (premultiplied no_srgb : Bool) (above below : vec4b) : vec4b :=
  let pixel := composeColor m premultiplied no_srgb above below
  ⟨toByte (fmul 255 pixel.x), toByte (fmul 255 pixel.y), toByte (fmul 255 pixel.z),
   toByte (fmul 255 pixel.w)⟩

/-- One iteration of the layer loop of `compose` (image.cpp:202-242): `source`
is composited onto the accumulator `result`. -/
def composeLayer (m : Libm) (premultiplied no_srgb : Bool) (result source : image4b) :
    image4b :=
  (List.range source.pixels.length).foldl
    (fun result i =>
      result.store i (composePixel m premultiplied no_srgb (source.pixel i) (result.pixel i)))
    result

/-- `compose` (image.cpp:191-246). -/
def compose (m : Libm) (imgs : List image4b) (premultiplied no_srgb : Bool) : image4b :=
  match imgs with
  | [] => image4b.empty
  | img0 :: _ =>
    imgs.foldl (composeLayer m premultiplied no_srgb) (image4b.make img0.width img0.height)

/-- The largest binary32 value strictly below a positive rational `x` of the
normal range: with `e` the binary exponent of `x`, the grid below `x` has step
`2^(e-23)`, or `2^(e-24)` when `x` is the power of two `2^e` itself. -/
def f32pred (x : ℚ) : ℚ :=
  let e := ilog2 x
  if x = (2 : ℚ) ^ e then ((2 : ℚ) ^ 24 - 1) * (2 : ℚ) ^ (e - 24)
  else ((⌈x / (2 : ℚ) ^ (e - 23)⌉ : ℚ) - 1) * (2 : ℚ) ^ (e - 23)

/-- A `float` channel value in the unit interval. -/
def unitFloat (c : ℚ) : Prop := IsF32 c ∧ 0 ≤ c ∧ c ≤ 1

instance (c : ℚ) : Decidable (unitFloat c) := by unfold unitFloat; infer_instance

/-- The 1x1 HDR image with the pixel (1.0, 0.5, 0.25, 1.0) of the end-to-end
example of section 8. -/
def hdrExample : image4f := ⟨1, 1, [⟨1, 1 / 2, 1 / 4, 1⟩]⟩

/-- A 1x1 HDR image whose red channel is negative. -/
def hdrNegative : image4f := ⟨1, 1, [⟨-1, 0, 0, 1⟩]⟩

/-- A 2x1 HDR image with values above and below the unit interval. -/
def hdrWide : image4f := ⟨2, 1, [⟨3, 1 / 2, 0, 1⟩, ⟨1 / 8, 7, 1 / 4, 1 / 2⟩]⟩

/-- A 1x1 opaque red layer. -/
def layerRed : image4b := ⟨1, 1, [⟨200, 10, 0, 255⟩]⟩

/-- A 1x1 opaque blue layer. -/
def layerBlue : image4b := ⟨1, 1, [⟨0, 20, 250, 255⟩]⟩

/-- A 1x1 layer with alpha 0 and a non-zero red byte. -/
def layerGhost : image4b := ⟨1, 1, [⟨200, 0, 0, 0⟩]⟩

/-- A 2x1 layer with alpha 0 and arbitrary colour bytes. -/
def layerClear : image4b := ⟨2, 1, [⟨200, 7, 0, 0⟩, ⟨1, 255, 128, 0⟩]⟩

/-- The call `pow(x, y)` of the C library is accurate to a relative error of
`1/4096` (12 bits) with respect to the real power `x^y`.  The C standard does
not bound the error of `pow`; common libraries are accurate to about one unit
in the last place, a relative error below `2^-23`. -/
def PowAccurate (m : Libm) (x y : ℚ) : Prop :=
  |((m.pow x y : ℚ) : ℝ) - (x : ℝ) ^ (y : ℝ)| ≤ (x : ℝ) ^ (y : ℝ) / 4096

/-- The two calls of `pow` that `compose` makes in sRGB colour space for a colour
byte `b` of a pixel with alpha 255 over the zero accumulator are accurate: the
decoding `pow(b / 255.0f, 2.2f)` and the encoding `pow(.., INVERSE_GAMMA)` of the
blended value. -/
def GammaAccurate (m : Libm) (b : ℕ) : Prop :=
  PowAccurate m (fdiv b 255) GAMMA ∧
  PowAccurate m (fadd (m.pow (fdiv b 255) GAMMA) 0) INVERSE_GAMMA

/-- One iteration of the layer loop of `compose` with the accesses
`source.pixels[i]` and `result.pixels[i]` bounds-checked: `none` as soon as an
index is out of range. -/
def composeLayerChecked (m : Libm) (premultiplied no_srgb : Bool) (result source : image4b) :
    Option image4b :=
  (List.range source.pixels.length).foldlM
    (fun result i =>
      match source.pixels[i]?, result.pixels[i]? with
      | some above, some below =>
        some (result.store i (composePixel m premultiplied no_srgb above below))
      | _, _ => none)
    result

/-- The function `compose` with bounds-checked pixel accesses. -/
def composeChecked (m : Libm) (imgs : List image4b) (premultiplied no_srgb : Bool) :
    Option image4b :=
  match imgs with
  | [] => some image4b.empty
  | img0 :: _ =>
    imgs.foldlM (composeLayerChecked m premultiplied no_srgb)
      (image4b.make img0.width img0.height)

/-- A 2x1 layer, half transparent. -/
def layerHalf : image4b := ⟨2, 1, [⟨100, 50, 25, 128⟩, ⟨0, 0, 0, 0⟩]⟩

/-- A 2x1 layer of arbitrary bytes. -/
def layerMixed : image4b := ⟨2, 1, [⟨10, 200, 30, 77⟩, ⟨255, 255, 255, 255⟩]⟩

/-- The alpha byte that `compose` stores when a pixel of alpha byte `above` is
composited onto an accumulator pixel of alpha byte `below`: the `w` channel of
image.cpp:206-241 (`normalize255`, the blend, the conversion to a byte), which
no flag touches. -/
def alphaOver (above below : ℕ) : ℕ :=
  toByte (fmul 255 (fadd (fdiv above 255) (fmul (fdiv below 255) (fsub 1 (fdiv above 255)))))

/-- The alpha step in the words of the spec (section 4.3 d and f): the bytes are
taken as `byte / 255`, blended as `above.a + below.a * (1 - above.a)` in exact
arithmetic, scaled by 255 and truncated. -/
def alphaOverSpec (above below : ℕ) : ℕ :=
  ⌊(255 : ℚ) * ((above : ℚ) / 255 + (below : ℚ) / 255 * (1 - (above : ℚ) / 255))⌋₊

/-- The C library's `pow` keeps the unit interval for the two exponents of the
gamma steps: for a `float` `x` in `[0,1]`, `0 ≤ pow(x, 2.2f) ≤ x` and
`0 ≤ pow(x, INVERSE_GAMMA) ≤ 1`, as the real powers do. -/
def PowUnitRange (m : Libm) : Prop :=
  ∀ x : ℚ, IsF32 x → 0 ≤ x → x ≤ 1 →
    (0 ≤ m.pow x GAMMA ∧ m.pow x GAMMA ≤ x) ∧
    (0 ≤ m.pow x INVERSE_GAMMA ∧ m.pow x INVERSE_GAMMA ≤ 1)

/-- One colour channel of the blended pixel of `compose` (image.cpp:206-236):
`c` is the layer's colour byte, `b` the accumulator's, `a` the layer's alpha
byte. -/
def composeChannel (m : Libm) (premultiplied no_srgb : Bool) (c b a : ℕ) : ℚ :=
  let output_in_sRGB := !no_srgb
  let above := if output_in_sRGB then m.pow (fdiv c 255) GAMMA else fdiv c 255
  let below := if output_in_sRGB then m.pow (fdiv b 255) GAMMA else fdiv b 255
  let above := if !premultiplied then fmul above (fdiv a 255) else above
  let pixel := fadd above (fmul below (fsub 1 (fdiv a 255)))
  if output_in_sRGB then m.pow pixel INVERSE_GAMMA else pixel

/-- A blended channel value lies in `[0,1]` and its product with `255.0f`, the
value converted to a byte, lies in `[0,255]`. -/
def storableValue (v : ℚ) : Prop := 0 ≤ v ∧ v ≤ 1 ∧ 0 ≤ fmul 255 v ∧ fmul 255 v ≤ 255

/-- All four channels of a blended pixel are in range. -/
def vec4f.storable (p : vec4f) : Prop :=
  storableValue p.x ∧ storableValue p.y ∧ storableValue p.z ∧ storableValue p.w

/-- A white layer of alpha 255, 1x1. -/
def layerWhite : image4b := ⟨1, 1, [⟨255, 255, 255, 255⟩]⟩

/-- A 1x1 layer whose red byte exceeds its alpha byte: not premultiplied data. -/
def layerOverbright : image4b := ⟨1, 1, [⟨255, 0, 0, 0⟩]⟩

/-- A 2x1 layer of premultiplied data: colour bytes at most the alpha byte. -/
def layerPremult : image4b := ⟨2, 1, [⟨100, 50, 128, 128⟩, ⟨0, 7, 9, 9⟩]⟩

/-- The numerator `2.51f*x*x + 0.03f*x` of `filmic` (image.cpp:58). -/
def filmicNum (x : ℚ) : ℚ := fadd (fmul (fmul c251 x) x) (fmul c003 x)

/-- The denominator `2.43f*x*x + 0.59f*x + 0.14f` of `filmic` (image.cpp:59). -/
def filmicDen (x : ℚ) : ℚ := fadd (fadd (fmul (fmul c243 x) x) (fmul c059 x)) c014

/-- The expression of `filmic` (image.cpp:58-60) with the rounding of every
constant and operation made a parameter: `f32round` gives the `float` code,
the identity gives the curve in exact arithmetic. -/
def filmicWith (rnd : ℚ → ℚ) (x : ℚ) : ℚ :=
  let num := rnd (rnd (rnd (rnd (251 / 100) * x) * x) + rnd (rnd (3 / 100) * x))
  let den := rnd (rnd (rnd (rnd (rnd (243 / 100) * x) * x) + rnd (rnd (59 / 100) * x))
    + rnd (14 / 100))
  rnd (num / den)

/-- The numerator of the tone curve in exact arithmetic over a field. -/
def filmicNumExact {K : Type} [Field K] (x : K) : K := 251 / 100 * x * x + 3 / 100 * x

/-- The denominator of the tone curve in exact arithmetic over a field. -/
def filmicDenExact {K : Type} [Field K] (x : K) : K :=
  243 / 100 * x * x + 59 / 100 * x + 14 / 100

/-- The tone curve of section 4.1 of the spec in exact arithmetic over a field:
the quotient `(2.51*x^2 + 0.03*x) / (2.43*x^2 + 0.59*x + 0.14)` with the decimal
constants, against which the binary32 function `filmic` is measured. -/
def filmicExact {K : Type} [Field K] (x : K) : K := filmicNumExact x / filmicDenExact x

/-- The call `pow(x, y)` of the C library has a relative error of at most `tol`
with respect to the real power `x^y`. -/
def PowAccurateTo (m : Libm) (tol x y : ℚ) : Prop :=
  |((m.pow x y : ℚ) : ℝ) - (x : ℝ) ^ (y : ℝ)| ≤ (tol : ℝ) * (x : ℝ) ^ (y : ℝ)

/-! ## The power function of the C library, modelled -/

/-- Nearest integer of a real number, ties to the even neighbour. -/
noncomputable def roundEvenReal (t : ℝ) : ℤ :=
  let f := ⌊t⌋
  let r := t - f
  if r < 1 / 2 then f else if 1 / 2 < r then f + 1 else if f % 2 = 0 then f else f + 1

/-- Rounding of a real number to the nearest binary32 value (ties to even): the
grid around `r` has the spacing `2^(e-23)`, `e` the binary exponent of `|r|`, not
below `-126`. -/
noncomputable def f32roundReal (r : ℝ) : ℚ :=
  if r = 0 then 0
  else (roundEvenReal (r / (2 : ℝ) ^ (max (Int.log 2 |r|) (-126) - 23)) : ℚ)
    * (2 : ℚ) ^ (max (Int.log 2 |r|) (-126) - 23)

/-- Modelled from the spec: the C library's `pow` is not among the sources;
sections 2 and 4 of the spec define the gamma steps as the real powers `f^2.2`
and `f^(1/2.2)`.  The model returns the binary32 value nearest to the real power
`x^y`, with the special values of C11 Annex F.10.4.4. -/
noncomputable def Libm.rounded : Libm where
  pow x y := if y = 0 then 1 else if x = 1 then 1 else if x = 0 then 0
    else f32roundReal ((x : ℝ) ^ (y : ℝ))
  pow_exp_zero x := by simp
  pow_base_one y := by simp
  pow_base_zero y hy := by simp [ne_of_gt hy]

/-- A 2x1 layer of alpha 255 with colour bytes away from 0 and 255. -/
def layerOpaque : image4b := ⟨2, 1, [⟨128, 64, 1, 255⟩, ⟨200, 17, 254, 255⟩]⟩

/-! ## IEEE 754 data: overflow, infinities and NaN -/

/-- The largest finite binary32 value, `FLT_MAX = (2^24 - 1) * 2^104`. -/
def FLT_MAX : ℚ := (2 ^ 24 - 1) * 2 ^ 104

/-- A binary32 datum of IEEE 754: a finite value (as the rational it denotes;
the two zeros are not told apart), an infinity or a NaN. -/
inductive F32 where
  | fin (q : ℚ)
  | pinf
  | ninf
  | nan
  deriving DecidableEq

/-- The binary32 result of an operation whose exact value is `q`: the rounding
`f32round q`, or the infinity of its sign when that exceeds `FLT_MAX`. -/
def F32.ofRat (q : ℚ) : F32 :=
  if FLT_MAX < f32round q then F32.pinf
  else if f32round q < -FLT_MAX then F32.ninf
  else F32.fin (f32round q)

/-- IEEE 754 multiplication on `float`. -/
def F32.mul : F32 → F32 → F32
  | F32.fin a, F32.fin b => F32.ofRat (a * b)
  | F32.nan, _ => F32.nan
  | _, F32.nan => F32.nan
  | F32.pinf, F32.fin b => if b = 0 then F32.nan else if 0 < b then F32.pinf else F32.ninf
  | F32.ninf, F32.fin b => if b = 0 then F32.nan else if 0 < b then F32.ninf else F32.pinf
  | F32.fin a, F32.pinf => if a = 0 then F32.nan else if 0 < a then F32.pinf else F32.ninf
  | F32.fin a, F32.ninf => if a = 0 then F32.nan else if 0 < a then F32.ninf else F32.pinf
  | F32.pinf, F32.pinf => F32.pinf
  | F32.pinf, F32.ninf => F32.ninf
  | F32.ninf, F32.pinf => F32.ninf
  | F32.ninf, F32.ninf => F32.pinf

/-- IEEE 754 addition on `float`. -/
def F32.add : F32 → F32 → F32
  | F32.fin a, F32.fin b => F32.ofRat (a + b)
  | F32.nan, _ => F32.nan
  | _, F32.nan => F32.nan
  | F32.pinf, F32.ninf => F32.nan
  | F32.ninf, F32.pinf => F32.nan
  | F32.pinf, _ => F32.pinf
  | _, F32.pinf => F32.pinf
  | F32.ninf, _ => F32.ninf
  | _, F32.ninf => F32.ninf

/-- IEEE 754 division on `float`; a zero divisor is taken as `+0`. -/
def F32.div : F32 → F32 → F32
  | F32.fin a, F32.fin b =>
    if b = 0 then (if a = 0 then F32.nan else if 0 < a then F32.pinf else F32.ninf)
    else F32.ofRat (a / b)
  | F32.nan, _ => F32.nan
  | _, F32.nan => F32.nan
  | F32.fin _, F32.pinf => F32.fin 0
  | F32.fin _, F32.ninf => F32.fin 0
  | F32.pinf, F32.fin b => if 0 ≤ b then F32.pinf else F32.ninf
  | F32.ninf, F32.fin b => if 0 ≤ b then F32.ninf else F32.pinf
  | F32.pinf, F32.pinf => F32.nan
  | F32.pinf, F32.ninf => F32.nan
  | F32.ninf, F32.pinf => F32.nan
  | F32.ninf, F32.ninf => F32.nan

/-- `filmic` (image.cpp:54-61) on IEEE 754 data: the same expression as `filmic`,
with overflow to infinity and NaN. -/
def filmicIEEE (x : F32) : F32 :=
  let num := (((F32.fin c251).mul x).mul x).add ((F32.fin c003).mul x)
  let den := ((((F32.fin c243).mul x).mul x).add ((F32.fin c059).mul x)).add (F32.fin c014)
  num.div den

/-! ## Evaluation on natural numbers

The rounding model computes on rationals.  The definitions of this section
compute the same values on natural numbers scaled by `2^149`; they are proved
equal to the model and serve to evaluate the finite tables over the bytes. -/

/-- One step of a binary search for the bit length: a pair `(n, s)` stands for
the number `n * 2^s` up to its low `s` bits; when `n` has more than `k` bits the
low `k` bits are shifted out. -/
def log2Step (k : ℕ) (p : ℕ × ℕ) : ℕ × ℕ :=
  if p.1 < 2 ^ k then p else (p.1 / 2 ^ k, p.2 + k)

/-- Floor of the binary logarithm of `n ≥ 1`, by binary search on the bit length
below `2^512` and by `log2Fuel` above.  It satisfies the bounds that
characterise `log2Fuel n n` (`natLog2_spec`) and evaluates in a few steps. -/
def natLog2 (n : ℕ) : ℕ :=
  if n < 2 ^ 512 then
    (log2Step 1 (log2Step 2 (log2Step 4 (log2Step 8 (log2Step 16 (log2Step 32
      (log2Step 64 (log2Step 128 (log2Step 256 (n, 0)))))))))).2
  else log2Fuel n n

/-- Rounding of the quotient `n / d` to binary32, computed on natural numbers:
the result is the rounded value times `2^149` (every non-negative binary32 value
is a multiple of `2^-149`).  `ld` is the binary logarithm of `d`.  It agrees with
`f32round` (`f32round_natDiv`) and serves to evaluate finite tables. -/
def roundNat (n d ld : ℕ) : ℕ :=
  let ln := natLog2 n
  let P := if ln + 126 ≤ ld then 0
    else ln + 126 - ld - (if 2 ^ ln * d ≤ n * 2 ^ ld then 0 else 1)
  let N := n * 2 ^ 149
  let D := d * 2 ^ P
  let f := N / D
  let r := N % D
  (if 2 * r < D then f else if D < 2 * r then f + 1 else if f % 2 = 0 then f else f + 1)
    * 2 ^ P

/-- The value `f32pred (n / d)` times `2^149`, computed on natural numbers, for
a quotient of binary exponent at least `-125`; `ld` is the binary logarithm of
`d`.  It agrees with `f32pred` (`f32pred_natDiv`). -/
def predNat (n d ld : ℕ) : ℕ :=
  let ln := natLog2 n
  let Q := ln + 126 - ld - (if 2 ^ ln * d ≤ n * 2 ^ ld then 0 else 1)
  let N := n * 2 ^ 149
  let D := d * 2 ^ Q
  if n * 2 ^ 126 = d * 2 ^ Q then (2 ^ 24 - 1) * 2 ^ (Q - 1)
  else ((N + D - 1) / D - 1) * 2 ^ Q

/-- The alpha step of `compose` evaluated on natural numbers scaled by `2^149`;
it agrees with `alphaOver` (`alphaOver_eq_nat`). -/
def alphaOverNat (above below : ℕ) : ℕ :=
  let a := roundNat above 255 7
  let b := roundNat below 255 7
  let s := roundNat (2 ^ 149 - a) (2 ^ 149) 149
  let t := roundNat (b * s) (2 ^ 298) 298
  let v := roundNat (a + t) (2 ^ 149) 149
  (roundNat (255 * v) (2 ^ 149) 149 / 2 ^ 149) % 256

/-! ## Lemmas on the rounding model -/

theorem log2Fuel_spec (fuel : ℕ) : ∀ n : ℕ, 1 ≤ n → n ≤ fuel →
    2 ^ log2Fuel fuel n ≤ n ∧ n < 2 ^ (log2Fuel fuel n + 1) := by
  induction fuel with
  | zero => intro n h1 h2; omega
  | succ k ih =>
    intro n h1 h2
    unfold log2Fuel
    by_cases hn : n < 2
    · simp only [hn, if_true]
      constructor
      · simpa using h1
      · simpa using hn
    · simp only [hn, if_false]
      have hk := ih (n / 2) (by omega) (by omega)
      constructor
      · have : 2 ^ (log2Fuel k (n / 2) + 1) = 2 * 2 ^ log2Fuel k (n / 2) := by ring
        rw [this]; omega
      · have : 2 ^ (log2Fuel k (n / 2) + 1 + 1) = 2 * 2 ^ (log2Fuel k (n / 2) + 1) := by ring
        rw [this]; omega

theorem ilog2_spec (a : ℚ) (ha : 0 < a) :
    (2 : ℚ) ^ ilog2 a ≤ a ∧ a < (2 : ℚ) ^ (ilog2 a + 1) := by
  have hnum : 0 < a.num := Rat.num_pos.mpr ha
  have hden : 0 < a.den := a.den_pos
  obtain ⟨n, hn⟩ : ∃ n : ℕ, a.num = n := ⟨a.num.natAbs, by omega⟩
  have hn1 : 1 ≤ n := by omega
  have hN := log2Fuel_spec n n hn1 le_rfl
  have hD := log2Fuel_spec a.den a.den hden le_rfl
  have hnat : a.num.natAbs = n := by omega
  have haeq : a = (n : ℚ) / (a.den : ℚ) := by
    conv_lhs => rw [← Rat.num_div_den a, hn]
    rw [Int.cast_natCast]
  have hdq : (0 : ℚ) < (a.den : ℚ) := by exact_mod_cast hden
  have hN1 : (2 : ℚ) ^ (log2Fuel n n : ℤ) ≤ (n : ℚ) := by
    rw [zpow_natCast]; exact_mod_cast hN.1
  have hN2 : (n : ℚ) < (2 : ℚ) ^ ((log2Fuel n n : ℤ) + 1) := by
    have : ((log2Fuel n n : ℤ) + 1) = ((log2Fuel n n + 1 : ℕ) : ℤ) := by push_cast; ring
    rw [this, zpow_natCast]; exact_mod_cast hN.2
  have hD1 : (2 : ℚ) ^ (log2Fuel a.den a.den : ℤ) ≤ (a.den : ℚ) := by
    rw [zpow_natCast]; exact_mod_cast hD.1
  have hD2 : (a.den : ℚ) < (2 : ℚ) ^ ((log2Fuel a.den a.den : ℤ) + 1) := by
    have : ((log2Fuel a.den a.den : ℤ) + 1) = ((log2Fuel a.den a.den + 1 : ℕ) : ℤ) := by
      push_cast; ring
    rw [this, zpow_natCast]; exact_mod_cast hD.2
  have h2 : (0 : ℚ) < 2 := by norm_num
  have h2ne : (2 : ℚ) ≠ 0 := by norm_num
  unfold ilog2
  simp only [hnat]
  set LN : ℤ := (log2Fuel n n : ℤ) with hLN
  set LD : ℤ := (log2Fuel a.den a.den : ℤ) with hLD
  by_cases hc : (2 : ℚ) ^ (LN - LD) ≤ a
  · simp only [hc, if_true, true_and]
    -- a = n / d < 2^(LN+1) / 2^LD
    have h1 : (2 : ℚ) ^ (LN - LD + 1) = (2 : ℚ) ^ (LN + 1) / (2 : ℚ) ^ LD := by
      rw [← zpow_sub₀ h2ne]; congr 1; ring
    rw [h1, haeq, div_lt_div_iff₀ hdq (zpow_pos h2 _)]
    calc (n : ℚ) * 2 ^ LD ≤ (n : ℚ) * a.den :=
          mul_le_mul_of_nonneg_left hD1 (by positivity)
      _ < 2 ^ (LN + 1) * a.den := mul_lt_mul_of_pos_right hN2 hdq
  · simp only [hc, if_false]
    push_neg at hc
    constructor
    · have h1 : (2 : ℚ) ^ (LN - LD - 1) = (2 : ℚ) ^ LN / (2 : ℚ) ^ (LD + 1) := by
        rw [← zpow_sub₀ h2ne]; congr 1; ring
      rw [h1, haeq, div_le_div_iff₀ (zpow_pos h2 _) hdq]
      calc (2 : ℚ) ^ LN * a.den ≤ (n : ℚ) * a.den :=
            mul_le_mul_of_nonneg_right hN1 (le_of_lt hdq)
        _ ≤ (n : ℚ) * 2 ^ (LD + 1) :=
            mul_le_mul_of_nonneg_left (le_of_lt hD2) (by positivity)
    · have : LN - LD - 1 + 1 = LN - LD := by ring
      rw [this]; exact hc

theorem ilog2_mono (a b : ℚ) (ha : 0 < a) (hab : a ≤ b) : ilog2 a ≤ ilog2 b := by
  have h1 := (ilog2_spec a ha).1
  have h2 := (ilog2_spec b (lt_of_lt_of_le ha hab)).2
  have h3 : (2 : ℚ) ^ ilog2 a < (2 : ℚ) ^ (ilog2 b + 1) :=
    lt_of_le_of_lt (le_trans h1 hab) h2
  have := (zpow_lt_zpow_iff_right₀ (by norm_num : (1 : ℚ) < 2)).mp h3
  omega

theorem roundEven_lower (t : ℚ) : ⌊t⌋ ≤ roundEven t := by
  unfold roundEven
  simp only
  split_ifs <;> omega

theorem roundEven_upper (t : ℚ) : roundEven t ≤ ⌊t⌋ + 1 := by
  unfold roundEven
  simp only
  split_ifs <;> omega

theorem roundEven_intCast (G : ℤ) : roundEven (G : ℚ) = G := by
  unfold roundEven
  simp

theorem roundEven_ge_of_int_le (t : ℚ) (G : ℤ) (h : (G : ℚ) ≤ t) : G ≤ roundEven t :=
  le_trans (Int.le_floor.mpr h) (roundEven_lower t)

theorem roundEven_le_of_le_int (t : ℚ) (G : ℤ) (h : t ≤ (G : ℚ)) : roundEven t ≤ G := by
  rcases eq_or_lt_of_le h with h1 | h1
  · rw [h1, roundEven_intCast]
  · have : ⌊t⌋ < G := Int.floor_lt.mpr h1
    have := roundEven_upper t
    omega

theorem roundEven_mono (s t : ℚ) (h : s ≤ t) : roundEven s ≤ roundEven t := by
  have hf : ⌊s⌋ ≤ ⌊t⌋ := Int.floor_mono h
  rcases eq_or_lt_of_le hf with he | hl
  · have hs : s - ⌊s⌋ ≤ t - ⌊s⌋ := by linarith
    unfold roundEven
    simp only [← he]
    split_ifs <;> first | omega | (exfalso; linarith)
  · have := roundEven_upper s
    have := roundEven_lower t
    omega

theorem roundEven_err (t : ℚ) : |(roundEven t : ℚ) - t| ≤ 1 / 2 := by
  have h1 : (⌊t⌋ : ℚ) ≤ t := Int.floor_le t
  have h2 : t < ⌊t⌋ + 1 := Int.lt_floor_add_one t
  unfold roundEven
  simp only
  rw [abs_le]
  split_ifs <;> push_cast <;> constructor <;> linarith

theorem f32ulp_pos (q : ℚ) : 0 < f32ulp q := by
  unfold f32ulp; positivity

theorem f32round_eq (q : ℚ) (hq : q ≠ 0) :
    f32round q = (roundEven (q / f32ulp q) : ℚ) * f32ulp q := by
  unfold f32round; simp [hq]

theorem f32round_zero : f32round 0 = 0 := by
  unfold f32round; simp

theorem f32round_ge_grid (q : ℚ) (G : ℤ) (h : (G : ℚ) * f32ulp q ≤ q) (hq : q ≠ 0) :
    (G : ℚ) * f32ulp q ≤ f32round q := by
  rw [f32round_eq q hq]
  have hu := f32ulp_pos q
  have h1 : (G : ℚ) ≤ q / f32ulp q := by rw [le_div_iff₀ hu]; exact h
  have h2 := roundEven_ge_of_int_le _ G h1
  exact mul_le_mul_of_nonneg_right (by exact_mod_cast h2) (le_of_lt hu)

theorem f32round_le_grid (q : ℚ) (G : ℤ) (h : q ≤ (G : ℚ) * f32ulp q) (hq : q ≠ 0) :
    f32round q ≤ (G : ℚ) * f32ulp q := by
  rw [f32round_eq q hq]
  have hu := f32ulp_pos q
  have h1 : q / f32ulp q ≤ (G : ℚ) := by rw [div_le_iff₀ hu]; exact h
  have h2 := roundEven_le_of_le_int _ G h1
  exact mul_le_mul_of_nonneg_right (by exact_mod_cast h2) (le_of_lt hu)

theorem f32round_nonneg (q : ℚ) (h : 0 ≤ q) : 0 ≤ f32round q := by
  rcases eq_or_lt_of_le h with h0 | h0
  · rw [← h0, f32round_zero]
  · have := f32round_ge_grid q 0 (by simpa using h) (ne_of_gt h0)
    simpa using this

/-- Rounding above the next power of two is impossible: a positive `q` rounds to
at most `2^(e+1)` and at least `2^e`, `e` the exponent used for its grid. -/
theorem f32round_binade (q : ℚ) (hq : 0 < q) :
    f32round q ≤ (2 : ℚ) ^ (max (ilog2 q) (-126) + 1) ∧
    (ilog2 q = max (ilog2 q) (-126) → (2 : ℚ) ^ (ilog2 q) ≤ f32round q) := by
  have habs : |q| = q := abs_of_pos hq
  have hu : f32ulp q = (2 : ℚ) ^ (max (ilog2 q) (-126) - 23) := by
    unfold f32ulp; rw [habs]
  have h2ne : (2 : ℚ) ≠ 0 := by norm_num
  have hs := ilog2_spec q hq
  constructor
  · have hG : (2 : ℚ) ^ (max (ilog2 q) (-126) + 1) = ((2 ^ 24 : ℤ) : ℚ) * f32ulp q := by
      have h24 : (2 : ℚ) ^ (max (ilog2 q) (-126) + 1)
          = (2 : ℚ) ^ (24 : ℤ) * (2 : ℚ) ^ (max (ilog2 q) (-126) - 23) := by
        rw [← zpow_add₀ h2ne]; congr 1; ring
      rw [hu, h24]; norm_num
    rw [hG]
    apply f32round_le_grid q _ _ (ne_of_gt hq)
    rw [← hG]
    refine le_trans (le_of_lt hs.2) ?_
    exact zpow_le_zpow_right₀ (by norm_num) (by have := le_max_left (ilog2 q) (-126); omega)
  · intro he
    have hG : (2 : ℚ) ^ (ilog2 q) = ((2 ^ 23 : ℤ) : ℚ) * f32ulp q := by
      have h23 : (2 : ℚ) ^ (ilog2 q) = (2 : ℚ) ^ (23 : ℤ) * (2 : ℚ) ^ (ilog2 q - 23) := by
        rw [← zpow_add₀ h2ne]; congr 1; ring
      rw [hu, ← he, h23]; norm_num
    rw [hG]
    apply f32round_ge_grid q _ _ (ne_of_gt hq)
    rw [← hG]
    exact hs.1

theorem f32round_mono_pos (q r : ℚ) (hq : 0 < q) (hqr : q ≤ r) :
    f32round q ≤ f32round r := by
  have hr : 0 < r := lt_of_lt_of_le hq hqr
  have hl := ilog2_mono q r hq hqr
  have hqa : |q| = q := abs_of_pos hq
  have hra : |r| = r := abs_of_pos hr
  rcases eq_or_lt_of_le (max_le_max_right (-126) hl) with he | hlt
  · have hu : f32ulp q = f32ulp r := by
      unfold f32ulp; rw [hqa, hra, he]
    rw [f32round_eq q (ne_of_gt hq), f32round_eq r (ne_of_gt hr), hu]
    have hup := f32ulp_pos r
    have h1 : q / f32ulp r ≤ r / f32ulp r := div_le_div_of_nonneg_right hqr (le_of_lt hup)
    have h2 := roundEven_mono _ _ h1
    exact mul_le_mul_of_nonneg_right (by exact_mod_cast h2) (le_of_lt hup)
  · have hr' : ilog2 r = max (ilog2 r) (-126) := by
      have := le_max_right (ilog2 q) (-126)
      rw [max_eq_left]; omega
    have h1 := (f32round_binade q hq).1
    have h2 := (f32round_binade r hr).2 hr'
    refine le_trans h1 (le_trans ?_ h2)
    exact zpow_le_zpow_right₀ (by norm_num) (by omega)

theorem f32round_mono_nonneg (q r : ℚ) (hq : 0 ≤ q) (hqr : q ≤ r) :
    f32round q ≤ f32round r := by
  rcases eq_or_lt_of_le hq with h0 | h0
  · rw [← h0, f32round_zero]; exact f32round_nonneg r (le_trans hq hqr)
  · exact f32round_mono_pos q r h0 hqr

/-- A positive binary32 value is an integer of at most 24 bits times a power of two. -/
theorem IsF32.exists_mantissa (c : ℚ) (hc : IsF32 c) (hpos : 0 < c) :
    ∃ M k : ℤ, c = (M : ℚ) * (2 : ℚ) ^ k ∧ M ≤ 2 ^ 24 := by
  have habs : |c| = c := abs_of_pos hpos
  have hu : f32ulp c = (2 : ℚ) ^ (max (ilog2 c) (-126) - 23) := by
    unfold f32ulp; rw [habs]
  refine ⟨roundEven (c / f32ulp c), max (ilog2 c) (-126) - 23, ?_, ?_⟩
  · have h := f32round_eq c (ne_of_gt hpos)
    rw [hc, hu] at h
    rw [hu]; exact h
  · apply roundEven_le_of_le_int
    rw [div_le_iff₀ (f32ulp_pos c), hu]
    have h2ne : (2 : ℚ) ≠ 0 := by norm_num
    have h24 : (((2 : ℤ) ^ 24 : ℤ) : ℚ) * (2 : ℚ) ^ (max (ilog2 c) (-126) - 23)
        = (2 : ℚ) ^ (max (ilog2 c) (-126) + 1) := by
      have : (2 : ℚ) ^ (max (ilog2 c) (-126) + 1)
          = (2 : ℚ) ^ (24 : ℤ) * (2 : ℚ) ^ (max (ilog2 c) (-126) - 23) := by
        rw [← zpow_add₀ h2ne]; congr 1; ring
      rw [this]; norm_num
    rw [h24]
    refine le_trans (le_of_lt (ilog2_spec c hpos).2) ?_
    exact zpow_le_zpow_right₀ (by norm_num) (by have := le_max_left (ilog2 c) (-126); omega)

/-- Between two neighbours `N*2^j` and `(N+1)*2^j` of a grid with `N ≥ 2^23`
there is no number with a 24-bit mantissa. -/
theorem grid_gap (M N k j : ℤ) (hM : M ≤ 2 ^ 24) (hN : 2 ^ 23 ≤ N)
    (h : (M : ℚ) * (2 : ℚ) ^ k < ((N : ℚ) + 1) * (2 : ℚ) ^ j) :
    (M : ℚ) * (2 : ℚ) ^ k ≤ (N : ℚ) * (2 : ℚ) ^ j := by
  have h2ne : (2 : ℚ) ≠ 0 := by norm_num
  have hjpos : (0 : ℚ) < (2 : ℚ) ^ j := by positivity
  have hkpos : (0 : ℚ) < (2 : ℚ) ^ k := by positivity
  by_cases hkj : k < j
  · have h1 : (2 : ℚ) ^ k ≤ (2 : ℚ) ^ (j - 1) :=
      zpow_le_zpow_right₀ (by norm_num) (by omega)
    have h2 : (2 : ℚ) ^ j = 2 * (2 : ℚ) ^ (j - 1) := by
      rw [← zpow_one_add₀ h2ne]; congr 1; ring
    have hMq : (M : ℚ) ≤ 2 ^ 24 := by exact_mod_cast hM
    have hNq : (2 : ℚ) ^ 23 ≤ (N : ℚ) := by exact_mod_cast hN
    have hj1 : (0 : ℚ) < (2 : ℚ) ^ (j - 1) := by positivity
    calc (M : ℚ) * (2 : ℚ) ^ k ≤ 2 ^ 24 * (2 : ℚ) ^ k :=
          mul_le_mul_of_nonneg_right hMq (le_of_lt hkpos)
      _ ≤ 2 ^ 24 * (2 : ℚ) ^ (j - 1) := mul_le_mul_of_nonneg_left h1 (by norm_num)
      _ = 2 ^ 23 * (2 : ℚ) ^ j := by rw [h2]; ring
      _ ≤ (N : ℚ) * (2 : ℚ) ^ j := mul_le_mul_of_nonneg_right hNq (le_of_lt hjpos)
  · push_neg at hkj
    obtain ⟨d, hd⟩ : ∃ d : ℕ, k = j + d := ⟨(k - j).toNat, by omega⟩
    have hk : (2 : ℚ) ^ k = (2 : ℚ) ^ (d : ℕ) * (2 : ℚ) ^ j := by
      rw [hd, zpow_add₀ h2ne, zpow_natCast]; ring
    rw [hk, ← mul_assoc] at h ⊢
    have h3 : (M : ℚ) * 2 ^ d < (N : ℚ) + 1 := lt_of_mul_lt_mul_right h (le_of_lt hjpos)
    have h4 : M * 2 ^ d < N + 1 := by exact_mod_cast h3
    have h5 : M * 2 ^ d ≤ N := by omega
    have h6 : (M : ℚ) * 2 ^ d ≤ (N : ℚ) := by exact_mod_cast h5
    exact mul_le_mul_of_nonneg_right h6 (le_of_lt hjpos)

/-- Every positive binary32 value below `x` is at most `f32pred x`. -/
theorem IsF32.le_pred (c x : ℚ) (hc : IsF32 c) (hpos : 0 < c) (hcx : c < x) :
    c ≤ f32pred x := by
  obtain ⟨M, k, hMk, hM⟩ := hc.exists_mantissa c hpos
  have hx : 0 < x := lt_trans hpos hcx
  have hs := ilog2_spec x hx
  have h2ne : (2 : ℚ) ≠ 0 := by norm_num
  unfold f32pred
  simp only
  by_cases hp : x = (2 : ℚ) ^ ilog2 x
  · rw [if_pos hp]
    have hN : ((2 : ℚ) ^ 24 - 1) = (((2 ^ 24 - 1 : ℤ)) : ℚ) := by norm_num
    rw [hN, hMk]
    apply grid_gap M _ k _ hM (by norm_num)
    rw [← hMk]
    have : (((2 ^ 24 - 1 : ℤ) : ℚ) + 1) * (2 : ℚ) ^ (ilog2 x - 24) = (2 : ℚ) ^ ilog2 x := by
      have h24 : (2 : ℚ) ^ (ilog2 x) = (2 : ℚ) ^ (24 : ℤ) * (2 : ℚ) ^ (ilog2 x - 24) := by
        rw [← zpow_add₀ h2ne]; congr 1; ring
      rw [h24]; norm_num
    rw [this, ← hp]; exact hcx
  · rw [if_neg hp]
    have hjpos : (0 : ℚ) < (2 : ℚ) ^ (ilog2 x - 23) := by positivity
    have h23 : (2 : ℚ) ^ (ilog2 x) = (2 : ℚ) ^ (23 : ℤ) * (2 : ℚ) ^ (ilog2 x - 23) := by
      rw [← zpow_add₀ h2ne]; congr 1; ring
    have hlt : ((2 ^ 23 : ℤ) : ℚ) < x / (2 : ℚ) ^ (ilog2 x - 23) := by
      rw [lt_div_iff₀ hjpos]
      have h1 : (2 : ℚ) ^ ilog2 x < x := lt_of_le_of_ne hs.1 (Ne.symm hp)
      have : (((2 : ℤ) ^ 23 : ℤ) : ℚ) * (2 : ℚ) ^ (ilog2 x - 23) = (2 : ℚ) ^ ilog2 x := by
        rw [h23]; norm_num
      rw [this]; exact h1
    have hceil : (2 : ℤ) ^ 23 < ⌈x / (2 : ℚ) ^ (ilog2 x - 23)⌉ := Int.lt_ceil.mpr hlt
    have hN : ((⌈x / (2 : ℚ) ^ (ilog2 x - 23)⌉ : ℚ) - 1)
        = ((⌈x / (2 : ℚ) ^ (ilog2 x - 23)⌉ - 1 : ℤ) : ℚ) := by push_cast; ring
    rw [hN, hMk]
    apply grid_gap M _ k _ hM (by omega)
    rw [← hMk]
    push_cast
    have : x ≤ (⌈x / (2 : ℚ) ^ (ilog2 x - 23)⌉ : ℚ) * (2 : ℚ) ^ (ilog2 x - 23) := by
      rw [← div_le_iff₀ hjpos]; exact Int.le_ceil _
    calc c < x := hcx
      _ ≤ _ := this
      _ = _ := by ring

/-! ## Evaluation of the rounding on natural numbers -/

theorem ilog2_unique (a : ℚ) (k : ℤ) (ha : 0 < a) (h1 : (2 : ℚ) ^ k ≤ a)
    (h2 : a < (2 : ℚ) ^ (k + 1)) : ilog2 a = k := by
  obtain ⟨s1, s2⟩ := ilog2_spec a ha
  have g1 : (2 : ℚ) ^ k < (2 : ℚ) ^ (ilog2 a + 1) := lt_of_le_of_lt h1 s2
  have g2 : (2 : ℚ) ^ ilog2 a < (2 : ℚ) ^ (k + 1) := lt_of_le_of_lt s1 h2
  have := (zpow_lt_zpow_iff_right₀ (by norm_num : (1 : ℚ) < 2)).mp g1
  have := (zpow_lt_zpow_iff_right₀ (by norm_num : (1 : ℚ) < 2)).mp g2
  omega

theorem log2Step_inv (k b : ℕ) (n0 : ℕ) (p : ℕ × ℕ) (hb : b ≤ 2 * k)
    (h : 0 < p.1 ∧ p.1 * 2 ^ p.2 ≤ n0 ∧ n0 < (p.1 + 1) * 2 ^ p.2 ∧ p.1 < 2 ^ b) :
    0 < (log2Step k p).1 ∧ (log2Step k p).1 * 2 ^ (log2Step k p).2 ≤ n0 ∧
      n0 < ((log2Step k p).1 + 1) * 2 ^ (log2Step k p).2 ∧ (log2Step k p).1 < 2 ^ k := by
  obtain ⟨h0, h1, h2, h3⟩ := h
  unfold log2Step
  by_cases hk : p.1 < 2 ^ k
  · rw [if_pos hk]; exact ⟨h0, h1, h2, hk⟩
  · rw [if_neg hk]
    have hk' : 2 ^ k ≤ p.1 := not_lt.mp hk
    have hpos : 0 < 2 ^ k := Nat.pow_pos (by norm_num)
    have hdm := Nat.div_add_mod p.1 (2 ^ k)
    have hml := Nat.mod_lt p.1 hpos
    have hpow : 2 ^ (p.2 + k) = 2 ^ k * 2 ^ p.2 := by rw [pow_add, mul_comm]
    have hq0 : 0 < 2 ^ p.2 := Nat.pow_pos (by norm_num)
    refine ⟨Nat.div_pos hk' hpos, ?_, ?_, ?_⟩
    · show p.1 / 2 ^ k * 2 ^ (p.2 + k) ≤ n0
      rw [hpow, ← mul_assoc]
      have : p.1 / 2 ^ k * 2 ^ k ≤ p.1 := Nat.div_mul_le_self _ _
      exact le_trans (Nat.mul_le_mul_right _ this) h1
    · show n0 < (p.1 / 2 ^ k + 1) * 2 ^ (p.2 + k)
      rw [hpow, ← mul_assoc]
      have : p.1 + 1 ≤ (p.1 / 2 ^ k + 1) * 2 ^ k := by
        have : (p.1 / 2 ^ k + 1) * 2 ^ k = 2 ^ k * (p.1 / 2 ^ k) + 2 ^ k := by ring
        omega
      exact lt_of_lt_of_le h2 (Nat.mul_le_mul_right _ this)
    · show p.1 / 2 ^ k < 2 ^ k
      apply Nat.div_lt_of_lt_mul
      have : 2 ^ b ≤ 2 ^ k * 2 ^ k := by
        rw [← pow_add]; exact Nat.pow_le_pow_right (by norm_num) (by omega)
      omega

theorem natLog2_spec (n : ℕ) (hn : 1 ≤ n) :
    2 ^ natLog2 n ≤ n ∧ n < 2 ^ (natLog2 n + 1) := by
  unfold natLog2
  by_cases hlt : n < 2 ^ 512
  · rw [if_pos hlt]
    have i0 : 0 < ((n, 0) : ℕ × ℕ).1 ∧ ((n, 0) : ℕ × ℕ).1 * 2 ^ ((n, 0) : ℕ × ℕ).2 ≤ n ∧
        n < (((n, 0) : ℕ × ℕ).1 + 1) * 2 ^ ((n, 0) : ℕ × ℕ).2 ∧
        ((n, 0) : ℕ × ℕ).1 < 2 ^ 512 := by
      refine ⟨hn, by simp, by simp, hlt⟩
    have i1 := log2Step_inv 256 512 n _ (by norm_num) i0
    have i2 := log2Step_inv 128 256 n _ (by norm_num) i1
    have i3 := log2Step_inv 64 128 n _ (by norm_num) i2
    have i4 := log2Step_inv 32 64 n _ (by norm_num) i3
    have i5 := log2Step_inv 16 32 n _ (by norm_num) i4
    have i6 := log2Step_inv 8 16 n _ (by norm_num) i5
    have i7 := log2Step_inv 4 8 n _ (by norm_num) i6
    have i8 := log2Step_inv 2 4 n _ (by norm_num) i7
    have i9 := log2Step_inv 1 2 n _ (by norm_num) i8
    generalize (log2Step 1 (log2Step 2 (log2Step 4 (log2Step 8 (log2Step 16 (log2Step 32
      (log2Step 64 (log2Step 128 (log2Step 256 (n, 0)))))))))) = p at i9 ⊢
    obtain ⟨h0, h1, h2, h3⟩ := i9
    have hp1 : p.1 = 1 := by omega
    rw [hp1] at h1 h2
    constructor
    · simpa using h1
    · rw [pow_succ]; omega
  · rw [if_neg hlt]
    exact log2Fuel_spec n n hn le_rfl

theorem roundEven_natDiv (N D : ℕ) (hD : 0 < D) :
    roundEven ((N : ℚ) / D) =
      ((if 2 * (N % D) < D then N / D else if D < 2 * (N % D) then N / D + 1
        else if (N / D) % 2 = 0 then N / D else N / D + 1 : ℕ) : ℤ) := by
  have hDq : (0 : ℚ) < D := by exact_mod_cast hD
  have hfl : ⌊(N : ℚ) / D⌋ = ((N / D : ℕ) : ℤ) := by
    rw [Rat.floor_natCast_div_natCast]; norm_cast
  have hdm : (N : ℚ) = (D : ℚ) * ((N / D : ℕ) : ℚ) + ((N % D : ℕ) : ℚ) := by
    exact_mod_cast (Nat.div_add_mod N D).symm
  have hr : (N : ℚ) / D - ((N / D : ℕ) : ℚ) = ((N % D : ℕ) : ℚ) / D := by
    field_simp; linarith
  unfold roundEven
  simp only [hfl, Int.cast_natCast, hr]
  have c1 : ((N % D : ℕ) : ℚ) / D < 1 / 2 ↔ 2 * (N % D) < D := by
    rw [div_lt_div_iff₀ hDq (by norm_num)]
    constructor
    · intro h; have : ((2 * (N % D) : ℕ) : ℚ) < (D : ℚ) := by push_cast; linarith
      exact_mod_cast this
    · intro h; have : ((2 * (N % D) : ℕ) : ℚ) < (D : ℚ) := by exact_mod_cast h
      push_cast at this; linarith
  have c2 : 1 / 2 < ((N % D : ℕ) : ℚ) / D ↔ D < 2 * (N % D) := by
    rw [div_lt_div_iff₀ (by norm_num) hDq]
    constructor
    · intro h; have : (D : ℚ) < ((2 * (N % D) : ℕ) : ℚ) := by push_cast; linarith
      exact_mod_cast this
    · intro h; have : (D : ℚ) < ((2 * (N % D) : ℕ) : ℚ) := by exact_mod_cast h
      push_cast at this; linarith
  have c3 : ((N / D : ℕ) : ℤ) % 2 = 0 ↔ (N / D) % 2 = 0 := by omega
  simp only [c1, c2, c3]
  split_ifs <;> push_cast <;> rfl

theorem ilog2_natDiv (n d ld : ℕ) (hn : 0 < n) (h1 : 2 ^ ld ≤ d) (h2 : d < 2 ^ (ld + 1)) :
    ilog2 ((n : ℚ) / d) = (natLog2 n : ℤ) - (ld : ℤ)
      - (if 2 ^ natLog2 n * d ≤ n * 2 ^ ld then 0 else 1) := by
  obtain ⟨s1, s2⟩ := natLog2_spec n hn
  generalize natLog2 n = L at s1 s2 ⊢
  have hd : 0 < d := lt_of_lt_of_le (Nat.pow_pos (by norm_num)) h1
  have hnq : (0 : ℚ) < n := by exact_mod_cast hn
  have hdq : (0 : ℚ) < d := by exact_mod_cast hd
  have q1 : (2 : ℚ) ^ L ≤ n := by exact_mod_cast s1
  have q2 : (n : ℚ) < 2 * 2 ^ L := by
    have : (n : ℚ) < ((2 ^ (L + 1) : ℕ) : ℚ) := by exact_mod_cast s2
    push_cast at this; rw [pow_succ] at this; linarith
  have q3 : (2 : ℚ) ^ ld ≤ d := by exact_mod_cast h1
  have q4 : (d : ℚ) < 2 * 2 ^ ld := by
    have : (d : ℚ) < ((2 ^ (ld + 1) : ℕ) : ℚ) := by exact_mod_cast h2
    push_cast at this; rw [pow_succ] at this; linarith
  have pL : (0 : ℚ) < 2 ^ L := by positivity
  have pd : (0 : ℚ) < 2 ^ ld := by positivity
  have z0 : (2 : ℚ) ^ ((L : ℤ) - (ld : ℤ)) = 2 ^ L / 2 ^ ld := by
    rw [zpow_sub₀ (by norm_num), zpow_natCast, zpow_natCast]
  have z1 : (2 : ℚ) ^ ((L : ℤ) - (ld : ℤ) + 1) = 2 * 2 ^ L / 2 ^ ld := by
    rw [zpow_add₀ (by norm_num), z0, zpow_one]; ring
  have zm : (2 : ℚ) ^ ((L : ℤ) - (ld : ℤ) - 1) = 2 ^ L / (2 * 2 ^ ld) := by
    rw [zpow_sub₀ (by norm_num), z0, zpow_one]; field_simp; ring
  apply ilog2_unique _ _ (div_pos hnq hdq)
  · by_cases hc : 2 ^ L * d ≤ n * 2 ^ ld
    · rw [if_pos hc, sub_zero, z0, div_le_div_iff₀ pd hdq]
      exact_mod_cast hc
    · rw [if_neg hc, zm, div_le_div_iff₀ (by positivity) hdq]
      have e1 : (2 : ℚ) ^ L * d ≤ 2 ^ L * (2 * 2 ^ ld) :=
        mul_le_mul_of_nonneg_left (le_of_lt q4) (le_of_lt pL)
      have e2 : (2 : ℚ) ^ L * (2 * 2 ^ ld) ≤ n * (2 * 2 ^ ld) :=
        mul_le_mul_of_nonneg_right q1 (by positivity)
      linarith
  · by_cases hc : 2 ^ L * d ≤ n * 2 ^ ld
    · rw [if_pos hc, sub_zero, z1, div_lt_div_iff₀ hdq pd]
      have e1 : (n : ℚ) * 2 ^ ld < 2 * 2 ^ L * 2 ^ ld := mul_lt_mul_of_pos_right q2 pd
      have e2 : (2 : ℚ) * 2 ^ L * 2 ^ ld ≤ 2 * 2 ^ L * d :=
        mul_le_mul_of_nonneg_left q3 (by positivity)
      linarith
    · rw [if_neg hc, sub_add_cancel, z0, div_lt_div_iff₀ hdq pd]
      have : n * 2 ^ ld < 2 ^ L * d := not_le.mp hc
      exact_mod_cast this

theorem roundNat_zero (d ld : ℕ) (hd : 0 < d) : roundNat 0 d ld = 0 := by
  unfold roundNat
  simp only [Nat.zero_mul, Nat.zero_div, Nat.zero_mod, Nat.mul_zero]
  have hD : ∀ P : ℕ, 0 < d * 2 ^ P := fun P => Nat.mul_pos hd (Nat.pow_pos (by norm_num))
  simp [hD]

theorem f32round_natDiv (n d ld : ℕ) (h1 : 2 ^ ld ≤ d) (h2 : d < 2 ^ (ld + 1)) :
    f32round ((n : ℚ) / d) = (roundNat n d ld : ℚ) / 2 ^ 149 := by
  have hd : 0 < d := lt_of_lt_of_le (Nat.pow_pos (by norm_num)) h1
  have hdq : (0 : ℚ) < d := by exact_mod_cast hd
  rcases Nat.eq_zero_or_pos n with hn0 | hn
  · subst hn0
    rw [roundNat_zero d ld hd]; simp [f32round_zero]
  have hnq : (0 : ℚ) < n := by exact_mod_cast hn
  have hq : (0 : ℚ) < (n : ℚ) / d := div_pos hnq hdq
  have he := ilog2_natDiv n d ld hn h1 h2
  rw [f32round_eq _ (ne_of_gt hq)]
  unfold f32ulp roundNat
  rw [abs_of_pos hq, he]
  generalize natLog2 n = L
  simp only
  generalize hP : (if L + 126 ≤ ld then 0
    else L + 126 - ld - (if 2 ^ L * d ≤ n * 2 ^ ld then 0 else 1)) = P
  have hE : max ((L : ℤ) - (ld : ℤ) - (if 2 ^ L * d ≤ n * 2 ^ ld then 0 else 1)) (-126) - 23
      = (P : ℤ) - 149 := by
    rw [← hP]
    by_cases c : 2 ^ L * d ≤ n * 2 ^ ld
    · simp only [c, if_true]
      by_cases a : L + 126 ≤ ld
      · rw [if_pos a, max_eq_right (by omega)]; norm_num
      · rw [if_neg a, max_eq_left (by omega)]; omega
    · simp only [c, if_false]
      by_cases a : L + 126 ≤ ld
      · rw [if_pos a, max_eq_right (by omega)]; norm_num
      · rw [if_neg a, max_eq_left (by omega)]; omega
  rw [hE]
  have hu : (2 : ℚ) ^ ((P : ℤ) - 149) = 2 ^ P / 2 ^ 149 := by
    rw [zpow_sub₀ (by norm_num), zpow_natCast]; norm_cast
  rw [hu]
  obtain ⟨K, hK⟩ : ∃ K : ℕ, 2 ^ 149 = K := ⟨_, rfl⟩
  have hKq : (2 : ℚ) ^ 149 = (K : ℚ) := by rw [← hK]; norm_num
  have hK0 : (0 : ℚ) < K := by rw [← hKq]; positivity
  rw [hK, hKq]
  have hD : 0 < d * 2 ^ P := Nat.mul_pos hd (Nat.pow_pos (by norm_num))
  have hdiv : (n : ℚ) / d / (2 ^ P / K) = ((n * K : ℕ) : ℚ) / ((d * 2 ^ P : ℕ) : ℚ) := by
    rw [Nat.cast_mul, Nat.cast_mul, Nat.cast_pow, Nat.cast_ofNat]
    field_simp
  rw [hdiv, roundEven_natDiv _ _ hD]
  generalize (if 2 * (n * K % (d * 2 ^ P)) < d * 2 ^ P then n * K / (d * 2 ^ P)
    else if d * 2 ^ P < 2 * (n * K % (d * 2 ^ P)) then n * K / (d * 2 ^ P) + 1
    else if n * K / (d * 2 ^ P) % 2 = 0 then n * K / (d * 2 ^ P)
    else n * K / (d * 2 ^ P) + 1) = m
  rw [Int.cast_natCast, Nat.cast_mul, Nat.cast_pow, Nat.cast_ofNat]
  ring

theorem toByte_natDiv (x : ℕ) : toByte ((x : ℚ) / 2 ^ 149) = (x / 2 ^ 149) % 256 := by
  unfold toByte
  have h0 : (0 : ℚ) ≤ (x : ℚ) / 2 ^ 149 := by positivity
  rw [if_pos h0]
  have hfl : ⌊(x : ℚ) / 2 ^ 149⌋ = ((x / 2 ^ 149 : ℕ) : ℤ) := by
    have h := Rat.floor_natCast_div_natCast x (2 ^ 149)
    rw [Nat.cast_pow, Nat.cast_ofNat] at h
    rw [h]; norm_cast
  rw [hfl]
  generalize x / 2 ^ 149 = y
  omega

theorem ceil_natDiv (N D : ℕ) (hD : 0 < D) :
    ⌈(N : ℚ) / D⌉ = (((N + D - 1) / D : ℕ) : ℤ) := by
  have hDq : (0 : ℚ) < D := by exact_mod_cast hD
  rw [Int.ceil_eq_iff]
  have hdm := Nat.div_add_mod (N + D - 1) D
  have hml := Nat.mod_lt (N + D - 1) hD
  generalize (N + D - 1) / D = c at hdm ⊢
  generalize (N + D - 1) % D = r at hdm hml
  have hc1 : D * c < N + D := by omega
  have hc2 : N ≤ D * c := by omega
  constructor
  · rw [lt_div_iff₀ hDq]
    have : ((D * c : ℕ) : ℚ) < ((N + D : ℕ) : ℚ) := by exact_mod_cast hc1
    push_cast at this ⊢
    linarith
  · rw [div_le_iff₀ hDq]
    have : ((N : ℕ) : ℚ) ≤ ((D * c : ℕ) : ℚ) := by exact_mod_cast hc2
    push_cast at this ⊢
    linarith

theorem f32pred_natDiv (n d ld : ℕ) (hn : 0 < n) (h1 : 2 ^ ld ≤ d) (h2 : d < 2 ^ (ld + 1))
    (hQ : ld + 2 ≤ natLog2 n + 126) :
    f32pred ((n : ℚ) / d) = (predNat n d ld : ℚ) / 2 ^ 149 := by
  have hd : 0 < d := lt_of_lt_of_le (Nat.pow_pos (by norm_num)) h1
  have hdq : (0 : ℚ) < d := by exact_mod_cast hd
  have hnq : (0 : ℚ) < n := by exact_mod_cast hn
  have he := ilog2_natDiv n d ld hn h1 h2
  unfold f32pred predNat
  simp only
  rw [he]
  generalize natLog2 n = L at hQ
  generalize hQd : L + 126 - ld - (if 2 ^ L * d ≤ n * 2 ^ ld then 0 else 1) = Q
  have hQ1 : 1 ≤ Q := by
    rw [← hQd]; split_ifs <;> omega
  have hE : (L : ℤ) - (ld : ℤ) - (if 2 ^ L * d ≤ n * 2 ^ ld then 0 else 1) = (Q : ℤ) - 126 := by
    rw [← hQd]; split_ifs <;> omega
  rw [hE]
  have u0 : (2 : ℚ) ^ ((Q : ℤ) - 126) = 2 ^ Q / 2 ^ 126 := by
    rw [zpow_sub₀ (by norm_num), zpow_natCast]; norm_cast
  have u1 : (2 : ℚ) ^ ((Q : ℤ) - 126 - 23) = 2 ^ Q / 2 ^ 149 := by
    rw [show (Q : ℤ) - 126 - 23 = (Q : ℤ) - 149 by ring, zpow_sub₀ (by norm_num), zpow_natCast]
    norm_cast
  have u2 : (2 : ℚ) ^ ((Q : ℤ) - 126 - 24) = 2 ^ (Q - 1) / 2 ^ 149 := by
    rw [show (Q : ℤ) - 126 - 24 = ((Q - 1 : ℕ) : ℤ) - 149 by omega, zpow_sub₀ (by norm_num),
      zpow_natCast]
    norm_cast
  rw [u0, u1, u2]
  obtain ⟨K, hK⟩ : ∃ K : ℕ, 2 ^ 149 = K := ⟨_, rfl⟩
  have hKq : (2 : ℚ) ^ 149 = (K : ℚ) := by rw [← hK]; norm_num
  have hK0 : (0 : ℚ) < K := by rw [← hKq]; positivity
  obtain ⟨J, hJ⟩ : ∃ J : ℕ, 2 ^ 126 = J := ⟨_, rfl⟩
  have hJq : (2 : ℚ) ^ 126 = (J : ℚ) := by rw [← hJ]; norm_num
  have hJ0 : (0 : ℚ) < J := by rw [← hJq]; positivity
  rw [hK, hKq, hJ, hJq]
  have hD : 0 < d * 2 ^ Q := Nat.mul_pos hd (Nat.pow_pos (by norm_num))
  have hcond : ((n : ℚ) / d = 2 ^ Q / J) ↔ n * J = d * 2 ^ Q := by
    rw [div_eq_div_iff (ne_of_gt hdq) (ne_of_gt hJ0)]
    constructor
    · intro h
      have : ((n * J : ℕ) : ℚ) = ((d * 2 ^ Q : ℕ) : ℚ) := by push_cast; linarith
      exact_mod_cast this
    · intro h
      have : ((n * J : ℕ) : ℚ) = ((d * 2 ^ Q : ℕ) : ℚ) := by exact_mod_cast h
      push_cast at this; linarith
  by_cases hc : n * J = d * 2 ^ Q
  · rw [if_pos (hcond.mpr hc), if_pos hc]
    have h24 : (2 : ℚ) ^ 24 - 1 = (((2 ^ 24 - 1 : ℕ)) : ℚ) := by norm_num
    rw [h24, Nat.cast_mul, Nat.cast_pow, Nat.cast_ofNat]
    ring
  · rw [if_neg (fun h => hc (hcond.mp h)), if_neg hc]
    have hdiv : (n : ℚ) / d / (2 ^ Q / K) = ((n * K : ℕ) : ℚ) / ((d * 2 ^ Q : ℕ) : ℚ) := by
      rw [Nat.cast_mul, Nat.cast_mul, Nat.cast_pow, Nat.cast_ofNat]
      field_simp
    rw [hdiv, ceil_natDiv _ _ hD]
    have hpos : 1 ≤ (n * K + d * 2 ^ Q - 1) / (d * 2 ^ Q) := by
      rw [Nat.le_div_iff_mul_le hD]
      have : 0 < n * K := Nat.mul_pos hn (by rw [← hK]; exact Nat.pow_pos (by norm_num))
      omega
    generalize (n * K + d * 2 ^ Q - 1) / (d * 2 ^ Q) = c at hpos
    rw [Int.cast_natCast, Nat.cast_mul, Nat.cast_pow, Nat.cast_ofNat, Nat.cast_sub hpos,
      Nat.cast_one]
    ring

theorem f32round_scaled (x : ℕ) :
    f32round ((x : ℚ) / 2 ^ 149) = (roundNat x (2 ^ 149) 149 : ℚ) / 2 ^ 149 := by
  have h := f32round_natDiv x (2 ^ 149) 149 le_rfl
    (Nat.pow_lt_pow_right Nat.one_lt_two (Nat.lt_succ_self 149))
  rw [Nat.cast_pow, Nat.cast_ofNat] at h
  exact h

theorem fdiv_byte_nat (a : ℕ) :
    fdiv (a : ℚ) 255 = (roundNat a 255 7 : ℚ) / 2 ^ 149 := by
  have h := f32round_natDiv a 255 7 (by norm_num) (by norm_num)
  rw [Nat.cast_ofNat] at h
  exact h

theorem fadd_scaled (x y : ℕ) :
    fadd ((x : ℚ) / 2 ^ 149) ((y : ℚ) / 2 ^ 149)
      = (roundNat (x + y) (2 ^ 149) 149 : ℚ) / 2 ^ 149 := by
  unfold fadd
  rw [← f32round_scaled, Nat.cast_add, add_div]

theorem fsub_one_scaled (y : ℕ) (hy : y ≤ 2 ^ 149) :
    fsub 1 ((y : ℚ) / 2 ^ 149) = (roundNat (2 ^ 149 - y) (2 ^ 149) 149 : ℚ) / 2 ^ 149 := by
  unfold fsub
  rw [← f32round_scaled, Nat.cast_sub hy, Nat.cast_pow, Nat.cast_ofNat, sub_div,
    div_self (by positivity)]

theorem fmul_byte_scaled (x : ℕ) :
    fmul 255 ((x : ℚ) / 2 ^ 149) = (roundNat (255 * x) (2 ^ 149) 149 : ℚ) / 2 ^ 149 := by
  unfold fmul
  rw [← f32round_scaled, Nat.cast_mul, Nat.cast_ofNat, mul_div_assoc]

set_option exponentiation.threshold 512 in
theorem fmul_scaled (x y : ℕ) :
    fmul ((x : ℚ) / 2 ^ 149) ((y : ℚ) / 2 ^ 149)
      = (roundNat (x * y) (2 ^ 298) 298 : ℚ) / 2 ^ 149 := by
  have h := f32round_natDiv (x * y) (2 ^ 298) 298 le_rfl
    (Nat.pow_lt_pow_right Nat.one_lt_two (Nat.lt_succ_self 298))
  rw [Nat.cast_pow, Nat.cast_ofNat, Nat.cast_mul] at h
  unfold fmul
  rw [← h]
  congr 1
  rw [div_mul_div_comm, ← pow_add]

set_option maxRecDepth 1000000 in
theorem roundNat_byte_table : ∀ n : ℕ, n < 256 → roundNat n 1 0 = n * 2 ^ 149 := by
  decide!

set_option maxRecDepth 1000000 in
theorem roundNat_fdiv_table : ∀ b : ℕ, b < 256 →
    b * 2 ^ 149 ≤ 255 * roundNat b 255 7 ∧
    255 * roundNat b 255 7 * 2 ^ 23 ≤ b * 2 ^ 149 * (2 ^ 23 + 1) ∧
    roundNat b 255 7 ≤ 2 ^ 149 ∧
    roundNat (roundNat b 255 7) (2 ^ 149) 149 = roundNat b 255 7 ∧
    (roundNat (255 * roundNat b 255 7) (2 ^ 149) 149 / 2 ^ 149) % 256 = b ∧
    roundNat (roundNat b 255 7 + roundNat (2 ^ 149 - roundNat b 255 7) (2 ^ 149) 149)
      (2 ^ 149) 149 = 2 ^ 149 := by
  decide!

set_option maxRecDepth 1000000 in
theorem roundNat_half_table : ∀ b : ℕ, b < 256 →
    roundNat (2 * b + 1) 2 1 = (2 * b + 1) * 2 ^ 148 := by
  decide!

set_option maxRecDepth 1000000 in
theorem roundNat_pred_table : ∀ b : ℕ, b < 255 →
    roundNat (255 * predNat (b + 1) 255 7) (2 ^ 149) 149 < (b + 1) * 2 ^ 149 := by
  decide!

theorem fdiv_byte_idem (b : ℕ) (hb : b < 256) :
    f32round (fdiv (b : ℚ) 255) = fdiv (b : ℚ) 255 := by
  rw [fdiv_byte_nat, f32round_scaled, (roundNat_fdiv_table b hb).2.2.2.1]

/-! ## Tables over the bytes -/

theorem f32round_byte : ∀ n : ℕ, n < 256 → f32round (n : ℚ) = (n : ℚ) := by
  intro n hn
  have h := f32round_natDiv n 1 0 (by norm_num) (by norm_num)
  rw [Nat.cast_one, div_one] at h
  rw [h, roundNat_byte_table n hn, Nat.cast_mul, Nat.cast_pow, Nat.cast_ofNat,
    mul_div_assoc, div_self (by positivity), mul_one]

theorem f32round_pred_table : ∀ b : ℕ, b < 255 →
    f32round (255 * f32pred (((b + 1 : ℕ) : ℚ) / 255)) < ((b + 1 : ℕ) : ℚ) := by
  intro b hb
  have h := f32pred_natDiv (b + 1) 255 7 (Nat.succ_pos b) (by norm_num) (by norm_num) (by omega)
  rw [Nat.cast_ofNat] at h
  rw [h, ← fmul, fmul_byte_scaled, div_lt_iff₀ (by positivity)]
  have t := roundNat_pred_table b hb
  have : ((roundNat (255 * predNat (b + 1) 255 7) (2 ^ 149) 149 : ℕ) : ℚ)
      < (((b + 1) * 2 ^ 149 : ℕ) : ℚ) := by exact_mod_cast t
  rw [Nat.cast_mul, Nat.cast_pow, Nat.cast_ofNat] at this
  exact this

/-- The product `255.0f * c` of a binary32 value `c` in `[0,1]` has the same
integer part as the exact product `255 * c`. -/
theorem floor_fmul_255 (c : ℚ) (hc : IsF32 c) (h0 : 0 ≤ c) (h1 : c ≤ 1) :
    ⌊fmul 255 c⌋ = ⌊255 * c⌋ := by
  unfold fmul
  set n := ⌊255 * c⌋ with hn
  have hn0 : 0 ≤ n := Int.floor_nonneg.mpr (by positivity)
  have hn255 : n ≤ 255 := by
    have : (255 : ℚ) * c ≤ ((255 : ℤ) : ℚ) := by push_cast; linarith
    exact le_trans (Int.floor_mono this) (by rw [Int.floor_intCast])
  obtain ⟨k, hk⟩ : ∃ k : ℕ, n = k := ⟨n.toNat, by omega⟩
  have hk255 : k ≤ 255 := by omega
  have hle : (n : ℚ) ≤ 255 * c := Int.floor_le _
  have hlt : 255 * c < (n : ℚ) + 1 := Int.lt_floor_add_one _
  rw [Int.floor_eq_iff]
  constructor
  · have h := f32round_mono_nonneg (n : ℚ) (255 * c) (by exact_mod_cast hn0) hle
    have hb := f32round_byte k (by omega)
    rw [hk] at h ⊢
    push_cast at h ⊢
    rw [hb] at h; exact h
  · rcases eq_or_lt_of_le hk255 with h255 | hlt255
    · have h := f32round_mono_nonneg (255 * c) 255 (by positivity) (by linarith)
      have hb := f32round_byte 255 (by norm_num)
      push_cast at hb
      rw [hb] at h
      rw [hk, h255]; push_cast; linarith
    · rcases eq_or_lt_of_le h0 with hz | hpos
      · rw [← hz]; simp only [mul_zero, f32round_zero]
        have : (0 : ℚ) ≤ (n : ℚ) := by exact_mod_cast hn0
        linarith
      · have hcb : c < (((k + 1 : ℕ) : ℚ)) / 255 := by
          rw [lt_div_iff₀ (by norm_num)]
          rw [hk] at hlt; push_cast at hlt ⊢; linarith
        have hp := hc.le_pred c _ hpos hcb
        have h := f32round_mono_nonneg (255 * c) (255 * f32pred (((k + 1 : ℕ) : ℚ) / 255))
          (by positivity) (by linarith)
        have ht := f32round_pred_table k hlt255
        rw [hk]; push_cast at ht h ⊢
        linarith

theorem toByte_of_nonneg (v : ℚ) (h0 : 0 ≤ v) (h1 : v < 256) : toByte v = ⌊v⌋₊ := by
  unfold toByte
  rw [if_pos h0]
  have hf0 : 0 ≤ ⌊v⌋ := Int.floor_nonneg.mpr h0
  have hf1 : ⌊v⌋ < 256 := Int.floor_lt.mpr (by exact_mod_cast h1)
  rw [Int.emod_eq_of_lt hf0 hf1]
  rfl

/-! ## The pixel loops -/

theorem image4b.pixel_store (img : image4b) (i j : ℕ) (v : vec4b) :
    (img.store i v).pixel j = if i = j ∧ j < img.pixels.length then v else img.pixel j := by
  unfold image4b.store image4b.pixel
  simp only [List.getD_eq_getElem?_getD, List.getElem?_set]
  by_cases hij : i = j
  · subst hij
    by_cases hl : i < img.pixels.length
    · simp [hl]
    · have : img.pixels[i]? = none := List.getElem?_eq_none (by omega)
      simp [hl, this]
  · simp [hij]

/-- A loop `for i < n: img.pixels[i] = g(i, img.pixels[i])` leaves the size
alone and rewrites exactly the pixels below `n`. -/
theorem loop_store (g : ℕ → vec4b → vec4b) (n : ℕ) (acc : image4b) :
    ((List.range n).foldl (fun res i => res.store i (g i (res.pixel i))) acc).width = acc.width ∧
    ((List.range n).foldl (fun res i => res.store i (g i (res.pixel i))) acc).height
      = acc.height ∧
    ((List.range n).foldl (fun res i => res.store i (g i (res.pixel i))) acc).pixels.length
      = acc.pixels.length ∧
    ∀ j, ((List.range n).foldl (fun res i => res.store i (g i (res.pixel i))) acc).pixel j
      = if j < n ∧ j < acc.pixels.length then g j (acc.pixel j) else acc.pixel j := by
  induction n with
  | zero => simp
  | succ n ih =>
    rw [List.range_succ, List.foldl_append]
    simp only [List.foldl_cons, List.foldl_nil]
    obtain ⟨hw, hh, hl, hp⟩ := ih
    refine ⟨?_, ?_, ?_, ?_⟩
    · rw [← hw]; rfl
    · rw [← hh]; rfl
    · rw [← hl]; simp [image4b.store]
    · intro j
      rw [image4b.pixel_store, hl, hp j, hp n]
      by_cases hjn : n = j
      · subst hjn
        by_cases hlen : n < acc.pixels.length
        · simp [hlen]
        · simp [hlen]
      · by_cases hlt : j < n
        · have : j < n + 1 := by omega
          simp [hjn, hlt, this]
        · have : ¬ j < n + 1 := by omega
          simp [hjn, hlt, this]

theorem image4b.pixel_eq_getElem (img : image4b) (j : ℕ) (h : j < img.pixels.length) :
    img.pixel j = img.pixels[j] := by
  unfold image4b.pixel
  simp [List.getD_eq_getElem?_getD, h]

theorem image4f.pixel_eq_getElem_hdr (img : image4f) (j : ℕ) (h : j < img.pixels.length) :
    img.pixel j = img.pixels[j] := by
  unfold image4f.pixel
  simp [List.getD_eq_getElem?_getD, h]

theorem tonemap_eq (m : Libm) (hdr : image4f) (exposure : ℚ) (use_filmic no_srgb : Bool)
    (hwf : hdr.wf) :
    tonemap m hdr exposure use_filmic no_srgb
      = ⟨hdr.width, hdr.height, hdr.pixels.map (tonemapPixel m exposure use_filmic no_srgb)⟩ := by
  obtain ⟨hw, hh, hl, hp⟩ := loop_store
    (fun i _ => tonemapPixel m exposure use_filmic no_srgb (hdr.pixel i))
    hdr.pixels.length (image4b.make hdr.width hdr.height)
  have hlen : (image4b.make hdr.width hdr.height).pixels.length = hdr.pixels.length := by
    simp only [image4b.make, List.length_replicate]
    exact hwf.symm
  have key : (tonemap m hdr exposure use_filmic no_srgb).pixels
      = hdr.pixels.map (tonemapPixel m exposure use_filmic no_srgb) := by
    apply List.ext_getElem
    · simp only [List.length_map]
      unfold tonemap; rw [hl, hlen]
    · intro j h1 h2
      have hj : j < hdr.pixels.length := by simpa using h2
      rw [← image4b.pixel_eq_getElem _ j h1]
      unfold tonemap
      rw [hp j, hlen]
      simp [hj, image4f.pixel_eq_getElem_hdr hdr j hj]
  have hw' : (tonemap m hdr exposure use_filmic no_srgb).width = hdr.width := hw
  have hh' : (tonemap m hdr exposure use_filmic no_srgb).height = hdr.height := hh
  cases hT : tonemap m hdr exposure use_filmic no_srgb with
  | mk w h ps =>
    rw [hT] at key hw' hh'
    simp only at key hw' hh'
    rw [key, hw', hh']

theorem composeLayer_eq (m : Libm) (premultiplied no_srgb : Bool) (result source : image4b)
    (hlen : source.pixels.length = result.pixels.length) :
    composeLayer m premultiplied no_srgb result source
      = ⟨result.width, result.height,
         List.zipWith (composePixel m premultiplied no_srgb) source.pixels result.pixels⟩ := by
  obtain ⟨hw, hh, hl, hp⟩ := loop_store
    (fun i below => composePixel m premultiplied no_srgb (source.pixel i) below)
    source.pixels.length result
  have key : (composeLayer m premultiplied no_srgb result source).pixels
      = List.zipWith (composePixel m premultiplied no_srgb) source.pixels result.pixels := by
    apply List.ext_getElem
    · simp only [List.length_zipWith]
      unfold composeLayer; rw [hl, hlen]; simp
    · intro j h1 h2
      have hj : j < source.pixels.length := by
        simp only [List.length_zipWith] at h2; omega
      have hj' : j < result.pixels.length := by omega
      rw [← image4b.pixel_eq_getElem _ j h1]
      unfold composeLayer
      rw [hp j]
      simp [hj, hj', image4b.pixel_eq_getElem source j hj, image4b.pixel_eq_getElem result j hj']
  have hw' : (composeLayer m premultiplied no_srgb result source).width = result.width := hw
  have hh' : (composeLayer m premultiplied no_srgb result source).height = result.height := hh
  cases hT : composeLayer m premultiplied no_srgb result source with
  | mk w h ps =>
    rw [hT] at key hw' hh'
    simp only at key hw' hh'
    rw [key, hw', hh']

/-! ## Tone mapping -/

theorem fmul_one_left (c : ℚ) (hc : IsF32 c) : fmul 1 c = c := by
  unfold fmul; rw [one_mul]; exact hc

theorem toByte_fmul_255 (c : ℚ) (hc : IsF32 c) (h0 : 0 ≤ c) (h1 : c ≤ 1) :
    toByte (fmul 255 c) = ⌊255 * c⌋₊ := by
  have hfl := floor_fmul_255 c hc h0 h1
  have hnn : 0 ≤ fmul 255 c := f32round_nonneg _ (by positivity)
  have hlt : fmul 255 c < 256 := by
    have h255 : ⌊(255 : ℚ) * c⌋ ≤ 255 := by
      have : (255 : ℚ) * c ≤ ((255 : ℤ) : ℚ) := by push_cast; linarith
      exact le_trans (Int.floor_mono this) (by rw [Int.floor_intCast])
    have : ⌊fmul 255 c⌋ < 256 := by omega
    have := Int.floor_lt.mp this
    exact_mod_cast this
  rw [toByte_of_nonneg _ hnn hlt]
  have h3 : (⌊fmul 255 c⌋₊ : ℤ) = ⌊fmul 255 c⌋ := Int.natCast_floor_eq_floor hnn
  have h4 : (⌊(255 : ℚ) * c⌋₊ : ℤ) = ⌊(255 : ℚ) * c⌋ :=
    Int.natCast_floor_eq_floor (by positivity)
  have : (⌊fmul 255 c⌋₊ : ℤ) = (⌊(255 : ℚ) * c⌋₊ : ℤ) := by rw [h3, h4, hfl]
  exact_mod_cast this

theorem natFloor_round_diff (x : ℚ) (hx : 0 ≤ x) : |((⌊x⌋₊ : ℕ) : ℤ) - round x| ≤ 1 := by
  have h4 : (⌊x⌋₊ : ℤ) = ⌊x⌋ := Int.natCast_floor_eq_floor hx
  rw [h4, round_eq, abs_le]
  have h1 : ⌊x⌋ ≤ ⌊x + 1 / 2⌋ := Int.floor_mono (by linarith)
  have h2 : ⌊x + 1 / 2⌋ ≤ ⌊x + 1⌋ := Int.floor_mono (by linarith)
  rw [Int.floor_add_one] at h2
  constructor <;> omega

/-- With `exposure = 0`, no filmic curve and linear output, the colour value
that `tonemap` scales is the input channel capped at 1. -/
theorem tonemapColor_identity (m : Libm) (p : vec4f)
    (hx : IsF32 p.x) (hy : IsF32 p.y) (hz : IsF32 p.z) :
    tonemapColor m 0 false true p = ⟨min p.x 1, min p.y 1, min p.z 1, p.w⟩ := by
  unfold tonemapColor
  simp [m.pow_exp_zero, fmul_one_left, hx, hy, hz]

/-- The alpha byte of `tonemapPixel` is `255.0f * pixel.w` converted to a byte,
whatever the exposure, filmic and colour-space settings. -/
theorem tonemapPixel_alpha (m : Libm) (exposure : ℚ) (use_filmic no_srgb : Bool) (p : vec4f) :
    (tonemapPixel m exposure use_filmic no_srgb p).w = toByte (fmul 255 p.w) := by
  unfold tonemapPixel tonemapColor
  cases use_filmic <;> cases no_srgb <;> rfl

theorem tonemap_pixel_eq (m : Libm) (hdr : image4f) (exposure : ℚ) (use_filmic no_srgb : Bool)
    (hwf : hdr.wf) (i : ℕ) (hi : i < hdr.pixels.length) :
    (tonemap m hdr exposure use_filmic no_srgb).pixel i
      = tonemapPixel m exposure use_filmic no_srgb (hdr.pixel i) := by
  rw [tonemap_eq m hdr exposure use_filmic no_srgb hwf]
  unfold image4b.pixel image4f.pixel
  simp [List.getD_eq_getElem?_getD, hi]

theorem tonemapPixel_libm_irrelevant (m : Libm) (use_filmic : Bool) (p : vec4f) :
    tonemapPixel m 0 use_filmic true p = tonemapPixel Libm.intPow 0 use_filmic true p := by
  unfold tonemapPixel tonemapColor
  simp [m.pow_exp_zero, Libm.intPow]

/-- C9 (tonemap size preservation): for every HDR buffer whose pixel sequence
has length `width * height` and every exposure, filmic and colour-space setting,
`tonemap` returns a buffer of the same width and height with `width * height`
pixels. -/
theorem tonemap_size_preserved (m : Libm) (hdr : image4f) (exposure : ℚ)
    (use_filmic no_srgb : Bool) (hwf : hdr.pixels.length = hdr.width * hdr.height) :
    (tonemap m hdr exposure use_filmic no_srgb).width = hdr.width ∧
    (tonemap m hdr exposure use_filmic no_srgb).height = hdr.height ∧
    (tonemap m hdr exposure use_filmic no_srgb).pixels.length = hdr.width * hdr.height := by
  rw [tonemap_eq m hdr exposure use_filmic no_srgb hwf]
  simp [hwf]

theorem tonemap_size_preserved_witness :
    hdrWide.pixels.length = hdrWide.width * hdrWide.height ∧
    (tonemap Libm.intPow hdrWide 1 true false).width = hdrWide.width ∧
    (tonemap Libm.intPow hdrWide 1 true false).height = hdrWide.height ∧
    (tonemap Libm.intPow hdrWide 1 true false).pixels.length
      = hdrWide.width * hdrWide.height :=
  ⟨by decide, tonemap_size_preserved Libm.intPow hdrWide 1 true false (by decide)⟩

/-- C10 (tonemap alpha bypass): the alpha byte of output pixel `i` is the
conversion of `255.0f * a`, `a` the input alpha of pixel `i`; hence it is the
same for all exposures, filmic flags and colour spaces, and for a `float` `a` in
`[0,1]` it is `floor(255 * a)`. -/
theorem tonemap_alpha_bypass (m : Libm) (hdr : image4f)
    (hwf : hdr.pixels.length = hdr.width * hdr.height) (i : ℕ) (hi : i < hdr.pixels.length) :
    (∀ (exposure : ℚ) (use_filmic no_srgb : Bool),
      ((tonemap m hdr exposure use_filmic no_srgb).pixel i).w
        = toByte (fmul 255 (hdr.pixel i).w)) ∧
    (∀ (e1 e2 : ℚ) (f1 f2 s1 s2 : Bool),
      ((tonemap m hdr e1 f1 s1).pixel i).w = ((tonemap m hdr e2 f2 s2).pixel i).w) ∧
    (unitFloat (hdr.pixel i).w → ∀ (exposure : ℚ) (use_filmic no_srgb : Bool),
      ((tonemap m hdr exposure use_filmic no_srgb).pixel i).w = ⌊255 * (hdr.pixel i).w⌋₊) := by
  have key : ∀ (exposure : ℚ) (use_filmic no_srgb : Bool),
      ((tonemap m hdr exposure use_filmic no_srgb).pixel i).w
        = toByte (fmul 255 (hdr.pixel i).w) := by
    intro e f s
    rw [tonemap_pixel_eq m hdr e f s hwf i hi, tonemapPixel_alpha]
  refine ⟨key, ?_, ?_⟩
  · intro e1 e2 f1 f2 s1 s2
    rw [key, key]
  · intro ha e f s
    rw [key, toByte_fmul_255 _ ha.1 ha.2.1 ha.2.2]

set_option maxRecDepth 100000 in
theorem tonemap_alpha_bypass_witness :
    hdrWide.pixels.length = hdrWide.width * hdrWide.height ∧ 1 < hdrWide.pixels.length ∧
    unitFloat (hdrWide.pixel 1).w ∧
    ((tonemap Libm.intPow hdrWide 1 true false).pixel 1).w
      = ((tonemap Libm.intPow hdrWide 0 false true).pixel 1).w ∧
    ((tonemap Libm.intPow hdrWide 1 true false).pixel 1).w = ⌊255 * (hdrWide.pixel 1).w⌋₊ :=
  ⟨by decide, by decide, by decide!,
   (tonemap_alpha_bypass Libm.intPow hdrWide (by decide) 1 (by decide)).2.1 1 0 true false
     false true,
   (tonemap_alpha_bypass Libm.intPow hdrWide (by decide) 1 (by decide)).2.2 (by decide!) 1 true
     false⟩

/-- C5 (tonemap zero-exposure linear no-filmic identity): with `exposure = 0`,
`use_filmic = false` and linear output, every R, G, B byte of an output pixel
whose input channel `c` is a `float` in `[0,1]` is `floor(255 * c)`, which
differs from `round(255 * c)` by at most 1. -/
theorem tonemap_zero_exposure_linear_identity (m : Libm) (hdr : image4f)
    (hwf : hdr.pixels.length = hdr.width * hdr.height) (i : ℕ) (hi : i < hdr.pixels.length)
    (hx : unitFloat (hdr.pixel i).x) (hy : unitFloat (hdr.pixel i).y)
    (hz : unitFloat (hdr.pixel i).z) :
    (((tonemap m hdr 0 false true).pixel i).x = ⌊255 * (hdr.pixel i).x⌋₊ ∧
     |((((tonemap m hdr 0 false true).pixel i).x : ℕ) : ℤ) - round (255 * (hdr.pixel i).x)| ≤ 1) ∧
    (((tonemap m hdr 0 false true).pixel i).y = ⌊255 * (hdr.pixel i).y⌋₊ ∧
     |((((tonemap m hdr 0 false true).pixel i).y : ℕ) : ℤ) - round (255 * (hdr.pixel i).y)| ≤ 1) ∧
    (((tonemap m hdr 0 false true).pixel i).z = ⌊255 * (hdr.pixel i).z⌋₊ ∧
     |((((tonemap m hdr 0 false true).pixel i).z : ℕ) : ℤ) - round (255 * (hdr.pixel i).z)| ≤ 1) := by
  have hp : (tonemap m hdr 0 false true).pixel i
      = ⟨toByte (fmul 255 (min (hdr.pixel i).x 1)), toByte (fmul 255 (min (hdr.pixel i).y 1)),
         toByte (fmul 255 (min (hdr.pixel i).z 1)), toByte (fmul 255 (hdr.pixel i).w)⟩ := by
    rw [tonemap_pixel_eq m hdr 0 false true hwf i hi]
    unfold tonemapPixel
    rw [tonemapColor_identity m _ hx.1 hy.1 hz.1]
  have hch : ∀ c : ℚ, unitFloat c →
      toByte (fmul 255 (min c 1)) = ⌊255 * c⌋₊ ∧
      |((toByte (fmul 255 (min c 1)) : ℕ) : ℤ) - round (255 * c)| ≤ 1 := by
    intro c hc
    rw [min_eq_left hc.2.2, toByte_fmul_255 c hc.1 hc.2.1 hc.2.2]
    exact ⟨rfl, natFloor_round_diff _ (mul_nonneg (by norm_num) hc.2.1)⟩
  rw [hp]
  exact ⟨hch _ hx, hch _ hy, hch _ hz⟩

set_option maxRecDepth 100000 in
theorem tonemap_zero_exposure_linear_identity_witness :
    hdrExample.pixels.length = hdrExample.width * hdrExample.height ∧
    0 < hdrExample.pixels.length ∧
    unitFloat (hdrExample.pixel 0).x ∧ unitFloat (hdrExample.pixel 0).y ∧
    unitFloat (hdrExample.pixel 0).z ∧
    ((tonemap Libm.intPow hdrExample 0 false true).pixel 0).y
      = ⌊255 * (hdrExample.pixel 0).y⌋₊ :=
  ⟨by decide, by decide, by decide!, by decide!, by decide!,
   (tonemap_zero_exposure_linear_identity Libm.intPow hdrExample (by decide) 0 (by decide)
     (by decide!) (by decide!) (by decide!)).2.1.1⟩

set_option maxRecDepth 100000 in
/-- C6, as stated, fails: the blue byte of the end-to-end example is not 64,
for neither admitted value of the green byte. -/
theorem tonemap_example_not_64 :
    ¬ ∃ g : ℕ, (g = 127 ∨ g = 128) ∧
      tonemap Libm.intPow hdrExample 0 false true = ⟨1, 1, [⟨255, g, 64, 255⟩]⟩ := by
  have h : tonemap Libm.intPow hdrExample 0 false true = ⟨1, 1, [⟨255, 127, 63, 255⟩]⟩ := by
    decide!
  rw [h]
  rintro ⟨g, -, hg⟩
  simp at hg

set_option maxRecDepth 100000 in
/-- C6 (end-to-end example, amended): `tonemap` of the 1x1 HDR image with pixel
(1.0, 0.5, 0.25, 1.0), `exposure = 0`, no filmic curve and linear output is the
byte pixel (255, 127, 63, 255): 127.5 and 63.75 are truncated. -/
theorem tonemap_example (m : Libm) :
    tonemap m hdrExample 0 false true = ⟨1, 1, [⟨255, 127, 63, 255⟩]⟩ := by
  rw [tonemap_eq m hdrExample 0 false true (by decide)]
  simp only [hdrExample, List.map_cons, List.map_nil, tonemapPixel_libm_irrelevant]
  decide!

set_option maxRecDepth 100000 in
/-- C4 fails on the code: for the HDR pixel (-1, 0, 0, 1) with `exposure = 0`, no
filmic curve and linear output, the red value left by the "clamp" step is `-1`,
the value converted to a byte is `-255`, outside `[0,255]`, and the byte stored
(low eight bits of the truncation) is 1, not 0. -/
theorem tonemap_negative_not_clamped (m : Libm) :
    (tonemapColor m 0 false true ⟨-1, 0, 0, 1⟩).x = -1 ∧
    fmul 255 (tonemapColor m 0 false true ⟨-1, 0, 0, 1⟩).x = -255 ∧
    tonemap m hdrNegative 0 false true = ⟨1, 1, [⟨1, 0, 0, 255⟩]⟩ := by
  have hc : tonemapColor m 0 false true ⟨-1, 0, 0, 1⟩ = ⟨-1, 0, 0, 1⟩ := by
    rw [tonemapColor_identity m _ (by decide!) (by decide!) (by decide!)]
    decide!
  refine ⟨by rw [hc], by rw [hc]; decide!, ?_⟩
  rw [tonemap_eq m hdrNegative 0 false true (by decide)]
  simp only [hdrNegative, List.map_cons, List.map_nil, tonemapPixel_libm_irrelevant]
  decide!

/-! ## Compositing -/

theorem fmul_zero_right (a : ℚ) : fmul a 0 = 0 := by
  unfold fmul; rw [mul_zero, f32round_zero]

theorem fmul_zero_left (a : ℚ) : fmul 0 a = 0 := by
  unfold fmul; rw [zero_mul, f32round_zero]

set_option maxRecDepth 100000 in
theorem fdiv_255_255 : fdiv 255 255 = 1 := by decide!

set_option maxRecDepth 100000 in
theorem fsub_one_one : fsub 1 1 = 0 := by decide!

/-- Byte round trip through `float`: `(unsigned char)(255.0f * (b / 255.0f)) = b`. -/
theorem byte_table : ∀ b : ℕ, b < 256 → toByte (fmul 255 (fdiv (b : ℚ) 255)) = b := by
  intro b hb
  rw [fdiv_byte_nat, fmul_byte_scaled, toByte_natDiv]
  exact (roundNat_fdiv_table b hb).2.2.2.2.1

theorem byte_table_add : ∀ b : ℕ, b < 256 →
    toByte (fmul 255 (fadd (fdiv (b : ℚ) 255) 0)) = b := by
  intro b hb
  have h : fadd (fdiv (b : ℚ) 255) 0 = fdiv (b : ℚ) 255 := by
    unfold fadd; rw [add_zero]; exact fdiv_byte_idem b hb
  rw [h]; exact byte_table b hb

theorem byte_table_mul_add : ∀ b : ℕ, b < 256 →
    toByte (fmul 255 (fadd (fmul (fdiv (b : ℚ) 255) 1) 0)) = b := by
  intro b hb
  have h1 : fmul (fdiv (b : ℚ) 255) 1 = fdiv (b : ℚ) 255 := by
    unfold fmul; rw [mul_one]; exact fdiv_byte_idem b hb
  have h : fadd (fdiv (b : ℚ) 255) 0 = fdiv (b : ℚ) 255 := by
    unfold fadd; rw [add_zero]; exact fdiv_byte_idem b hb
  rw [h1, h]; exact byte_table b hb

set_option maxRecDepth 100000 in
theorem alpha255_table : toByte (fmul 255 (fadd 1 0)) = 255 := by decide!

/-- In linear colour space an opaque pixel replaces whatever lies below it. -/
theorem composePixel_alpha255 (m : Libm) (premultiplied : Bool) (above below : vec4b)
    (hv : above.valid) (ha : above.w = 255) :
    composePixel m premultiplied true above below = above := by
  obtain ⟨hx, hy, hz, -⟩ := hv
  cases above with
  | mk ax ay az aw =>
    simp only at hx hy hz ha
    cases premultiplied <;>
    simp [composePixel, composeColor, normalize255, vec4f.add, vec4f.scale, fdiv_255_255,
      fsub_one_one,
      fmul_zero_right, byte_table_add _ hx, byte_table_add _ hy, byte_table_add _ hz,
      byte_table_mul_add _ hx, byte_table_mul_add _ hy, byte_table_mul_add _ hz,
      alpha255_table, ha]

theorem composeLayer_size (m : Libm) (premultiplied no_srgb : Bool) (result source : image4b) :
    (composeLayer m premultiplied no_srgb result source).width = result.width ∧
    (composeLayer m premultiplied no_srgb result source).height = result.height ∧
    (composeLayer m premultiplied no_srgb result source).pixels.length
      = result.pixels.length := by
  obtain ⟨hw, hh, hl, -⟩ := loop_store
    (fun i below => composePixel m premultiplied no_srgb (source.pixel i) below)
    source.pixels.length result
  exact ⟨hw, hh, hl⟩

theorem foldl_composeLayer_size (m : Libm) (premultiplied no_srgb : Bool)
    (layers : List image4b) : ∀ acc : image4b,
    (layers.foldl (composeLayer m premultiplied no_srgb) acc).width = acc.width ∧
    (layers.foldl (composeLayer m premultiplied no_srgb) acc).height = acc.height ∧
    (layers.foldl (composeLayer m premultiplied no_srgb) acc).pixels.length
      = acc.pixels.length := by
  induction layers with
  | nil => intro acc; simp
  | cons L rest ih =>
    intro acc
    simp only [List.foldl_cons]
    obtain ⟨h1, h2, h3⟩ := ih (composeLayer m premultiplied no_srgb acc L)
    obtain ⟨g1, g2, g3⟩ := composeLayer_size m premultiplied no_srgb acc L
    exact ⟨h1.trans g1, h2.trans g2, h3.trans g3⟩

theorem zipWith_eq_left {α β : Type} (f : α → β → α) :
    ∀ (l₁ : List α) (l₂ : List β), l₁.length = l₂.length →
      (∀ a ∈ l₁, ∀ b, f a b = a) → List.zipWith f l₁ l₂ = l₁ := by
  intro l₁
  induction l₁ with
  | nil => intro l₂ _ _; simp
  | cons a t ih =>
    intro l₂ hl hf
    cases l₂ with
    | nil => simp at hl
    | cons b t₂ =>
      simp only [List.zipWith_cons_cons]
      rw [hf a (List.mem_cons_self _ _) b, ih t₂ (by simpa using hl)
        (fun a' ha' b' => hf a' (List.mem_cons_of_mem _ ha') b')]

theorem compose_ne_nil (m : Libm) (layers : List image4b) (premultiplied no_srgb : Bool)
    (hne : layers ≠ []) :
    compose m layers premultiplied no_srgb
      = layers.foldl (composeLayer m premultiplied no_srgb)
          (image4b.make (layers.head hne).width (layers.head hne).height) := by
  cases layers with
  | nil => exact absurd rfl hne
  | cons a t => rfl

theorem compose_last_alpha255 (m : Libm) (layers : List image4b) (premultiplied : Bool)
    (hne : layers ≠ [])
    (hsize : ∀ L ∈ layers, L.width = (layers.head hne).width ∧
      L.height = (layers.head hne).height ∧ L.pixels.length = L.width * L.height)
    (hbytes : ∀ p ∈ (layers.getLast hne).pixels, p.valid)
    (htop : ∀ p ∈ (layers.getLast hne).pixels, p.w = 255) :
    compose m layers premultiplied true = layers.getLast hne := by
  rw [compose_ne_nil m layers premultiplied true hne]
  obtain ⟨hw, hh, hl⟩ := hsize _ (List.getLast_mem hne)
  have hsplit := List.dropLast_append_getLast hne
  set last := layers.getLast hne with hlast
  set w := (layers.head hne).width with hwdef
  set h := (layers.head hne).height with hhdef
  have hfold : layers.foldl (composeLayer m premultiplied true) (image4b.make w h)
      = composeLayer m premultiplied true
          (layers.dropLast.foldl (composeLayer m premultiplied true) (image4b.make w h)) last := by
    conv_lhs => rw [← hsplit]
    rw [List.foldl_append]; rfl
  rw [hfold]
  obtain ⟨a1, a2, a3⟩ := foldl_composeLayer_size m premultiplied true layers.dropLast
    (image4b.make w h)
  have hacc : (layers.dropLast.foldl (composeLayer m premultiplied true)
      (image4b.make w h)).pixels.length = w * h := by
    rw [a3]; simp [image4b.make]
  have hlen : last.pixels.length = (layers.dropLast.foldl (composeLayer m premultiplied true)
      (image4b.make w h)).pixels.length := by
    rw [hacc, hl, hw, hh]
  rw [composeLayer_eq m premultiplied true _ last hlen, a1, a2,
    zipWith_eq_left _ _ _ hlen
      (fun a ha b => composePixel_alpha255 m premultiplied a b (hbytes a ha) (htop a ha))]
  cases hL : last with
  | mk lw lh lp =>
    rw [hL] at hw hh
    simp only at hw hh
    simp [image4b.make, hw, hh]

/-- C1 (top opaque layer wins): for every non-empty sequence of equally-sized
layers whose last layer has alpha 255 at every pixel, and for both values of
`premultiplied`, `compose` in linear colour space returns exactly the last
layer. -/
theorem compose_top_layer_wins (m : Libm) (layers : List image4b) (premultiplied : Bool)
    (hne : layers ≠ [])
    (hsize : ∀ L ∈ layers, L.width = (layers.head hne).width ∧
      L.height = (layers.head hne).height ∧ L.pixels.length = L.width * L.height)
    (hbytes : ∀ p ∈ (layers.getLast hne).pixels, p.valid)
    (htop : ∀ p ∈ (layers.getLast hne).pixels, p.w = 255) :
    compose m layers premultiplied true = layers.getLast hne :=
  compose_last_alpha255 m layers premultiplied hne hsize hbytes htop

set_option maxRecDepth 100000 in
theorem compose_top_layer_wins_witness :
    compose Libm.intPow [layerRed, layerBlue] false true = layerBlue ∧
    compose Libm.intPow [layerBlue, layerRed] true true = layerRed ∧
    layerRed ≠ layerBlue :=
  ⟨compose_top_layer_wins Libm.intPow [layerRed, layerBlue] false (by simp) (by decide)
     (by decide) (by decide),
   compose_top_layer_wins Libm.intPow [layerBlue, layerRed] true (by simp) (by decide)
     (by decide) (by decide),
   by decide⟩

/-- C7 (byte round-trip identity): normalising a byte pixel with `normalize255`
and converting each channel back as `tonemap` and `compose` do (multiply by
`255.0f`, truncate) returns the original bytes. -/
theorem byte_roundtrip (v : vec4b) (hv : v.valid) :
    toByte (fmul 255 (normalize255 v).x) = v.x ∧ toByte (fmul 255 (normalize255 v).y) = v.y ∧
    toByte (fmul 255 (normalize255 v).z) = v.z ∧ toByte (fmul 255 (normalize255 v).w) = v.w :=
  ⟨byte_table _ hv.1, byte_table _ hv.2.1, byte_table _ hv.2.2.1, byte_table _ hv.2.2.2⟩

theorem byte_roundtrip_witness :
    (⟨0, 1, 128, 255⟩ : vec4b).valid ∧
    toByte (fmul 255 (normalize255 ⟨0, 1, 128, 255⟩).x) = 0 ∧
    toByte (fmul 255 (normalize255 ⟨0, 1, 128, 255⟩).y) = 1 ∧
    toByte (fmul 255 (normalize255 ⟨0, 1, 128, 255⟩).z) = 128 ∧
    toByte (fmul 255 (normalize255 ⟨0, 1, 128, 255⟩).w) = 255 :=
  ⟨by decide, byte_roundtrip ⟨0, 1, 128, 255⟩ (by decide)⟩

/-- C8 (compose empty input): for every value of the flags, `compose` of the
empty layer sequence is the default buffer: width 0, height 0, no pixels. -/
theorem compose_empty (m : Libm) (premultiplied no_srgb : Bool) :
    compose m [] premultiplied no_srgb = ⟨0, 0, []⟩ := rfl

set_option maxRecDepth 100000 in
theorem GAMMA_pos : 0 < GAMMA := by decide!

set_option maxRecDepth 100000 in
theorem INVERSE_GAMMA_pos : 0 < INVERSE_GAMMA := by decide!

set_option maxRecDepth 100000 in
theorem fsub_one_zero : fsub 1 0 = 1 := by decide!

theorem fdiv_zero_left (a : ℚ) : fdiv 0 a = 0 := by
  unfold fdiv; rw [zero_div, f32round_zero]

theorem fadd_zero_zero : fadd 0 0 = 0 := by
  unfold fadd; rw [add_zero, f32round_zero]

theorem toByte_zero : toByte 0 = 0 := by
  unfold toByte; simp

/-- A pixel with alpha 0 leaves a transparent black accumulator pixel unchanged
when `compose` premultiplies it, or when its colour bytes are 0. -/
theorem composePixel_transparent (m : Libm) (premultiplied no_srgb : Bool) (above : vec4b)
    (ha : above.w = 0)
    (h : premultiplied = false ∨ (above.x = 0 ∧ above.y = 0 ∧ above.z = 0)) :
    composePixel m premultiplied no_srgb above ⟨0, 0, 0, 0⟩ = ⟨0, 0, 0, 0⟩ := by
  have hg := m.pow_base_zero GAMMA GAMMA_pos
  have hi := m.pow_base_zero INVERSE_GAMMA INVERSE_GAMMA_pos
  cases above with
  | mk ax ay az aw =>
    simp only at ha h
    subst ha
    rcases h with h | ⟨h1, h2, h3⟩
    · subst h
      cases no_srgb <;>
      simp [composePixel, composeColor, normalize255, vec4f.add, vec4f.scale, fdiv_zero_left,
        fmul_zero_right, fmul_zero_left, fadd_zero_zero, fsub_one_zero, toByte_zero, hg, hi]
    · subst h1 h2 h3
      cases no_srgb <;> cases premultiplied <;>
      simp [composePixel, composeColor, normalize255, vec4f.add, vec4f.scale, fdiv_zero_left,
        fmul_zero_right, fmul_zero_left, fadd_zero_zero, fsub_one_zero, toByte_zero, hg, hi]

theorem zipWith_replicate_right {α β : Type} (f : α → β → β) (z : β) :
    ∀ (l : List α), (∀ a ∈ l, f a z = z) →
      List.zipWith f l (List.replicate l.length z) = List.replicate l.length z := by
  intro l
  induction l with
  | nil => intro _; simp
  | cons a t ih =>
    intro hf
    simp only [List.length_cons, List.replicate_succ, List.zipWith_cons_cons]
    rw [hf a (List.mem_cons_self _ _), ih (fun a' ha' => hf a' (List.mem_cons_of_mem _ ha'))]

theorem compose_single (m : Libm) (L : image4b) (premultiplied no_srgb : Bool)
    (hwf : L.pixels.length = L.width * L.height) :
    compose m [L] premultiplied no_srgb
      = ⟨L.width, L.height,
         List.zipWith (composePixel m premultiplied no_srgb) L.pixels
           (List.replicate L.pixels.length ⟨0, 0, 0, 0⟩)⟩ := by
  have h : compose m [L] premultiplied no_srgb
      = composeLayer m premultiplied no_srgb (image4b.make L.width L.height) L := rfl
  rw [h, composeLayer_eq m premultiplied no_srgb _ L (by simp [image4b.make, hwf])]
  simp [image4b.make, hwf]

set_option maxRecDepth 100000 in
/-- C3, as stated, fails: with `premultiplied = true` a layer pixel of alpha 0
and red byte 200 is copied to the output, which is not all zero. -/
theorem compose_transparent_counterexample :
    (∀ p ∈ layerGhost.pixels, p.w = 0) ∧
    compose Libm.intPow [layerGhost] true true = ⟨1, 1, [⟨200, 0, 0, 0⟩]⟩ ∧
    ¬ (∀ p ∈ (compose Libm.intPow [layerGhost] true true).pixels, p = ⟨0, 0, 0, 0⟩) := by
  decide!

/-- C3 (compose transparency, amended): for a single layer whose alpha is 0 at
every pixel, `compose` returns the zero-initialised accumulator unchanged, in
both colour spaces, when `premultiplied = false` (colour bytes arbitrary) or
when the colour bytes of every pixel are 0. -/
theorem compose_transparent (m : Libm) (L : image4b) (premultiplied no_srgb : Bool)
    (hwf : L.pixels.length = L.width * L.height)
    (halpha : ∀ p ∈ L.pixels, p.w = 0)
    (hpre : premultiplied = false ∨ ∀ p ∈ L.pixels, p.x = 0 ∧ p.y = 0 ∧ p.z = 0) :
    compose m [L] premultiplied no_srgb = image4b.make L.width L.height ∧
    ∀ p ∈ (compose m [L] premultiplied no_srgb).pixels, p = ⟨0, 0, 0, 0⟩ := by
  have hz : compose m [L] premultiplied no_srgb = image4b.make L.width L.height := by
    rw [compose_single m L premultiplied no_srgb hwf, zipWith_replicate_right]
    · simp [image4b.make, hwf]
    · intro a ha
      apply composePixel_transparent m premultiplied no_srgb a (halpha a ha)
      rcases hpre with h | h
      · exact Or.inl h
      · exact Or.inr (h a ha)
  refine ⟨hz, ?_⟩
  rw [hz]
  intro p hp
  simp only [image4b.make] at hp
  exact List.eq_of_mem_replicate hp

theorem compose_transparent_witness :
    layerClear.pixels.length = layerClear.width * layerClear.height ∧
    (∀ p ∈ layerClear.pixels, p.w = 0) ∧
    compose Libm.intPow [layerClear] false false = image4b.make 2 1 :=
  ⟨by decide, by decide,
   (compose_transparent Libm.intPow layerClear false false (by decide) (by decide)
     (Or.inl rfl)).1⟩

/-! ## The gamma round trip of `compose` in sRGB colour space -/

theorem root_bound (N : ℕ) (hN : N ≠ 0) (c : ℝ) (hc : 0 ≤ c) :
    (1 + (N : ℝ) * c) ^ ((N : ℝ)⁻¹) ≤ 1 + c := by
  have hb := one_add_mul_le_pow (show (-2 : ℝ) ≤ c by linarith) N
  have h5 : (1 + (N : ℝ) * c) ^ ((N : ℝ)⁻¹) ≤ ((1 + c) ^ N) ^ ((N : ℝ)⁻¹) :=
    Real.rpow_le_rpow (by positivity) hb (by positivity)
  rwa [Real.pow_rpow_inv_natCast (by positivity) hN] at h5

theorem rpow_small (u η : ℝ) (hu0 : 1 / 256 ≤ u) (hu1 : u ≤ 1)
    (hη0 : -(1 / 67108864) ≤ η) (hη1 : η ≤ 0) :
    1 ≤ u ^ η ∧ u ^ η ≤ 1 + 255 / 67108864 := by
  have hupos : 0 < u := by linarith [show (0:ℝ) < 1/256 by norm_num]
  constructor
  · exact Real.one_le_rpow_of_pos_of_le_one_of_nonpos hupos hu1 hη1
  · have h1 : u ^ η ≤ (1 / 256 : ℝ) ^ η :=
      Real.rpow_le_rpow_of_nonpos (by norm_num) hu0 hη1
    have h2 : (1 / 256 : ℝ) ^ η = (256 : ℝ) ^ (-η) := by
      rw [one_div, Real.inv_rpow (by norm_num), Real.rpow_neg (by norm_num)]
    have h3 : (256 : ℝ) ^ (-η) ≤ (256 : ℝ) ^ (((67108864 : ℕ) : ℝ)⁻¹) := by
      apply Real.rpow_le_rpow_of_exponent_le (by norm_num)
      have : (((67108864 : ℕ) : ℝ)⁻¹) = 1 / 67108864 := by norm_num
      rw [this]; linarith
    have h4 := root_bound 67108864 (by norm_num) (255 / 67108864) (by norm_num)
    have h5 : (1 : ℝ) + ((67108864 : ℕ) : ℝ) * (255 / 67108864) = 256 := by norm_num
    rw [h5] at h4
    rw [h2] at h1
    linarith

theorem gamma_chain (g h η x u P P' R : ℝ)
    (hh0 : 0 < h) (hh1 : h ≤ 1)
    (hgh : g * h = 1 + η) (hη0 : -(1 / 67108864) ≤ η) (hη1 : η ≤ 0)
    (hx1 : 1 ≤ x) (hx255 : x ≤ 255)
    (hu1 : x / 255 ≤ u) (hu2 : u ≤ x / 255 * (1 + 1 / 2 ^ 23)) (hu3 : u ≤ 1)
    (hP : |P - u ^ g| ≤ u ^ g / 4096) (hP' : |P' - P| ≤ P / 2 ^ 24)
    (hR : |R - P' ^ h| ≤ P' ^ h / 4096) :
    x - 1 ≤ 255 * R ∧ 255 * R ≤ x + 1 / 2 := by
  have hupos : 0 < u := lt_of_lt_of_le (by positivity) hu1
  have hu256 : 1 / 256 ≤ u := by
    have : (1 : ℝ) / 255 ≤ x / 255 := by
      apply div_le_div_of_nonneg_right hx1 (by norm_num)
    linarith [show (1:ℝ)/256 ≤ 1/255 by norm_num]
  have hA : 0 < u ^ g := Real.rpow_pos_of_pos hupos g
  set A := u ^ g with hAdef
  rw [abs_le] at hP hP' hR
  have hP1 : A * (1 - 1 / 4096) ≤ P := by linarith [hP.1]
  have hP2 : P ≤ A * (1 + 1 / 4096) := by linarith [hP.2]
  have hPpos : 0 < P := lt_of_lt_of_le (by positivity) hP1
  have hQ1 : A * ((1 - 1 / 4096) * (1 - 1 / 2 ^ 24)) ≤ P' := by
    have : P * (1 - 1 / 2 ^ 24) ≤ P' := by linarith [hP'.1]
    have h2 : A * (1 - 1 / 4096) * (1 - 1 / 2 ^ 24) ≤ P * (1 - 1 / 2 ^ 24) :=
      mul_le_mul_of_nonneg_right hP1 (by norm_num)
    linarith
  have hQ2 : P' ≤ A * ((1 + 1 / 4096) * (1 + 1 / 2 ^ 24)) := by
    have : P' ≤ P * (1 + 1 / 2 ^ 24) := by linarith [hP'.2]
    have h2 : P * (1 + 1 / 2 ^ 24) ≤ A * (1 + 1 / 4096) * (1 + 1 / 2 ^ 24) :=
      mul_le_mul_of_nonneg_right hP2 (by norm_num)
    linarith
  have hQpos : 0 < P' := lt_of_lt_of_le (by positivity) hQ1
  -- A ^ h = u * u ^ η
  have hAh : A ^ h = u * u ^ η := by
    rw [hAdef, ← Real.rpow_mul (le_of_lt hupos), hgh, Real.rpow_add hupos, Real.rpow_one]
  obtain ⟨hs1, hs2⟩ := rpow_small u η hu256 hu3 hη0 hη1
  have hAh1 : u ≤ A ^ h := by
    rw [hAh]; nlinarith
  have hAh2 : A ^ h ≤ u * (1 + 255 / 67108864) := by
    rw [hAh]; exact mul_le_mul_of_nonneg_left hs2 (le_of_lt hupos)
  have hB1 : u * ((1 - 1 / 4096) * (1 - 1 / 2 ^ 24)) ≤ P' ^ h := by
    have h1 : (A * ((1 - 1 / 4096) * (1 - 1 / 2 ^ 24))) ^ h ≤ P' ^ h :=
      Real.rpow_le_rpow (by positivity) hQ1 (le_of_lt hh0)
    rw [Real.mul_rpow (le_of_lt hA) (by norm_num)] at h1
    have h2 : ((1 - 1 / 4096) * (1 - 1 / 2 ^ 24) : ℝ) ≤ ((1 - 1 / 4096) * (1 - 1 / 2 ^ 24)) ^ h := by
      have := Real.rpow_le_rpow_of_exponent_ge
        (show (0 : ℝ) < (1 - 1 / 4096) * (1 - 1 / 2 ^ 24) by norm_num)
        (show ((1 - 1 / 4096) * (1 - 1 / 2 ^ 24) : ℝ) ≤ 1 by norm_num) hh1
      rwa [Real.rpow_one] at this
    have h3 : u * ((1 - 1 / 4096) * (1 - 1 / 2 ^ 24))
        ≤ A ^ h * ((1 - 1 / 4096) * (1 - 1 / 2 ^ 24)) ^ h := by
      apply mul_le_mul hAh1 h2 (by norm_num) (by positivity)
    linarith
  have hB2 : P' ^ h ≤ u * (1 + 255 / 67108864) * ((1 + 1 / 4096) * (1 + 1 / 2 ^ 24)) := by
    have h1 : P' ^ h ≤ (A * ((1 + 1 / 4096) * (1 + 1 / 2 ^ 24))) ^ h :=
      Real.rpow_le_rpow (le_of_lt hQpos) hQ2 (le_of_lt hh0)
    rw [Real.mul_rpow (le_of_lt hA) (by norm_num)] at h1
    have h2 : ((1 + 1 / 4096) * (1 + 1 / 2 ^ 24) : ℝ) ^ h ≤ (1 + 1 / 4096) * (1 + 1 / 2 ^ 24) := by
      have := Real.rpow_le_rpow_of_exponent_le
        (show (1 : ℝ) ≤ (1 + 1 / 4096) * (1 + 1 / 2 ^ 24) by norm_num) hh1
      rwa [Real.rpow_one] at this
    have h3 : A ^ h * ((1 + 1 / 4096) * (1 + 1 / 2 ^ 24)) ^ h
        ≤ u * (1 + 255 / 67108864) * ((1 + 1 / 4096) * (1 + 1 / 2 ^ 24)) := by
      apply mul_le_mul hAh2 h2 (by positivity) (by positivity)
    linarith
  have hBpos : 0 < P' ^ h := Real.rpow_pos_of_pos hQpos h
  have hR1 : P' ^ h * (1 - 1 / 4096) ≤ R := by linarith [hR.1]
  have hR2 : R ≤ P' ^ h * (1 + 1 / 4096) := by linarith [hR.2]
  constructor
  · have h1 : u * ((1 - 1 / 4096) * (1 - 1 / 2 ^ 24)) * (1 - 1 / 4096) ≤ R :=
      le_trans (mul_le_mul_of_nonneg_right hB1 (by norm_num)) hR1
    have h2 : x / 255 * ((1 - 1 / 4096) * (1 - 1 / 2 ^ 24)) * (1 - 1 / 4096)
        ≤ u * ((1 - 1 / 4096) * (1 - 1 / 2 ^ 24)) * (1 - 1 / 4096) := by
      apply mul_le_mul_of_nonneg_right _ (by norm_num)
      apply mul_le_mul_of_nonneg_right hu1 (by norm_num)
    have hK : (1 - 1 / 255 : ℝ) ≤ (1 - 1 / 4096) * (1 - 1 / 2 ^ 24) * (1 - 1 / 4096) := by
      norm_num
    have h3 : x * (1 - 1 / 255) ≤ x * ((1 - 1 / 4096) * (1 - 1 / 2 ^ 24) * (1 - 1 / 4096)) :=
      mul_le_mul_of_nonneg_left hK (by linarith)
    have h4 : 255 * (x / 255 * ((1 - 1 / 4096) * (1 - 1 / 2 ^ 24)) * (1 - 1 / 4096))
        = x * ((1 - 1 / 4096) * (1 - 1 / 2 ^ 24) * (1 - 1 / 4096)) := by ring
    have h5 : x * (1 - 1 / 255) = x - x / 255 := by ring
    have h6 : x / 255 ≤ 1 := by rw [div_le_one (by norm_num)]; exact hx255
    linarith
  · have h1 : R ≤ u * (1 + 255 / 67108864) * ((1 + 1 / 4096) * (1 + 1 / 2 ^ 24)) * (1 + 1 / 4096) :=
      le_trans hR2 (mul_le_mul_of_nonneg_right hB2 (by norm_num))
    have h2 : u * (1 + 255 / 67108864) * ((1 + 1 / 4096) * (1 + 1 / 2 ^ 24)) * (1 + 1 / 4096)
        ≤ x / 255 * (1 + 1 / 2 ^ 23) * (1 + 255 / 67108864) * ((1 + 1 / 4096) * (1 + 1 / 2 ^ 24))
          * (1 + 1 / 4096) := by
      apply mul_le_mul_of_nonneg_right _ (by norm_num)
      apply mul_le_mul_of_nonneg_right _ (by norm_num)
      apply mul_le_mul_of_nonneg_right hu2 (by norm_num)
    have hK : (1 + 1 / 2 ^ 23) * (1 + 255 / 67108864) * ((1 + 1 / 4096) * (1 + 1 / 2 ^ 24))
        * (1 + 1 / 4096) ≤ (1 + 1 / 510 : ℝ) := by norm_num
    have h3 : x * ((1 + 1 / 2 ^ 23) * (1 + 255 / 67108864) * ((1 + 1 / 4096) * (1 + 1 / 2 ^ 24))
        * (1 + 1 / 4096)) ≤ x * (1 + 1 / 510) :=
      mul_le_mul_of_nonneg_left hK (by linarith)
    have h4 : 255 * (x / 255 * (1 + 1 / 2 ^ 23) * (1 + 255 / 67108864)
        * ((1 + 1 / 4096) * (1 + 1 / 2 ^ 24)) * (1 + 1 / 4096))
        = x * ((1 + 1 / 2 ^ 23) * (1 + 255 / 67108864) * ((1 + 1 / 4096) * (1 + 1 / 2 ^ 24))
        * (1 + 1 / 4096)) := by ring
    have h5 : x * (1 + 1 / 510) = x + x / 510 := by ring
    have h6 : x / 510 ≤ 1 / 2 := by
      rw [div_le_iff₀ (by norm_num)]; linarith
    linarith

theorem f32round_rel_err (q : ℚ) (hq : (2 : ℚ) ^ (-126 : ℤ) ≤ q) :
    |f32round q - q| ≤ q / 2 ^ 24 := by
  have hpos : 0 < q := lt_of_lt_of_le (by positivity) hq
  have hs := ilog2_spec q hpos
  have hl : -126 ≤ ilog2 q := by
    have h3 : (2 : ℚ) ^ (-126 : ℤ) < (2 : ℚ) ^ (ilog2 q + 1) := lt_of_le_of_lt hq hs.2
    have := (zpow_lt_zpow_iff_right₀ (by norm_num : (1 : ℚ) < 2)).mp h3
    omega
  have hu : f32ulp q = (2 : ℚ) ^ (ilog2 q - 23) := by
    unfold f32ulp; rw [abs_of_pos hpos, max_eq_left hl]
  have hupos := f32ulp_pos q
  have h2ne : (2 : ℚ) ≠ 0 := by norm_num
  rw [f32round_eq q (ne_of_gt hpos)]
  have he := roundEven_err (q / f32ulp q)
  have h1 : (roundEven (q / f32ulp q) : ℚ) * f32ulp q - q
      = ((roundEven (q / f32ulp q) : ℚ) - q / f32ulp q) * f32ulp q := by
    field_simp
  rw [h1, abs_mul, abs_of_pos hupos]
  have h2 : f32ulp q ≤ q / 2 ^ 23 := by
    rw [hu, le_div_iff₀ (by positivity)]
    have : (2 : ℚ) ^ (ilog2 q - 23) * 2 ^ 23 = (2 : ℚ) ^ (ilog2 q) := by
      have h23 : (2 : ℚ) ^ (ilog2 q) = (2 : ℚ) ^ (ilog2 q - 23) * (2 : ℚ) ^ (23 : ℤ) := by
        rw [← zpow_add₀ h2ne]; congr 1; ring
      rw [h23]; norm_num
    rw [this]; exact hs.1
  calc |(roundEven (q / f32ulp q) : ℚ) - q / f32ulp q| * f32ulp q
      ≤ 1 / 2 * f32ulp q := mul_le_mul_of_nonneg_right he (le_of_lt hupos)
    _ ≤ 1 / 2 * (q / 2 ^ 23) := mul_le_mul_of_nonneg_left h2 (by norm_num)
    _ = q / 2 ^ 24 := by ring

theorem fdiv_byte_table : ∀ b : ℕ, b < 256 →
    (b : ℚ) / 255 ≤ fdiv (b : ℚ) 255 ∧
    fdiv (b : ℚ) 255 ≤ (b : ℚ) / 255 * (1 + 1 / 2 ^ 23) ∧ fdiv (b : ℚ) 255 ≤ 1 := by
  intro b hb
  obtain ⟨t1, t2, t3, -⟩ := roundNat_fdiv_table b hb
  rw [fdiv_byte_nat]
  generalize roundNat b 255 7 = R at t1 t2 t3
  obtain ⟨K, hK⟩ : ∃ K : ℕ, 2 ^ 149 = K := ⟨_, rfl⟩
  have hKq : (2 : ℚ) ^ 149 = (K : ℚ) := by rw [← hK]; norm_num
  have hK0 : (0 : ℚ) < K := by rw [← hKq]; positivity
  rw [hK] at t1 t2 t3
  rw [hKq]
  have q1 : (b : ℚ) * K ≤ 255 * R := by exact_mod_cast t1
  have q2 : (255 : ℚ) * R * 2 ^ 23 ≤ b * K * (2 ^ 23 + 1) := by exact_mod_cast t2
  have q3 : (R : ℚ) ≤ K := by exact_mod_cast t3
  refine ⟨?_, ?_, ?_⟩
  · rw [div_le_div_iff₀ (by norm_num) hK0]; linarith
  · rw [div_le_iff₀ hK0]
    have : (b : ℚ) / 255 * (1 + 1 / 2 ^ 23) * K = b * K * (2 ^ 23 + 1) / (255 * 2 ^ 23) := by
      field_simp; ring
    rw [this, le_div_iff₀ (by norm_num)]
    linarith
  · rw [div_le_one hK0]; exact q3

theorem f32round_half_table : ∀ b : ℕ, b < 256 →
    f32round ((b : ℚ) + 1 / 2) = (b : ℚ) + 1 / 2 := by
  intro b hb
  have h := f32round_natDiv (2 * b + 1) 2 1 (by norm_num) (by norm_num)
  have e : (((2 * b + 1 : ℕ) : ℚ)) / ((2 : ℕ) : ℚ) = (b : ℚ) + 1 / 2 := by
    push_cast; field_simp; ring
  rw [e] at h
  rw [h, roundNat_half_table b hb]
  have p : (2 : ℚ) ^ 149 = 2 * 2 ^ 148 := by rw [← pow_succ']
  rw [p, Nat.cast_mul, Nat.cast_pow, Nat.cast_ofNat, ← e]
  push_cast
  field_simp
  ring

set_option maxRecDepth 100000 in
theorem GAMMA_val : GAMMA = 9227469 / 4194304 := by decide!

set_option maxRecDepth 100000 in
theorem INVERSE_GAMMA_val : INVERSE_GAMMA = 7626007 / 16777216 := by decide!

theorem srgb_channel (m : Libm) (b : ℕ) (hb : b < 256) (hacc : GammaAccurate m b) :
    b - 1 ≤ toByte (fmul 255 (m.pow (fadd (m.pow (fdiv b 255) GAMMA) 0) INVERSE_GAMMA)) ∧
    toByte (fmul 255 (m.pow (fadd (m.pow (fdiv b 255) GAMMA) 0) INVERSE_GAMMA)) ≤ b := by
  rcases Nat.eq_zero_or_pos b with h0 | hpos
  · subst h0
    simp [fdiv_zero_left, m.pow_base_zero GAMMA GAMMA_pos, fadd_zero_zero,
      m.pow_base_zero INVERSE_GAMMA INVERSE_GAMMA_pos, fmul_zero_right, toByte_zero]
  · obtain ⟨hu1, hu2, hu3⟩ := fdiv_byte_table b hb
    obtain ⟨hP, hR⟩ := hacc
    unfold PowAccurate at hP hR
    set u := fdiv (b : ℚ) 255 with hu
    set P := m.pow u GAMMA with hPdef
    have hfadd : fadd P 0 = f32round P := by unfold fadd; rw [add_zero]
    rw [hfadd] at hR ⊢
    set P' := f32round P with hP'def
    set R := m.pow P' INVERSE_GAMMA with hRdef
    -- real-valued facts
    have hg : ((GAMMA : ℚ) : ℝ) = 9227469 / 4194304 := by rw [GAMMA_val]; norm_num
    have hh : ((INVERSE_GAMMA : ℚ) : ℝ) = 7626007 / 16777216 := by
      rw [INVERSE_GAMMA_val]; norm_num
    have hbR1 : (1 : ℝ) ≤ (b : ℝ) := by exact_mod_cast hpos
    have hbR2 : (b : ℝ) ≤ 255 := by exact_mod_cast (show b ≤ 255 by omega)
    have hu1R : (b : ℝ) / 255 ≤ (u : ℝ) := by
      have : (((b : ℚ) / 255 : ℚ) : ℝ) ≤ (u : ℝ) := by exact_mod_cast hu1
      simpa using this
    have hu2R : (u : ℝ) ≤ (b : ℝ) / 255 * (1 + 1 / 2 ^ 23) := by
      have : (u : ℝ) ≤ (((b : ℚ) / 255 * (1 + 1 / 2 ^ 23) : ℚ) : ℝ) := by exact_mod_cast hu2
      simpa using this
    have hu3R : (u : ℝ) ≤ 1 := by exact_mod_cast hu3
    have hupos : (0 : ℝ) < (u : ℝ) := lt_of_lt_of_le (by positivity) hu1R
    have hu255 : (1 : ℝ) / 255 ≤ (u : ℝ) :=
      le_trans (div_le_div_of_nonneg_right hbR1 (by norm_num)) hu1R
    -- the first power is in the normal range
    have hA3 : (u : ℝ) ^ (3 : ℕ) ≤ (u : ℝ) ^ ((GAMMA : ℚ) : ℝ) := by
      rw [← Real.rpow_natCast]
      apply Real.rpow_le_rpow_of_exponent_ge hupos hu3R
      rw [hg]; norm_num
    have hA255 : ((1 : ℝ) / 255) ^ (3 : ℕ) ≤ (u : ℝ) ^ (3 : ℕ) :=
      pow_le_pow_left₀ (by norm_num) hu255 3
    have hPlow : (u : ℝ) ^ ((GAMMA : ℚ) : ℝ) * (1 - 1 / 4096) ≤ (P : ℝ) := by
      have := (abs_le.mp hP).1; linarith
    have hPnormR : (((2 : ℚ) ^ (-126 : ℤ) : ℚ) : ℝ) ≤ (P : ℝ) := by
      have h1 : (((2 : ℚ) ^ (-126 : ℤ) : ℚ) : ℝ) ≤ ((1 : ℝ) / 255) ^ (3 : ℕ) * (1 - 1 / 4096) := by
        push_cast
        rw [zpow_neg, show ((126 : ℤ)) = ((126 : ℕ) : ℤ) by norm_num, zpow_natCast]
        norm_num
      have h2 : ((1 : ℝ) / 255) ^ (3 : ℕ) * (1 - 1 / 4096)
          ≤ (u : ℝ) ^ ((GAMMA : ℚ) : ℝ) * (1 - 1 / 4096) :=
        mul_le_mul_of_nonneg_right (le_trans hA255 hA3) (by norm_num)
      exact le_trans h1 (le_trans h2 hPlow)
    have hPnorm : (2 : ℚ) ^ (-126 : ℤ) ≤ P := by exact_mod_cast hPnormR
    have hQ := f32round_rel_err P hPnorm
    have hQR : |(P' : ℝ) - (P : ℝ)| ≤ (P : ℝ) / 2 ^ 24 := by
      have : ((|f32round P - P| : ℚ) : ℝ) ≤ ((P / 2 ^ 24 : ℚ) : ℝ) := by exact_mod_cast hQ
      simpa using this
    have hchain := gamma_chain ((GAMMA : ℚ) : ℝ) ((INVERSE_GAMMA : ℚ) : ℝ)
      (((GAMMA : ℚ) : ℝ) * ((INVERSE_GAMMA : ℚ) : ℝ) - 1) (b : ℝ) (u : ℝ) (P : ℝ) (P' : ℝ) (R : ℝ)
      (by rw [hh]; norm_num) (by rw [hh]; norm_num) (by ring)
      (by rw [hg, hh]; norm_num) (by rw [hg, hh]; norm_num) hbR1 hbR2 hu1R hu2R hu3R hP hQR hR
    obtain ⟨hc1, hc2⟩ := hchain
    have hc1Q : ((b - 1 : ℕ) : ℚ) ≤ 255 * R := by
      have : (((b - 1 : ℕ) : ℚ) : ℝ) ≤ ((255 * R : ℚ) : ℝ) := by
        push_cast [Nat.cast_sub hpos]; linarith
      exact_mod_cast this
    have hc2Q : 255 * R ≤ (b : ℚ) + 1 / 2 := by
      have : ((255 * R : ℚ) : ℝ) ≤ (((b : ℚ) + 1 / 2 : ℚ) : ℝ) := by
        push_cast; linarith
      exact_mod_cast this
    have hS1 : ((b - 1 : ℕ) : ℚ) ≤ fmul 255 R := by
      have := f32round_mono_nonneg _ _ (by positivity) hc1Q
      rw [f32round_byte _ (by omega)] at this
      exact this
    have hS2 : fmul 255 R ≤ (b : ℚ) + 1 / 2 := by
      have hR0 : (0 : ℚ) ≤ 255 * R := le_trans (by positivity) hc1Q
      have := f32round_mono_nonneg _ _ hR0 hc2Q
      rw [f32round_half_table _ hb] at this
      exact this
    have hS0 : 0 ≤ fmul 255 R := le_trans (by positivity) hS1
    have hS256 : fmul 255 R < 256 := by
      have : (b : ℚ) ≤ 255 := by exact_mod_cast (show b ≤ 255 by omega)
      linarith
    rw [toByte_of_nonneg _ hS0 hS256]
    constructor
    · exact Nat.le_floor hS1
    · have : ⌊fmul 255 R⌋₊ < b + 1 := by
        rw [Nat.floor_lt hS0]; push_cast; linarith
      omega

theorem fadd_one_zero : fadd 1 0 = 1 := by
  have := f32round_byte 1 (by norm_num)
  unfold fadd; rw [add_zero]; exact_mod_cast this

theorem GammaAccurate_zero (m : Libm) : GammaAccurate m 0 := by
  have hg : ((GAMMA : ℚ) : ℝ) ≠ 0 := by
    have := GAMMA_pos; exact_mod_cast (ne_of_gt this)
  have hi : ((INVERSE_GAMMA : ℚ) : ℝ) ≠ 0 := by
    have := INVERSE_GAMMA_pos; exact_mod_cast (ne_of_gt this)
  unfold GammaAccurate PowAccurate
  simp [fdiv_zero_left, m.pow_base_zero GAMMA GAMMA_pos, fadd_zero_zero,
    m.pow_base_zero INVERSE_GAMMA INVERSE_GAMMA_pos, Real.zero_rpow hg, Real.zero_rpow hi]

theorem GammaAccurate_255 (m : Libm) : GammaAccurate m 255 := by
  unfold GammaAccurate PowAccurate
  have h : fdiv ((255 : ℕ) : ℚ) 255 = 1 := by exact_mod_cast fdiv_255_255
  rw [h]
  simp [m.pow_base_one, fadd_one_zero]

theorem composePixel_srgb_alpha255 (m : Libm) (ax ay az : ℕ) :
    composePixel m true false ⟨ax, ay, az, 255⟩ ⟨0, 0, 0, 0⟩
      = ⟨toByte (fmul 255 (m.pow (fadd (m.pow (fdiv ax 255) GAMMA) 0) INVERSE_GAMMA)),
         toByte (fmul 255 (m.pow (fadd (m.pow (fdiv ay 255) GAMMA) 0) INVERSE_GAMMA)),
         toByte (fmul 255 (m.pow (fadd (m.pow (fdiv az 255) GAMMA) 0) INVERSE_GAMMA)),
         255⟩ := by
  simp [composePixel, composeColor, normalize255, vec4f.add, vec4f.scale, fdiv_255_255,
    fsub_one_one, fdiv_zero_left, fmul_zero_right, fmul_zero_left,
    m.pow_base_zero GAMMA GAMMA_pos, alpha255_table]

theorem compose_single_pixel (m : Libm) (L : image4b) (premultiplied no_srgb : Bool)
    (hwf : L.pixels.length = L.width * L.height) (i : ℕ) (hi : i < L.pixels.length) :
    (compose m [L] premultiplied no_srgb).pixel i
      = composePixel m premultiplied no_srgb (L.pixel i) ⟨0, 0, 0, 0⟩ := by
  rw [compose_single m L premultiplied no_srgb hwf]
  unfold image4b.pixel
  simp [List.getD_eq_getElem?_getD, hi, List.getElem?_zipWith]

/-- A single opaque layer composited with `premultiplied = true` is reproduced
exactly in linear colour space, for every C library; in sRGB colour space, for a
library whose `pow` calls on the layer's colour bytes are accurate to a relative
error of `1/4096`, the size and every alpha byte are reproduced and every colour
byte is the input byte or one less. -/
theorem compose_identity_of_accurate (m : Libm) (L : image4b)
    (hwf : L.pixels.length = L.width * L.height)
    (hbytes : ∀ p ∈ L.pixels, p.valid) (halpha : ∀ p ∈ L.pixels, p.w = 255) :
    compose m [L] true true = L ∧
    ((∀ p ∈ L.pixels, GammaAccurate m p.x ∧ GammaAccurate m p.y ∧ GammaAccurate m p.z) →
      (compose m [L] true false).width = L.width ∧
      (compose m [L] true false).height = L.height ∧
      (compose m [L] true false).pixels.length = L.pixels.length ∧
      ∀ i, i < L.pixels.length →
        ((L.pixel i).x - 1 ≤ ((compose m [L] true false).pixel i).x ∧
          ((compose m [L] true false).pixel i).x ≤ (L.pixel i).x) ∧
        ((L.pixel i).y - 1 ≤ ((compose m [L] true false).pixel i).y ∧
          ((compose m [L] true false).pixel i).y ≤ (L.pixel i).y) ∧
        ((L.pixel i).z - 1 ≤ ((compose m [L] true false).pixel i).z ∧
          ((compose m [L] true false).pixel i).z ≤ (L.pixel i).z) ∧
        ((compose m [L] true false).pixel i).w = (L.pixel i).w) := by
  constructor
  · exact compose_last_alpha255 m [L] true (by simp) (by intro L' hL'; simp at hL'; subst hL'; simp [hwf])
      (by simpa using hbytes) (by simpa using halpha)
  · intro hacc
    refine ⟨?_, ?_, ?_, ?_⟩
    · rw [compose_single m L true false hwf]
    · rw [compose_single m L true false hwf]
    · rw [compose_single m L true false hwf]; simp
    · intro i hi
      rw [compose_single_pixel m L true false hwf i hi]
      have hmem : L.pixel i ∈ L.pixels := by
        rw [image4b.pixel_eq_getElem L i hi]; exact List.getElem_mem hi
      obtain ⟨gx, gy, gz⟩ := hacc _ hmem
      obtain ⟨vx, vy, vz, -⟩ := hbytes _ hmem
      have hw := halpha _ hmem
      cases hq : L.pixel i with
      | mk ax ay az aw =>
        rw [hq] at gx gy gz vx vy vz hw
        simp only at gx gy gz vx vy vz hw
        subst hw
        rw [composePixel_srgb_alpha255]
        exact ⟨srgb_channel m ax vx gx, srgb_channel m ay vy gy, srgb_channel m az vz gz, rfl⟩

/-! ## More on the rounding model -/

theorem roundEven_neg (t : ℚ) : roundEven (-t) = -roundEven t := by
  have h1 : (⌊t⌋ : ℚ) ≤ t := Int.floor_le t
  have h2 : t < ⌊t⌋ + 1 := Int.lt_floor_add_one t
  rcases eq_or_lt_of_le h1 with he | hl
  · rw [← he, ← Int.cast_neg, roundEven_intCast, roundEven_intCast]
  · have hf : ⌊-t⌋ = -⌊t⌋ - 1 := by
      rw [Int.floor_eq_iff]; push_cast; constructor <;> linarith
    unfold roundEven
    simp only [hf]
    push_cast
    split_ifs <;> first | omega | (exfalso; linarith)

theorem f32ulp_neg (q : ℚ) : f32ulp (-q) = f32ulp q := by
  unfold f32ulp; rw [abs_neg]

theorem f32round_neg (q : ℚ) : f32round (-q) = -f32round q := by
  by_cases hq : q = 0
  · subst hq; simp [f32round_zero]
  · rw [f32round_eq q hq, f32round_eq (-q) (neg_ne_zero.mpr hq), f32ulp_neg, neg_div,
      roundEven_neg]
    push_cast; ring

theorem f32round_nonpos (q : ℚ) (h : q ≤ 0) : f32round q ≤ 0 := by
  have := f32round_nonneg (-q) (by linarith)
  rw [f32round_neg] at this
  linarith

/-- Rounding to binary32 is monotone. -/
theorem f32round_mono (q r : ℚ) (h : q ≤ r) : f32round q ≤ f32round r := by
  rcases le_or_lt 0 q with hq | hq
  · exact f32round_mono_nonneg q r hq h
  · rcases le_or_lt r 0 with hr | hr
    · have := f32round_mono_nonneg (-r) (-q) (by linarith) (by linarith)
      rw [f32round_neg, f32round_neg] at this
      linarith
    · exact le_trans (f32round_nonpos q (le_of_lt hq)) (f32round_nonneg r (le_of_lt hr))

theorem two_zpow_split (e : ℤ) (n : ℕ) :
    (2 : ℚ) ^ (e + n) = (2 : ℚ) ^ n * (2 : ℚ) ^ e := by
  rw [zpow_add₀ (by norm_num : (2 : ℚ) ≠ 0), zpow_natCast]; ring

theorem f32round_two_zpow (k : ℤ) (hk : -126 ≤ k) : f32round ((2 : ℚ) ^ k) = (2 : ℚ) ^ k := by
  have hpos : (0 : ℚ) < (2 : ℚ) ^ k := by positivity
  have hl : ilog2 ((2 : ℚ) ^ k) = k :=
    ilog2_unique _ k hpos le_rfl (zpow_lt_zpow_right₀ (by norm_num) (by omega))
  have hu : f32ulp ((2 : ℚ) ^ k) = (2 : ℚ) ^ (k - 23) := by
    unfold f32ulp; rw [abs_of_pos hpos, hl, max_eq_left hk]
  rw [f32round_eq _ (ne_of_gt hpos), hu]
  have h23 : (2 : ℚ) ^ k = ((2 ^ 23 : ℤ) : ℚ) * (2 : ℚ) ^ (k - 23) := by
    have := two_zpow_split (k - 23) 23
    rw [show k - 23 + ((23 : ℕ) : ℤ) = k by push_cast; ring] at this
    rw [this]; norm_num
  have hd : (2 : ℚ) ^ k / (2 : ℚ) ^ (k - 23) = ((2 ^ 23 : ℤ) : ℚ) := by
    rw [div_eq_iff (by positivity)]; exact h23
  rw [hd, roundEven_intCast, ← h23]

/-- Rounding is idempotent: a rounded value is a binary32 value. -/
theorem f32round_idem_pos (q : ℚ) (hq : 0 < q) : f32round (f32round q) = f32round q := by
  have hs := ilog2_spec q hq
  have habs : |q| = q := abs_of_pos hq
  have hu : f32ulp q = (2 : ℚ) ^ (max (ilog2 q) (-126) - 23) := by
    unfold f32ulp; rw [habs]
  have hupos := f32ulp_pos q
  set e := max (ilog2 q) (-126) with he
  set M := roundEven (q / f32ulp q) with hM
  have hr : f32round q = (M : ℚ) * f32ulp q := f32round_eq q (ne_of_gt hq)
  have he126 : -126 ≤ e := le_max_right _ _
  have hle : ilog2 q ≤ e := le_max_left _ _
  have h24 : (2 : ℚ) ^ (e + 1) = ((2 ^ 24 : ℤ) : ℚ) * f32ulp q := by
    have := two_zpow_split (e - 23) 24
    rw [show e - 23 + ((24 : ℕ) : ℤ) = e + 1 by push_cast; ring] at this
    rw [this, hu]; norm_num
  have h23 : (2 : ℚ) ^ e = ((2 ^ 23 : ℤ) : ℚ) * f32ulp q := by
    have := two_zpow_split (e - 23) 23
    rw [show e - 23 + ((23 : ℕ) : ℤ) = e by push_cast; ring] at this
    rw [this, hu]; norm_num
  have hM0 : 0 ≤ M := roundEven_ge_of_int_le _ 0 (by push_cast; positivity)
  have hM24 : M ≤ 2 ^ 24 := by
    apply roundEven_le_of_le_int
    rw [div_le_iff₀ hupos, ← h24]
    exact le_trans (le_of_lt hs.2) (zpow_le_zpow_right₀ (by norm_num) (by omega))
  rcases eq_or_lt_of_le hM0 with h0 | hMpos
  · rw [hr, ← h0]; simp [f32round_zero]
  rcases eq_or_lt_of_le hM24 with h24eq | hMlt
  · rw [hr, h24eq, ← h24]
    exact f32round_two_zpow (e + 1) (by omega)
  · -- the rounded value lies on the same grid
    have hrpos : 0 < f32round q := by rw [hr]; exact mul_pos (by exact_mod_cast hMpos) hupos
    have hrlt : f32round q < (2 : ℚ) ^ (e + 1) := by
      rw [hr, h24]
      exact mul_lt_mul_of_pos_right (by exact_mod_cast hMlt) hupos
    have hlog : max (ilog2 (f32round q)) (-126) = e := by
      rcases eq_or_lt_of_le hle with heq | hlt
      · -- normal range
        have hge : (2 : ℚ) ^ e ≤ f32round q := by
          have hM23 : (2 : ℤ) ^ 23 ≤ M := by
            apply roundEven_ge_of_int_le
            rw [le_div_iff₀ hupos, ← h23, ← heq]
            exact hs.1
          rw [hr, h23]
          exact mul_le_mul_of_nonneg_right (by exact_mod_cast hM23) (le_of_lt hupos)
        rw [ilog2_unique _ e hrpos hge hrlt]
        exact max_eq_left he126
      · -- subnormal range
        have he' : e = -126 := by
          rcases max_choice (ilog2 q) (-126) with h | h
          · omega
          · exact h
        have hs' := ilog2_spec _ hrpos
        have g : (2 : ℚ) ^ ilog2 (f32round q) < (2 : ℚ) ^ (e + 1) := lt_of_le_of_lt hs'.1 hrlt
        have := (zpow_lt_zpow_iff_right₀ (by norm_num : (1 : ℚ) < 2)).mp g
        rw [he']
        exact max_eq_right (by omega)
    have hu' : f32ulp (f32round q) = f32ulp q := by
      rw [hu]; unfold f32ulp; rw [abs_of_pos hrpos, hlog]
    rw [f32round_eq _ (ne_of_gt hrpos), hu']
    have : f32round q / f32ulp q = (M : ℚ) := by
      rw [hr]; field_simp
    rw [this, roundEven_intCast, ← hr]

theorem f32round_idem (q : ℚ) : IsF32 (f32round q) := by
  unfold IsF32
  rcases lt_trichotomy q 0 with h | h | h
  · have := f32round_idem_pos (-q) (by linarith)
    rw [f32round_neg, f32round_neg] at this
    linarith
  · subst h; simp [f32round_zero]
  · exact f32round_idem_pos q h

/-- Absolute rounding error below `2^(k+1)`: half a grid step `2^(k-23)`. -/
theorem f32round_abs_err (q : ℚ) (k : ℤ) (h0 : 0 ≤ q) (h1 : q < (2 : ℚ) ^ (k + 1))
    (hk : -126 ≤ k) : |f32round q - q| ≤ (2 : ℚ) ^ (k - 24) := by
  rcases eq_or_lt_of_le h0 with hz | hpos
  · rw [← hz, f32round_zero]; simp; positivity
  have hs := ilog2_spec q hpos
  have hlk : ilog2 q ≤ k := by
    have g : (2 : ℚ) ^ ilog2 q < (2 : ℚ) ^ (k + 1) := lt_of_le_of_lt hs.1 h1
    have := (zpow_lt_zpow_iff_right₀ (by norm_num : (1 : ℚ) < 2)).mp g
    omega
  have hu : f32ulp q ≤ (2 : ℚ) ^ (k - 23) := by
    unfold f32ulp; rw [abs_of_pos hpos]
    exact zpow_le_zpow_right₀ (by norm_num) (by have := max_le hlk hk; omega)
  have hupos := f32ulp_pos q
  rw [f32round_eq q (ne_of_gt hpos)]
  have he := roundEven_err (q / f32ulp q)
  have h1' : (roundEven (q / f32ulp q) : ℚ) * f32ulp q - q
      = ((roundEven (q / f32ulp q) : ℚ) - q / f32ulp q) * f32ulp q := by
    field_simp
  rw [h1', abs_mul, abs_of_pos hupos]
  have h24 : (2 : ℚ) ^ (k - 23) = 2 * (2 : ℚ) ^ (k - 24) := by
    rw [← zpow_one_add₀ (by norm_num : (2 : ℚ) ≠ 0)]; congr 1; ring
  calc |(roundEven (q / f32ulp q) : ℚ) - q / f32ulp q| * f32ulp q
      ≤ 1 / 2 * f32ulp q := mul_le_mul_of_nonneg_right he (le_of_lt hupos)
    _ ≤ 1 / 2 * (2 : ℚ) ^ (k - 23) := mul_le_mul_of_nonneg_left hu (by norm_num)
    _ = (2 : ℚ) ^ (k - 24) := by rw [h24]; ring

theorem f32round_err_unit (q : ℚ) (h0 : 0 ≤ q) (h1 : q < 2) :
    |f32round q - q| ≤ 1 / 2 ^ 24 := by
  have := f32round_abs_err q 0 h0 (by simpa using h1) (by norm_num)
  have h : (2 : ℚ) ^ ((0 : ℤ) - 24) = 1 / 2 ^ 24 := by
    rw [show ((0 : ℤ) - 24) = -((24 : ℕ) : ℤ) by norm_num, zpow_neg, zpow_natCast]; norm_num
  rwa [h] at this

theorem f32round_err_byte (q : ℚ) (h0 : 0 ≤ q) (h1 : q < 256) :
    |f32round q - q| ≤ 1 / 2 ^ 17 := by
  have := f32round_abs_err q 7 h0 (by norm_num; exact h1) (by norm_num)
  have h : (2 : ℚ) ^ ((7 : ℤ) - 24) = 1 / 2 ^ 17 := by
    rw [show ((7 : ℤ) - 24) = -((17 : ℕ) : ℤ) by norm_num, zpow_neg, zpow_natCast]; norm_num
  rwa [h] at this

/-! ## Bounds-checked compositing -/

theorem composeLayerChecked_loop (m : Libm) (premultiplied no_srgb : Bool)
    (result source : image4b) (hlen : source.pixels.length ≤ result.pixels.length) :
    ∀ n, n ≤ source.pixels.length →
    (List.range n).foldlM
      (fun result i =>
        match source.pixels[i]?, result.pixels[i]? with
        | some above, some below =>
          some (result.store i (composePixel m premultiplied no_srgb above below))
        | _, _ => none)
      result
    = some ((List.range n).foldl
        (fun result i =>
          result.store i (composePixel m premultiplied no_srgb (source.pixel i) (result.pixel i)))
        result) := by
  intro n
  induction n with
  | zero => intro _; simp
  | succ n ih =>
    intro hn
    rw [List.range_succ, List.foldlM_append, List.foldl_append, ih (by omega)]
    obtain ⟨-, -, hl, -⟩ := loop_store
      (fun i below => composePixel m premultiplied no_srgb (source.pixel i) below) n result
    have hs : n < source.pixels.length := by omega
    have hr : n < ((List.range n).foldl
        (fun result i =>
          result.store i (composePixel m premultiplied no_srgb (source.pixel i) (result.pixel i)))
        result).pixels.length := by rw [hl]; omega
    simp [List.getElem?_eq_getElem hs, List.getElem?_eq_getElem hr,
      image4b.pixel_eq_getElem _ n hs, image4b.pixel_eq_getElem _ n hr]

theorem composeLayerChecked_eq (m : Libm) (premultiplied no_srgb : Bool)
    (result source : image4b) (hlen : source.pixels.length ≤ result.pixels.length) :
    composeLayerChecked m premultiplied no_srgb result source
      = some (composeLayer m premultiplied no_srgb result source) :=
  composeLayerChecked_loop m premultiplied no_srgb result source hlen _ le_rfl

theorem foldlM_composeLayerChecked (m : Libm) (premultiplied no_srgb : Bool) :
    ∀ (layers : List image4b) (acc : image4b),
      (∀ L ∈ layers, L.pixels.length ≤ acc.pixels.length) →
      layers.foldlM (composeLayerChecked m premultiplied no_srgb) acc
        = some (layers.foldl (composeLayer m premultiplied no_srgb) acc) := by
  intro layers
  induction layers with
  | nil => intro acc _; rfl
  | cons L rest ih =>
    intro acc h
    rw [List.foldlM_cons, composeLayerChecked_eq m premultiplied no_srgb acc L
      (h L (List.mem_cons_self _ _))]
    simp only [Option.bind_eq_bind, Option.some_bind, List.foldl_cons]
    apply ih
    intro L' hL'
    rw [(composeLayer_size m premultiplied no_srgb acc L).2.2]
    exact h L' (List.mem_cons_of_mem _ hL')

/-- C15 (compose is total on equally-sized layers): for a non-empty sequence of
layers that all have the width and height of `layers[0]` and satisfy the buffer
invariant `pixels.length = width * height`, every access `result.pixels[i]` of
`compose` is in bounds (the bounds-checked `composeChecked` succeeds with the
result of `compose`), and the result has the width and height of `layers[0]`. -/
theorem compose_total (m : Libm) (layers : List image4b) (premultiplied no_srgb : Bool)
    (hne : layers ≠ [])
    (hsize : ∀ L ∈ layers, L.width = (layers.head hne).width ∧
      L.height = (layers.head hne).height ∧ L.pixels.length = L.width * L.height) :
    composeChecked m layers premultiplied no_srgb
      = some (compose m layers premultiplied no_srgb) ∧
    (compose m layers premultiplied no_srgb).width = (layers.head hne).width ∧
    (compose m layers premultiplied no_srgb).height = (layers.head hne).height := by
  have hc : composeChecked m layers premultiplied no_srgb
      = layers.foldlM (composeLayerChecked m premultiplied no_srgb)
          (image4b.make (layers.head hne).width (layers.head hne).height) := by
    cases layers with
    | nil => exact absurd rfl hne
    | cons a t => rfl
  rw [hc, compose_ne_nil m layers premultiplied no_srgb hne]
  obtain ⟨h1, h2, -⟩ := foldl_composeLayer_size m premultiplied no_srgb layers
    (image4b.make (layers.head hne).width (layers.head hne).height)
  refine ⟨?_, h1, h2⟩
  apply foldlM_composeLayerChecked
  intro L hL
  obtain ⟨hw, hh, hl⟩ := hsize L hL
  simp [image4b.make, hl, hw, hh]

theorem compose_total_witness :
    composeChecked Libm.intPow [layerHalf, layerMixed] false true
      = some (compose Libm.intPow [layerHalf, layerMixed] false true) ∧
    (compose Libm.intPow [layerHalf, layerMixed] false true).width = 2 ∧
    (compose Libm.intPow [layerHalf, layerMixed] false true).height = 1 :=
  compose_total Libm.intPow [layerHalf, layerMixed] false true (by simp) (by decide)

/-! ## The alpha channel of `compose` -/

theorem f32round_one : f32round 1 = 1 := by
  have := f32round_byte 1 (by norm_num)
  exact_mod_cast this

/-- The `float` value that `compose` converts to the alpha byte is within
`1/1000` of the exact `255 * (a + b * (1 - a))`, and the blended alpha is at
most `1 + 3/2^24`. -/
theorem alpha_value_bounds (A B : ℕ) (hA : A < 256) (hB : B < 256) :
    0 ≤ fadd (fdiv A 255) (fmul (fdiv B 255) (fsub 1 (fdiv A 255))) ∧
    fadd (fdiv A 255) (fmul (fdiv B 255) (fsub 1 (fdiv A 255))) ≤ 1 + 3 / 2 ^ 24 ∧
    (255 : ℚ) * ((A : ℚ) / 255 + (B : ℚ) / 255 * (1 - (A : ℚ) / 255)) - 1 / 1000
      ≤ fmul 255 (fadd (fdiv A 255) (fmul (fdiv B 255) (fsub 1 (fdiv A 255)))) ∧
    fmul 255 (fadd (fdiv A 255) (fmul (fdiv B 255) (fsub 1 (fdiv A 255))))
      ≤ (255 : ℚ) * ((A : ℚ) / 255 + (B : ℚ) / 255 * (1 - (A : ℚ) / 255)) + 1 / 1000 := by
  obtain ⟨a1, a2, a3⟩ := fdiv_byte_table A hA
  obtain ⟨b1, b2, b3⟩ := fdiv_byte_table B hB
  have hAq : (A : ℚ) ≤ 255 := by exact_mod_cast (show A ≤ 255 by omega)
  have hBq : (B : ℚ) ≤ 255 := by exact_mod_cast (show B ≤ 255 by omega)
  have hα0 : (0 : ℚ) ≤ (A : ℚ) / 255 := by positivity
  have hβ0 : (0 : ℚ) ≤ (B : ℚ) / 255 := by positivity
  have hα1 : (A : ℚ) / 255 ≤ 1 := by rw [div_le_one (by norm_num)]; exact hAq
  have hβ1 : (B : ℚ) / 255 ≤ 1 := by rw [div_le_one (by norm_num)]; exact hBq
  generalize (A : ℚ) / 255 = α at *
  generalize (B : ℚ) / 255 = β at *
  generalize fdiv (A : ℚ) 255 = uA at *
  generalize fdiv (B : ℚ) 255 = uB at *
  have a2' : uA ≤ α + 2 / 2 ^ 24 := by linarith
  have b2' : uB ≤ β + 2 / 2 ^ 24 := by linarith
  have huA0 : 0 ≤ uA := le_trans hα0 a1
  have huB0 : 0 ≤ uB := le_trans hβ0 b1
  -- s = 1.0f - a
  have hs : |fsub 1 uA - (1 - uA)| ≤ 1 / 2 ^ 24 :=
    f32round_err_unit (1 - uA) (by linarith) (by linarith)
  have hs0 : 0 ≤ fsub 1 uA := f32round_nonneg _ (by linarith)
  generalize fsub 1 uA = s at *
  obtain ⟨hs1, hs2⟩ := abs_le.mp hs
  -- t = b * s
  have hus0 : 0 ≤ uB * s := mul_nonneg huB0 hs0
  have hus1 : uB * s ≤ s := by
    have := mul_le_mul_of_nonneg_right b3 hs0
    linarith
  have ht : |fmul uB s - uB * s| ≤ 1 / 2 ^ 24 :=
    f32round_err_unit (uB * s) hus0 (by linarith)
  have ht0 : 0 ≤ fmul uB s := f32round_nonneg _ hus0
  generalize fmul uB s = t at *
  obtain ⟨ht1, ht2⟩ := abs_le.mp ht
  -- v = a + t
  have hv : |fadd uA t - (uA + t)| ≤ 1 / 2 ^ 24 :=
    f32round_err_unit (uA + t) (by linarith) (by linarith)
  have hv0 : 0 ≤ fadd uA t := f32round_nonneg _ (by linarith)
  generalize fadd uA t = v at *
  obtain ⟨hv1, hv2⟩ := abs_le.mp hv
  -- w = 255.0f * v
  have hw : |fmul 255 v - 255 * v| ≤ 1 / 2 ^ 17 :=
    f32round_err_byte (255 * v) (by linarith) (by linarith)
  generalize fmul 255 v = w at *
  obtain ⟨hw1, hw2⟩ := abs_le.mp hw
  -- the product against the exact one
  have hup : uB * s ≤ β * (1 - α) + 4 / 2 ^ 24 := by
    have h1 : s ≤ 1 - α + 1 / 2 ^ 24 := by linarith
    have h2 : uB * s ≤ (β + 2 / 2 ^ 24) * (1 - α + 1 / 2 ^ 24) :=
      mul_le_mul b2' h1 hs0 (by linarith)
    linarith
  have hlo : β * (1 - α) - 3 / 2 ^ 24 ≤ uB * s := by
    have h1 : 1 - α - 3 / 2 ^ 24 ≤ s := by linarith
    have h2 : β * s ≤ uB * s := mul_le_mul_of_nonneg_right b1 hs0
    have h3 : β * (1 - α - 3 / 2 ^ 24) ≤ β * s := mul_le_mul_of_nonneg_left h1 hβ0
    linarith
  refine ⟨hv0, ?_, ?_, ?_⟩ <;> linarith

set_option maxRecDepth 10000000 in
theorem alphaOverNat_table : ∀ A : ℕ, A < 255 → ∀ k : ℕ, k < Nat.gcd A 255 → 0 < A → 0 < k →
    alphaOverNat A (k * (255 / Nat.gcd A 255))
      = (255 * (A + k * (255 / Nat.gcd A 255)) - A * (k * (255 / Nat.gcd A 255))) / 255 := by
  decide!

theorem alphaOver_eq_nat (A B : ℕ) (hA : A < 256) : alphaOver A B = alphaOverNat A B := by
  unfold alphaOver alphaOverNat
  rw [fdiv_byte_nat A, fdiv_byte_nat B, fsub_one_scaled _ (roundNat_fdiv_table A hA).2.2.1,
    fmul_scaled, fadd_scaled, fmul_byte_scaled, toByte_natDiv]

theorem alphaOverSpec_nat (A B : ℕ) (hA : A ≤ 255) :
    alphaOverSpec A B = (255 * (A + B) - A * B) / 255 := by
  unfold alphaOverSpec
  have hle : A * B ≤ 255 * (A + B) := by
    have : A * B ≤ 255 * B := Nat.mul_le_mul_right B hA
    omega
  have e : (255 : ℚ) * ((A : ℚ) / 255 + (B : ℚ) / 255 * (1 - (A : ℚ) / 255))
      = ((255 * (A + B) - A * B : ℕ) : ℚ) / ((255 : ℕ) : ℚ) := by
    rw [Nat.cast_sub hle]; push_cast; field_simp; ring
  rw [e, Rat.natFloor_natCast_div_natCast]

theorem alphaOver_table : ∀ A : ℕ, A < 255 → ∀ k : ℕ, k < Nat.gcd A 255 → 0 < A → 0 < k →
    alphaOver A (k * (255 / Nat.gcd A 255)) = alphaOverSpec A (k * (255 / Nat.gcd A 255)) := by
  intro A hA k hk hA0 hk0
  rw [alphaOver_eq_nat A _ (by omega), alphaOverSpec_nat A _ (by omega)]
  exact alphaOverNat_table A hA k hk hA0 hk0

theorem alpha_full_table : ∀ A : ℕ, A < 256 →
    fadd (fdiv (A : ℚ) 255) (fsub 1 (fdiv (A : ℚ) 255)) = 1 := by
  intro A hA
  obtain ⟨-, -, t3, -, -, t6⟩ := roundNat_fdiv_table A hA
  rw [fdiv_byte_nat, fsub_one_scaled _ t3, fadd_scaled, t6, Nat.cast_pow, Nat.cast_ofNat,
    div_self (by positivity)]

theorem alphaOver_zero_right (A : ℕ) (hA : A < 256) : alphaOver A 0 = A := by
  unfold alphaOver
  rw [Nat.cast_zero, fdiv_zero_left, fmul_zero_left]
  exact byte_table_add A hA

theorem alphaOver_zero_left (B : ℕ) (hB : B < 256) : alphaOver 0 B = B := by
  unfold alphaOver
  rw [Nat.cast_zero, fdiv_zero_left, fsub_one_zero]
  have h1 : fmul (fdiv (B : ℚ) 255) 1 = fdiv (B : ℚ) 255 := by
    unfold fmul; rw [mul_one]; exact f32round_idem _
  have h2 : fadd 0 (fdiv (B : ℚ) 255) = fdiv (B : ℚ) 255 := by
    unfold fadd; rw [zero_add]; exact f32round_idem _
  rw [h1, h2]
  exact byte_table B hB

theorem alphaOver_255_left (B : ℕ) : alphaOver 255 B = 255 := by
  unfold alphaOver
  have h : fdiv ((255 : ℕ) : ℚ) 255 = 1 := by exact_mod_cast fdiv_255_255
  rw [h, fsub_one_one, fmul_zero_right]
  exact alpha255_table

theorem alphaOver_255_right (A : ℕ) (hA : A < 256) : alphaOver A 255 = 255 := by
  unfold alphaOver
  have h : fdiv ((255 : ℕ) : ℚ) 255 = 1 := by exact_mod_cast fdiv_255_255
  have h1 : fmul 1 (fsub 1 (fdiv (A : ℚ) 255)) = fsub 1 (fdiv (A : ℚ) 255) := by
    unfold fmul; rw [one_mul]; exact f32round_idem _
  rw [h, h1, alpha_full_table A hA]
  have := byte_table 255 (by norm_num)
  rw [h] at this
  exact this

theorem alphaOverSpec_formula (A B : ℕ) :
    (255 : ℚ) * ((A : ℚ) / 255 + (B : ℚ) / 255 * (1 - (A : ℚ) / 255))
      = (A : ℚ) + (B : ℚ) - (A : ℚ) * (B : ℚ) / 255 := by
  field_simp; ring

theorem natFloor_natCast_rat (n : ℕ) : ⌊(n : ℚ)⌋₊ = n := Nat.floor_natCast n

theorem alphaOver_interior_table (A B : ℕ) (hA0 : 0 < A) (hA : A < 255) (hB0 : 0 < B)
    (hB : B < 255) (hdvd : 255 ∣ A * B) : alphaOver A B = alphaOverSpec A B := by
  have hg : 0 < Nat.gcd A 255 := Nat.gcd_pos_of_pos_right A (by norm_num)
  have hgd : Nat.gcd A 255 ∣ 255 := Nat.gcd_dvd_right A 255
  have hga : Nat.gcd A 255 ∣ A := Nat.gcd_dvd_left A 255
  have hc : 255 / Nat.gcd A 255 * Nat.gcd A 255 = 255 := Nat.div_mul_cancel hgd
  -- the cofactor of the gcd divides `B`
  have hcop : Nat.Coprime (255 / Nat.gcd A 255) (A / Nat.gcd A 255) := by
    have := Nat.coprime_div_gcd_div_gcd hg
    exact this.symm
  have hdiv : 255 / Nat.gcd A 255 ∣ B := by
    apply hcop.dvd_of_dvd_mul_left
    have h1 : 255 / Nat.gcd A 255 * Nat.gcd A 255 ∣ A / Nat.gcd A 255 * Nat.gcd A 255 * B := by
      rw [hc, Nat.div_mul_cancel hga]; exact hdvd
    have h2 : A / Nat.gcd A 255 * Nat.gcd A 255 * B
        = (A / Nat.gcd A 255 * B) * Nat.gcd A 255 := by ring
    rw [h2] at h1
    exact Nat.dvd_of_mul_dvd_mul_right hg h1
  obtain ⟨k, hk⟩ := hdiv
  have hk' : B = k * (255 / Nat.gcd A 255) := by rw [hk]; ring
  have hk0 : 0 < k := by
    rcases Nat.eq_zero_or_pos k with h | h
    · rw [h] at hk'; omega
    · exact h
  have hklt : k < Nat.gcd A 255 := by
    by_contra hcon
    push_neg at hcon
    have : 255 ≤ k * (255 / Nat.gcd A 255) := by
      calc 255 = Nat.gcd A 255 * (255 / Nat.gcd A 255) := by rw [mul_comm]; exact hc.symm
        _ ≤ k * (255 / Nat.gcd A 255) := Nat.mul_le_mul_right _ hcon
    omega
  rw [hk']
  exact alphaOver_table A hA k hklt hA0 hk0

/-- The alpha byte stored by `compose` is the truncation of the exact blend
`255 * (a + b * (1 - a))` of the two alpha bytes taken as `byte / 255`. -/
theorem alphaOver_eq_spec (A B : ℕ) (hA : A < 256) (hB : B < 256) :
    alphaOver A B = alphaOverSpec A B := by
  rcases Nat.eq_zero_or_pos B with hB0 | hB0
  · subst hB0
    rw [alphaOver_zero_right A hA]
    unfold alphaOverSpec; rw [alphaOverSpec_formula]; simp
  rcases Nat.eq_zero_or_pos A with hA0 | hA0
  · subst hA0
    rw [alphaOver_zero_left B hB]
    unfold alphaOverSpec; rw [alphaOverSpec_formula]; simp
  rcases Nat.lt_or_ge A 255 with hA5 | hA5
  swap
  · have : A = 255 := by omega
    subst this
    rw [alphaOver_255_left]
    unfold alphaOverSpec; rw [alphaOverSpec_formula]
    have : ((255 : ℕ) : ℚ) + (B : ℚ) - ((255 : ℕ) : ℚ) * (B : ℚ) / 255 = ((255 : ℕ) : ℚ) := by
      push_cast; ring
    rw [this, Nat.floor_natCast]
  rcases Nat.lt_or_ge B 255 with hB5 | hB5
  swap
  · have : B = 255 := by omega
    subst this
    rw [alphaOver_255_right A hA]
    unfold alphaOverSpec; rw [alphaOverSpec_formula]
    have : (A : ℚ) + ((255 : ℕ) : ℚ) - (A : ℚ) * ((255 : ℕ) : ℚ) / 255 = ((255 : ℕ) : ℚ) := by
      push_cast; ring
    rw [this, Nat.floor_natCast]
  by_cases hd : 255 ∣ A * B
  · exact alphaOver_interior_table A B hA0 hA5 hB0 hB5 hd
  · -- the exact value is at least 1/255 away from every integer
    obtain ⟨hv0, -, hlo, hhi⟩ := alpha_value_bounds A B hA hB
    have hmod : 0 < (A * B) % 255 := by
      rcases Nat.eq_zero_or_pos ((A * B) % 255) with h | h
      · exact absurd (Nat.dvd_of_mod_eq_zero h) hd
      · exact h
    have hmodlt : (A * B) % 255 < 255 := Nat.mod_lt _ (by norm_num)
    have hdm := Nat.div_add_mod (A * B) 255
    have hAB : (A : ℚ) * (B : ℚ) = 255 * ((A * B / 255 : ℕ) : ℚ) + (((A * B) % 255 : ℕ) : ℚ) := by
      have : ((A * B : ℕ) : ℚ) = ((255 * (A * B / 255) + (A * B) % 255 : ℕ) : ℚ) := by
        rw [hdm]
      push_cast at this; linarith
    have hρ1 : (1 : ℚ) ≤ (((A * B) % 255 : ℕ) : ℚ) := by exact_mod_cast hmod
    have hρ2 : (((A * B) % 255 : ℕ) : ℚ) ≤ 254 := by exact_mod_cast (show (A * B) % 255 ≤ 254 by omega)
    have hX : (255 : ℚ) * ((A : ℚ) / 255 + (B : ℚ) / 255 * (1 - (A : ℚ) / 255))
        = ((A : ℤ) + (B : ℤ) - ((A * B / 255 : ℕ) : ℤ) - 1 : ℤ)
          + (255 - (((A * B) % 255 : ℕ) : ℚ)) / 255 := by
      have hZq : (((A : ℤ) + (B : ℤ) - ((A * B / 255 : ℕ) : ℤ) - 1 : ℤ) : ℚ)
          = (A : ℚ) + (B : ℚ) - ((A * B / 255 : ℕ) : ℚ) - 1 := by
        simp only [Int.cast_sub, Int.cast_add, Int.cast_natCast, Int.cast_one]
      rw [alphaOverSpec_formula, hAB, hZq]; field_simp; ring
    set Z : ℤ := (A : ℤ) + (B : ℤ) - ((A * B / 255 : ℕ) : ℤ) - 1 with hZ
    set X : ℚ := (255 : ℚ) * ((A : ℚ) / 255 + (B : ℚ) / 255 * (1 - (A : ℚ) / 255)) with hXdef
    have hf1 : (1 : ℚ) / 255 ≤ (255 - (((A * B) % 255 : ℕ) : ℚ)) / 255 := by
      apply div_le_div_of_nonneg_right _ (by norm_num); linarith
    have hf2 : (255 - (((A * B) % 255 : ℕ) : ℚ)) / 255 ≤ 254 / 255 := by
      apply div_le_div_of_nonneg_right _ (by norm_num); linarith
    have hXfloor : ⌊X⌋ = Z := by
      rw [Int.floor_eq_iff, hX]; constructor <;> linarith
    have hwfloor : ⌊fmul 255 (fadd (fdiv A 255) (fmul (fdiv B 255) (fsub 1 (fdiv A 255))))⌋ = Z := by
      rw [Int.floor_eq_iff]; rw [hX] at hlo hhi; constructor <;> linarith
    have hX0 : 0 ≤ X := by
      rw [hXdef, alphaOverSpec_formula]
      have h1 : (A : ℚ) ≤ 255 := by exact_mod_cast (show A ≤ 255 by omega)
      have h2 : (0 : ℚ) ≤ (B : ℚ) := by positivity
      have h3 : (0 : ℚ) ≤ (A : ℚ) := by positivity
      have : (A : ℚ) * (B : ℚ) / 255 ≤ (B : ℚ) := by
        rw [div_le_iff₀ (by norm_num)]; nlinarith
      linarith
    have hX255 : X ≤ 255 := by
      rw [hXdef, alphaOverSpec_formula]
      have h1 : (A : ℚ) ≤ 255 := by exact_mod_cast (show A ≤ 255 by omega)
      have h2 : (B : ℚ) ≤ 255 := by exact_mod_cast (show B ≤ 255 by omega)
      have : (A : ℚ) + (B : ℚ) - 255 ≤ (A : ℚ) * (B : ℚ) / 255 := by
        rw [le_div_iff₀ (by norm_num)]; nlinarith
      linarith
    have hw0 : 0 ≤ fmul 255 (fadd (fdiv A 255) (fmul (fdiv B 255) (fsub 1 (fdiv A 255)))) :=
      f32round_nonneg _ (by linarith)
    have hw256 : fmul 255 (fadd (fdiv A 255) (fmul (fdiv B 255) (fsub 1 (fdiv A 255)))) < 256 := by
      linarith
    unfold alphaOver alphaOverSpec
    rw [toByte_of_nonneg _ hw0 hw256]
    have e1 := Int.natCast_floor_eq_floor hw0
    have e2 := Int.natCast_floor_eq_floor hX0
    have : ((⌊fmul 255 (fadd (fdiv A 255) (fmul (fdiv B 255) (fsub 1 (fdiv A 255))))⌋₊ : ℕ) : ℤ)
        = ((⌊X⌋₊ : ℕ) : ℤ) := by rw [e1, e2, hwfloor, hXfloor]
    exact_mod_cast this

theorem composeLayer_pixel (m : Libm) (premultiplied no_srgb : Bool) (result source : image4b)
    (hlen : source.pixels.length = result.pixels.length) (i : ℕ)
    (hi : i < result.pixels.length) :
    (composeLayer m premultiplied no_srgb result source).pixel i
      = composePixel m premultiplied no_srgb (source.pixel i) (result.pixel i) := by
  obtain ⟨-, -, -, hp⟩ := loop_store
    (fun i below => composePixel m premultiplied no_srgb (source.pixel i) below)
    source.pixels.length result
  unfold composeLayer
  rw [hp i, if_pos ⟨by omega, hi⟩]

/-- Pixel `i` of the accumulator after a sequence of layer passes is the fold of
the per-pixel blend over pixel `i` of the layers. -/
theorem foldl_composeLayer_pixel (m : Libm) (premultiplied no_srgb : Bool) :
    ∀ (layers : List image4b) (acc : image4b),
      (∀ L ∈ layers, L.pixels.length = acc.pixels.length) →
      ∀ i, i < acc.pixels.length →
      (layers.foldl (composeLayer m premultiplied no_srgb) acc).pixel i
        = layers.foldl (fun p L => composePixel m premultiplied no_srgb (L.pixel i) p)
            (acc.pixel i) := by
  intro layers
  induction layers with
  | nil => intro acc _ i _; rfl
  | cons L rest ih =>
    intro acc h i hi
    simp only [List.foldl_cons]
    have hL := h L (List.mem_cons_self _ _)
    have hsz := (composeLayer_size m premultiplied no_srgb acc L).2.2
    rw [ih (composeLayer m premultiplied no_srgb acc L)
      (fun L' hL' => by rw [hsz]; exact h L' (List.mem_cons_of_mem _ hL')) i (by rw [hsz]; exact hi),
      composeLayer_pixel m premultiplied no_srgb acc L hL i hi]

theorem image4b.pixel_make (w h i : ℕ) : (image4b.make w h).pixel i = ⟨0, 0, 0, 0⟩ := by
  unfold image4b.make image4b.pixel
  simp only [List.getD_eq_getElem?_getD]
  by_cases hi : i < w * h
  · simp [List.getElem?_replicate, hi]
  · simp [List.getElem?_replicate, hi]

/-- Pixel `i` of `compose` is the fold of the per-pixel blend over pixel `i` of
the layers, starting from transparent black. -/
theorem compose_pixel_fold (m : Libm) (layers : List image4b) (premultiplied no_srgb : Bool)
    (hne : layers ≠ [])
    (hsize : ∀ L ∈ layers, L.width = (layers.head hne).width ∧
      L.height = (layers.head hne).height ∧ L.pixels.length = L.width * L.height)
    (i : ℕ) (hi : i < (layers.head hne).width * (layers.head hne).height) :
    (compose m layers premultiplied no_srgb).pixel i
      = layers.foldl (fun p L => composePixel m premultiplied no_srgb (L.pixel i) p)
          ⟨0, 0, 0, 0⟩ := by
  rw [compose_ne_nil m layers premultiplied no_srgb hne,
    foldl_composeLayer_pixel m premultiplied no_srgb layers _ _ i
      (by simpa [image4b.make] using hi), image4b.pixel_make]
  intro L hL
  obtain ⟨hw, hh, hl⟩ := hsize L hL
  simp [image4b.make, hl, hw, hh]

theorem composePixel_alpha (m : Libm) (premultiplied no_srgb : Bool) (above below : vec4b) :
    (composePixel m premultiplied no_srgb above below).w = alphaOver above.w below.w := by
  cases premultiplied <;> cases no_srgb <;> rfl

theorem foldl_composePixel_alpha (m : Libm) (premultiplied no_srgb : Bool) (i : ℕ) :
    ∀ (layers : List image4b) (p : vec4b),
      (layers.foldl (fun p L => composePixel m premultiplied no_srgb (L.pixel i) p) p).w
        = layers.foldl (fun acc L => alphaOver (L.pixel i).w acc) p.w := by
  intro layers
  induction layers with
  | nil => intro p; rfl
  | cons L rest ih =>
    intro p
    simp only [List.foldl_cons]
    rw [ih, composePixel_alpha]

theorem toByte_lt (v : ℚ) : toByte v < 256 := by
  unfold toByte
  have h := Int.emod_lt_of_pos (if 0 ≤ v then ⌊v⌋ else ⌈v⌉) (by norm_num : (0 : ℤ) < 256)
  have h0 := Int.emod_nonneg (if 0 ≤ v then ⌊v⌋ else ⌈v⌉) (by norm_num : (256 : ℤ) ≠ 0)
  omega

theorem alphaOver_lt (A B : ℕ) : alphaOver A B < 256 := toByte_lt _

theorem foldl_alphaOver_eq_spec (i : ℕ) :
    ∀ (layers : List image4b) (a : ℕ), a < 256 → (∀ L ∈ layers, (L.pixel i).w < 256) →
      layers.foldl (fun acc L => alphaOver (L.pixel i).w acc) a
        = layers.foldl (fun acc L => alphaOverSpec (L.pixel i).w acc) a := by
  intro layers
  induction layers with
  | nil => intro a _ _; rfl
  | cons L rest ih =>
    intro a ha h
    simp only [List.foldl_cons]
    have hL := h L (List.mem_cons_self _ _)
    rw [← alphaOver_eq_spec _ a hL ha]
    exact ih _ (alphaOver_lt _ _) (fun L' hL' => h L' (List.mem_cons_of_mem _ hL'))

/-- C11 (compose alpha is independent of the flags): for a non-empty sequence of
equally-sized layers with byte-valued alpha, the alpha byte of every output
pixel is the same for all four combinations of `premultiplied` and colour
space, and it is the left fold, from 0, over the layers' alpha bytes of the step
`acc -> trunc(255 * (a + acc * (1 - a)))` with `a` and `acc` taken as
`byte / 255` in exact arithmetic. -/
theorem compose_alpha_flag_independent (m : Libm) (layers : List image4b) (hne : layers ≠ [])
    (hsize : ∀ L ∈ layers, L.width = (layers.head hne).width ∧
      L.height = (layers.head hne).height ∧ L.pixels.length = L.width * L.height)
    (hbytes : ∀ L ∈ layers, ∀ p ∈ L.pixels, p.w < 256)
    (i : ℕ) (hi : i < (layers.head hne).width * (layers.head hne).height) :
    (∀ premultiplied no_srgb : Bool,
      ((compose m layers premultiplied no_srgb).pixel i).w
        = layers.foldl (fun acc L => alphaOverSpec (L.pixel i).w acc) 0) ∧
    (∀ p1 s1 p2 s2 : Bool,
      ((compose m layers p1 s1).pixel i).w = ((compose m layers p2 s2).pixel i).w) := by
  have key : ∀ premultiplied no_srgb : Bool,
      ((compose m layers premultiplied no_srgb).pixel i).w
        = layers.foldl (fun acc L => alphaOverSpec (L.pixel i).w acc) 0 := by
    intro pm ns
    rw [compose_pixel_fold m layers pm ns hne hsize i hi, foldl_composePixel_alpha]
    apply foldl_alphaOver_eq_spec i layers 0 (by norm_num)
    intro L hL
    obtain ⟨hw, hh, hl⟩ := hsize L hL
    have hiL : i < L.pixels.length := by rw [hl, hw, hh]; exact hi
    rw [image4b.pixel_eq_getElem L i hiL]
    exact hbytes L hL _ (List.getElem_mem hiL)
  refine ⟨key, ?_⟩
  intro p1 s1 p2 s2
  rw [key, key]

set_option maxRecDepth 100000 in
theorem compose_alpha_flag_independent_witness :
    ((compose Libm.intPow [layerHalf, layerMixed] true false).pixel 0).w
        = [layerHalf, layerMixed].foldl (fun acc L => alphaOverSpec (L.pixel 0).w acc) 0 ∧
    ((compose Libm.intPow [layerHalf, layerMixed] true false).pixel 0).w
        = ((compose Libm.intPow [layerHalf, layerMixed] false true).pixel 0).w ∧
    [layerHalf, layerMixed].foldl (fun acc L => alphaOverSpec (L.pixel 0).w acc) 0 = 166 :=
  ⟨(compose_alpha_flag_independent Libm.intPow [layerHalf, layerMixed] (by simp) (by decide)
      (by decide) 0 (by decide)).1 true false,
   (compose_alpha_flag_independent Libm.intPow [layerHalf, layerMixed] (by simp) (by decide)
      (by decide) 0 (by decide)).2 true false false true,
   by decide!⟩

/-! ## Coverage of the alpha channel -/

theorem alphaOverSpec_bounds (A B : ℕ) (hA : A < 256) (hB : B < 256) :
    A ≤ alphaOverSpec A B ∧ B ≤ alphaOverSpec A B ∧ alphaOverSpec A B ≤ 255 := by
  have h1 : (A : ℚ) ≤ 255 := by exact_mod_cast (show A ≤ 255 by omega)
  have h2 : (B : ℚ) ≤ 255 := by exact_mod_cast (show B ≤ 255 by omega)
  have h3 : (0 : ℚ) ≤ (A : ℚ) := by positivity
  have h4 : (0 : ℚ) ≤ (B : ℚ) := by positivity
  have hAB1 : (A : ℚ) * (B : ℚ) / 255 ≤ (B : ℚ) := by
    rw [div_le_iff₀ (by norm_num)]
    have := mul_le_mul_of_nonneg_right h1 h4
    linarith
  have hAB2 : (A : ℚ) * (B : ℚ) / 255 ≤ (A : ℚ) := by
    rw [div_le_iff₀ (by norm_num)]
    have := mul_le_mul_of_nonneg_left h2 h3
    linarith
  have hAB3 : (A : ℚ) + (B : ℚ) - 255 ≤ (A : ℚ) * (B : ℚ) / 255 := by
    rw [le_div_iff₀ (by norm_num)]
    have := mul_nonneg (sub_nonneg.mpr h1) (sub_nonneg.mpr h2)
    linarith
  unfold alphaOverSpec
  rw [alphaOverSpec_formula]
  refine ⟨Nat.le_floor (by linarith), Nat.le_floor (by linarith), ?_⟩
  apply Nat.floor_le_of_le
  push_cast; linarith

theorem alpha_exact_le (A B : ℕ) (hA : A < 256) (hB : B < 256) :
    (255 : ℚ) * ((A : ℚ) / 255 + (B : ℚ) / 255 * (1 - (A : ℚ) / 255)) ≤ 255 := by
  have h1 : (A : ℚ) ≤ 255 := by exact_mod_cast (show A ≤ 255 by omega)
  have h2 : (B : ℚ) ≤ 255 := by exact_mod_cast (show B ≤ 255 by omega)
  have hAB3 : (A : ℚ) + (B : ℚ) - 255 ≤ (A : ℚ) * (B : ℚ) / 255 := by
    rw [le_div_iff₀ (by norm_num)]
    have := mul_nonneg (sub_nonneg.mpr h1) (sub_nonneg.mpr h2)
    linarith
  rw [alphaOverSpec_formula]; linarith

theorem alphaOver_bounds (A B : ℕ) (hA : A < 256) (hB : B < 256) :
    A ≤ alphaOver A B ∧ B ≤ alphaOver A B ∧ alphaOver A B ≤ 255 := by
  rw [alphaOver_eq_spec A B hA hB]
  exact alphaOverSpec_bounds A B hA hB

theorem foldl_alphaOver_lt (i : ℕ) :
    ∀ (layers : List image4b) (a : ℕ), a < 256 →
      layers.foldl (fun acc L => alphaOver (L.pixel i).w acc) a < 256 := by
  intro layers
  induction layers with
  | nil => intro a ha; exact ha
  | cons L rest ih => intro a _; exact ih _ (alphaOver_lt _ _)

theorem foldl_alphaOver_ge (i : ℕ) :
    ∀ (layers : List image4b) (a : ℕ), a < 256 → (∀ L ∈ layers, (L.pixel i).w < 256) →
      a ≤ layers.foldl (fun acc L => alphaOver (L.pixel i).w acc) a ∧
      ∀ L ∈ layers, (L.pixel i).w ≤ layers.foldl (fun acc L => alphaOver (L.pixel i).w acc) a := by
  intro layers
  induction layers with
  | nil => intro a _ _; exact ⟨le_rfl, fun L hL => absurd hL (List.not_mem_nil L)⟩
  | cons L rest ih =>
    intro a ha h
    simp only [List.foldl_cons]
    have hL := h L (List.mem_cons_self _ _)
    obtain ⟨b1, b2, -⟩ := alphaOver_bounds _ a hL ha
    obtain ⟨i1, i2⟩ := ih (alphaOver (L.pixel i).w a) (alphaOver_lt _ _)
      (fun L' hL' => h L' (List.mem_cons_of_mem _ hL'))
    refine ⟨le_trans b2 i1, ?_⟩
    intro L' hL'
    rcases List.mem_cons.mp hL' with rfl | hr
    · exact le_trans b1 i1
    · exact i2 L' hr

theorem composeColor_alpha (m : Libm) (premultiplied no_srgb : Bool) (above below : vec4b) :
    (composeColor m premultiplied no_srgb above below).w
      = fadd (fdiv above.w 255) (fmul (fdiv below.w 255) (fsub 1 (fdiv above.w 255))) := by
  cases premultiplied <;> cases no_srgb <;> rfl

theorem layer_alpha_byte (layers : List image4b) (hne : layers ≠ [])
    (hsize : ∀ L ∈ layers, L.width = (layers.head hne).width ∧
      L.height = (layers.head hne).height ∧ L.pixels.length = L.width * L.height)
    (hbytes : ∀ L ∈ layers, ∀ p ∈ L.pixels, p.w < 256)
    (i : ℕ) (hi : i < (layers.head hne).width * (layers.head hne).height) :
    ∀ L ∈ layers, (L.pixel i).w < 256 := by
  intro L hL
  obtain ⟨hw, hh, hl⟩ := hsize L hL
  have hiL : i < L.pixels.length := by rw [hl, hw, hh]; exact hi
  rw [image4b.pixel_eq_getElem L i hiL]
  exact hbytes L hL _ (List.getElem_mem hiL)

/-- The accumulator pixel before the pass of a layer: the fold of the earlier
layers' pixels. -/
theorem pass_pixel (m : Libm) (premultiplied no_srgb : Bool) (layers : List image4b)
    (hne : layers ≠ [])
    (hsize : ∀ L ∈ layers, L.width = (layers.head hne).width ∧
      L.height = (layers.head hne).height ∧ L.pixels.length = L.width * L.height)
    (i : ℕ) (hi : i < (layers.head hne).width * (layers.head hne).height)
    (pre : List image4b) (L : image4b) (post : List image4b) (hsplit : layers = pre ++ L :: post) :
    (pre.foldl (composeLayer m premultiplied no_srgb)
        (image4b.make (layers.head hne).width (layers.head hne).height)).pixel i
      = pre.foldl (fun p L => composePixel m premultiplied no_srgb (L.pixel i) p) ⟨0, 0, 0, 0⟩ ∧
    ((composeLayer m premultiplied no_srgb
        (pre.foldl (composeLayer m premultiplied no_srgb)
          (image4b.make (layers.head hne).width (layers.head hne).height)) L).pixel i
      = composePixel m premultiplied no_srgb (L.pixel i)
          ((pre.foldl (composeLayer m premultiplied no_srgb)
            (image4b.make (layers.head hne).width (layers.head hne).height)).pixel i)) := by
  have hlen0 : (image4b.make (layers.head hne).width (layers.head hne).height).pixels.length
      = (layers.head hne).width * (layers.head hne).height := by simp [image4b.make]
  have hpre : ∀ L' ∈ pre, L'.pixels.length
      = (image4b.make (layers.head hne).width (layers.head hne).height).pixels.length := by
    intro L' hL'
    obtain ⟨hw, hh, hl⟩ := hsize L' (by rw [hsplit]; exact List.mem_append_left _ hL')
    rw [hlen0, hl, hw, hh]
  have hLlen : L.pixels.length = (layers.head hne).width * (layers.head hne).height := by
    obtain ⟨hw, hh, hl⟩ := hsize L (by rw [hsplit]; simp)
    rw [hl, hw, hh]
  have hacc := (foldl_composeLayer_size m premultiplied no_srgb pre
    (image4b.make (layers.head hne).width (layers.head hne).height)).2.2
  constructor
  · rw [foldl_composeLayer_pixel m premultiplied no_srgb pre _ hpre i (by rw [hlen0]; exact hi),
      image4b.pixel_make]
  · exact composeLayer_pixel m premultiplied no_srgb _ L (by rw [hacc, hlen0, hLlen]) i
      (by rw [hacc, hlen0]; exact hi)

/-- C18 (compose coverage never decreases): for a non-empty sequence of
equally-sized layers with byte-valued alpha, every flag setting and every pixel
position, each layer pass leaves an alpha byte that is at least the alpha before
the pass and at least the layer's alpha, the value converted to that byte lies in
`[0, 256)` (at most 255 after truncation, no wrap-around); hence the final alpha
is at least the alpha of every layer at that position and at most 255. -/
theorem compose_coverage_monotone (m : Libm) (layers : List image4b) (hne : layers ≠ [])
    (hsize : ∀ L ∈ layers, L.width = (layers.head hne).width ∧
      L.height = (layers.head hne).height ∧ L.pixels.length = L.width * L.height)
    (hbytes : ∀ L ∈ layers, ∀ p ∈ L.pixels, p.w < 256)
    (premultiplied no_srgb : Bool)
    (i : ℕ) (hi : i < (layers.head hne).width * (layers.head hne).height) :
    (∀ (pre : List image4b) (L : image4b) (post : List image4b), layers = pre ++ L :: post →
      ((pre.foldl (composeLayer m premultiplied no_srgb)
          (image4b.make (layers.head hne).width (layers.head hne).height)).pixel i).w
        ≤ ((composeLayer m premultiplied no_srgb
            (pre.foldl (composeLayer m premultiplied no_srgb)
              (image4b.make (layers.head hne).width (layers.head hne).height)) L).pixel i).w ∧
      (L.pixel i).w
        ≤ ((composeLayer m premultiplied no_srgb
            (pre.foldl (composeLayer m premultiplied no_srgb)
              (image4b.make (layers.head hne).width (layers.head hne).height)) L).pixel i).w ∧
      ((composeLayer m premultiplied no_srgb
            (pre.foldl (composeLayer m premultiplied no_srgb)
              (image4b.make (layers.head hne).width (layers.head hne).height)) L).pixel i).w
        ≤ 255 ∧
      0 ≤ fmul 255 (composeColor m premultiplied no_srgb (L.pixel i)
            ((pre.foldl (composeLayer m premultiplied no_srgb)
              (image4b.make (layers.head hne).width (layers.head hne).height)).pixel i)).w ∧
      fmul 255 (composeColor m premultiplied no_srgb (L.pixel i)
            ((pre.foldl (composeLayer m premultiplied no_srgb)
              (image4b.make (layers.head hne).width (layers.head hne).height)).pixel i)).w
        < 256) ∧
    (∀ L ∈ layers, (L.pixel i).w ≤ ((compose m layers premultiplied no_srgb).pixel i).w) ∧
    ((compose m layers premultiplied no_srgb).pixel i).w ≤ 255 := by
  have hlw := layer_alpha_byte layers hne hsize hbytes i hi
  have hfinal : ((compose m layers premultiplied no_srgb).pixel i).w
      = layers.foldl (fun acc L => alphaOver (L.pixel i).w acc) 0 := by
    rw [compose_pixel_fold m layers premultiplied no_srgb hne hsize i hi,
      foldl_composePixel_alpha]
  refine ⟨?_, ?_, ?_⟩
  · intro pre L post hsplit
    obtain ⟨h1, h2⟩ := pass_pixel m premultiplied no_srgb layers hne hsize i hi pre L post hsplit
    have hL : (L.pixel i).w < 256 := hlw L (by rw [hsplit]; simp)
    have hacc : ((pre.foldl (composeLayer m premultiplied no_srgb)
        (image4b.make (layers.head hne).width (layers.head hne).height)).pixel i).w < 256 := by
      rw [h1, foldl_composePixel_alpha]
      exact foldl_alphaOver_lt i pre 0 (by norm_num)
    rw [h2, composePixel_alpha, composeColor_alpha]
    obtain ⟨b1, b2, b3⟩ := alphaOver_bounds _ _ hL hacc
    obtain ⟨-, -, v1, v2⟩ := alpha_value_bounds _ _ hL hacc
    have hX := alpha_exact_le _ _ hL hacc
    refine ⟨b2, b1, b3, f32round_nonneg _ ?_, by linarith⟩
    exact mul_nonneg (by norm_num) (alpha_value_bounds _ _ hL hacc).1
  · intro L hL
    rw [hfinal]
    exact (foldl_alphaOver_ge i layers 0 (by norm_num) hlw).2 L hL
  · rw [hfinal]
    have := foldl_alphaOver_lt i layers 0 (by norm_num)
    omega

set_option maxRecDepth 100000 in
theorem compose_coverage_monotone_witness :
    (layerHalf.pixel 0).w ≤ ((compose Libm.intPow [layerHalf, layerMixed] true false).pixel 0).w ∧
    (layerMixed.pixel 0).w ≤ ((compose Libm.intPow [layerHalf, layerMixed] true false).pixel 0).w ∧
    ((compose Libm.intPow [layerHalf, layerMixed] true false).pixel 0).w ≤ 255 ∧
    (layerHalf.pixel 0).w = 128 ∧ (layerMixed.pixel 0).w = 77 :=
  ⟨(compose_coverage_monotone Libm.intPow [layerHalf, layerMixed] (by simp) (by decide)
      (by decide) true false 0 (by decide)).2.1 layerHalf (by simp),
   (compose_coverage_monotone Libm.intPow [layerHalf, layerMixed] (by simp) (by decide)
      (by decide) true false 0 (by decide)).2.1 layerMixed (by simp),
   (compose_coverage_monotone Libm.intPow [layerHalf, layerMixed] (by simp) (by decide)
      (by decide) true false 0 (by decide)).2.2,
   by decide, by decide⟩

/-! ## Range of the blended channels -/

theorem composeColor_channels (m : Libm) (premultiplied no_srgb : Bool) (above below : vec4b) :
    (composeColor m premultiplied no_srgb above below).x
      = composeChannel m premultiplied no_srgb above.x below.x above.w ∧
    (composeColor m premultiplied no_srgb above below).y
      = composeChannel m premultiplied no_srgb above.y below.y above.w ∧
    (composeColor m premultiplied no_srgb above below).z
      = composeChannel m premultiplied no_srgb above.z below.z above.w := by
  cases premultiplied <;> cases no_srgb <;> exact ⟨rfl, rfl, rfl⟩

theorem fdiv_byte_unit (b : ℕ) (hb : b < 256) :
    IsF32 (fdiv (b : ℚ) 255) ∧ 0 ≤ fdiv (b : ℚ) 255 ∧ fdiv (b : ℚ) 255 ≤ 1 := by
  obtain ⟨h1, -, h3⟩ := fdiv_byte_table b hb
  exact ⟨f32round_idem _, le_trans (by positivity) h1, h3⟩

theorem fdiv_byte_mono (b c : ℕ) (h : b ≤ c) : fdiv (b : ℚ) 255 ≤ fdiv (c : ℚ) 255 := by
  apply f32round_mono
  apply div_le_div_of_nonneg_right _ (by norm_num)
  exact_mod_cast h

/-- The over blend stays in the unit interval: for the alpha `a` of a byte, a
premultiplied colour `0 ≤ c ≤ a` and a value `0 ≤ b ≤ 1` below,
`0 ≤ c + b * (1 - a) ≤ 1` in `float` arithmetic. -/
theorem blend_unit (A : ℕ) (hA : A < 256) (c b : ℚ) (hc0 : 0 ≤ c)
    (hca : c ≤ fdiv (A : ℚ) 255) (hb0 : 0 ≤ b) (hb1 : b ≤ 1) :
    0 ≤ fadd c (fmul b (fsub 1 (fdiv (A : ℚ) 255))) ∧
    fadd c (fmul b (fsub 1 (fdiv (A : ℚ) 255))) ≤ 1 := by
  obtain ⟨-, ha0, ha1⟩ := fdiv_byte_unit A hA
  have hs0 : 0 ≤ fsub 1 (fdiv (A : ℚ) 255) := f32round_nonneg _ (by linarith)
  have hsF : f32round (fsub 1 (fdiv (A : ℚ) 255)) = fsub 1 (fdiv (A : ℚ) 255) :=
    f32round_idem _
  have ht0 : 0 ≤ fmul b (fsub 1 (fdiv (A : ℚ) 255)) := f32round_nonneg _ (mul_nonneg hb0 hs0)
  have ht1 : fmul b (fsub 1 (fdiv (A : ℚ) 255)) ≤ fsub 1 (fdiv (A : ℚ) 255) := by
    have := f32round_mono (b * fsub 1 (fdiv (A : ℚ) 255)) (fsub 1 (fdiv (A : ℚ) 255))
      (by have := mul_le_mul_of_nonneg_right hb1 hs0; linarith)
    rw [hsF] at this
    exact this
  constructor
  · exact f32round_nonneg _ (by linarith)
  · have := f32round_mono (c + fmul b (fsub 1 (fdiv (A : ℚ) 255)))
      (fdiv (A : ℚ) 255 + fsub 1 (fdiv (A : ℚ) 255)) (by linarith)
    have h1 := alpha_full_table A hA
    unfold fadd at h1 ⊢
    linarith

theorem storableValue_of_unit (v : ℚ) (h0 : 0 ≤ v) (h1 : v ≤ 1) : storableValue v := by
  refine ⟨h0, h1, f32round_nonneg _ (by positivity), ?_⟩
  have := f32round_mono (255 * v) 255 (by linarith)
  have h255 := f32round_byte 255 (by norm_num)
  push_cast at h255
  unfold fmul
  linarith

/-- A colour channel of the blend is in range when the bytes are valid, the
colour byte is at most the alpha byte or `compose` premultiplies, and, in sRGB
colour space, `pow` keeps the unit interval. -/
theorem composeChannel_storable (m : Libm) (premultiplied no_srgb : Bool) (c b a : ℕ)
    (hc : c < 256) (hb : b < 256) (ha : a < 256)
    (hpre : premultiplied = false ∨ c ≤ a) (hpow : no_srgb = true ∨ PowUnitRange m) :
    storableValue (composeChannel m premultiplied no_srgb c b a) := by
  obtain ⟨cF, c0, c1⟩ := fdiv_byte_unit c hc
  obtain ⟨bF, b0, b1⟩ := fdiv_byte_unit b hb
  obtain ⟨aF, a0, a1⟩ := fdiv_byte_unit a ha
  -- premultiplication by alpha
  have hmul : ∀ v : ℚ, 0 ≤ v → v ≤ 1 →
      0 ≤ fmul v (fdiv (a : ℚ) 255) ∧ fmul v (fdiv (a : ℚ) 255) ≤ fdiv (a : ℚ) 255 := by
    intro v hv0 hv1
    refine ⟨f32round_nonneg _ (mul_nonneg hv0 a0), ?_⟩
    have := f32round_mono (v * fdiv (a : ℚ) 255) (fdiv (a : ℚ) 255)
      (by have := mul_le_mul_of_nonneg_right hv1 a0; linarith)
    rw [show f32round (fdiv (a : ℚ) 255) = fdiv (a : ℚ) 255 from aF] at this
    exact this
  cases no_srgb with
  | true =>
    cases premultiplied with
    | true =>
      rcases hpre with h | h
      · exact absurd h (by decide)
      · have hca := fdiv_byte_mono c a h
        obtain ⟨p0, p1⟩ := blend_unit a ha _ _ c0 hca b0 b1
        exact storableValue_of_unit _ p0 p1
    | false =>
      obtain ⟨m0, m1⟩ := hmul _ c0 c1
      obtain ⟨p0, p1⟩ := blend_unit a ha _ _ m0 m1 b0 b1
      exact storableValue_of_unit _ p0 p1
  | false =>
    have hP : PowUnitRange m := by
      rcases hpow with h | h
      · exact absurd h (by decide)
      · exact h
    obtain ⟨⟨gc0, gc1⟩, -⟩ := hP _ cF c0 c1
    obtain ⟨⟨gb0, gb1⟩, -⟩ := hP _ bF b0 b1
    cases premultiplied with
    | true =>
      rcases hpre with h | h
      · exact absurd h (by decide)
      · have hca := fdiv_byte_mono c a h
        obtain ⟨p0, p1⟩ := blend_unit a ha _ _ gc0 (le_trans gc1 hca) gb0 (le_trans gb1 b1)
        obtain ⟨-, ⟨e0, e1⟩⟩ := hP _ (f32round_idem _) p0 p1
        exact storableValue_of_unit _ e0 e1
    | false =>
      obtain ⟨m0, m1⟩ := hmul _ gc0 (le_trans gc1 c1)
      obtain ⟨p0, p1⟩ := blend_unit a ha _ _ m0 m1 gb0 (le_trans gb1 b1)
      obtain ⟨-, ⟨e0, e1⟩⟩ := hP _ (f32round_idem _) p0 p1
      exact storableValue_of_unit _ e0 e1

theorem composeColor_storable (m : Libm) (premultiplied no_srgb : Bool) (above below : vec4b)
    (hab : above.valid) (hbe : below.valid)
    (hpre : premultiplied = false ∨
      (above.x ≤ above.w ∧ above.y ≤ above.w ∧ above.z ≤ above.w))
    (hpow : no_srgb = true ∨ PowUnitRange m) :
    (composeColor m premultiplied no_srgb above below).storable := by
  obtain ⟨ex, ey, ez⟩ := composeColor_channels m premultiplied no_srgb above below
  obtain ⟨ax, ay, az, aw⟩ := hab
  obtain ⟨bx, bY, bz, bw⟩ := hbe
  unfold vec4f.storable
  rw [ex, ey, ez, composeColor_alpha]
  refine ⟨composeChannel_storable m _ _ _ _ _ ax bx aw (hpre.imp id (·.1)) hpow,
    composeChannel_storable m _ _ _ _ _ ay bY aw (hpre.imp id (·.2.1)) hpow,
    composeChannel_storable m _ _ _ _ _ az bz aw (hpre.imp id (·.2.2)) hpow, ?_⟩
  obtain ⟨-, a0, -⟩ := fdiv_byte_unit above.w aw
  obtain ⟨-, b0, b1⟩ := fdiv_byte_unit below.w bw
  obtain ⟨p0, p1⟩ := blend_unit above.w aw _ _ a0 le_rfl b0 b1
  exact storableValue_of_unit _ p0 p1

theorem composePixel_valid (m : Libm) (premultiplied no_srgb : Bool) (above below : vec4b) :
    (composePixel m premultiplied no_srgb above below).valid :=
  ⟨toByte_lt _, toByte_lt _, toByte_lt _, toByte_lt _⟩

theorem foldl_composePixel_valid (m : Libm) (premultiplied no_srgb : Bool) (i : ℕ) :
    ∀ (layers : List image4b) (p : vec4b), p.valid →
      (layers.foldl (fun p L => composePixel m premultiplied no_srgb (L.pixel i) p) p).valid := by
  intro layers
  induction layers with
  | nil => intro p hp; exact hp
  | cons L rest ih => intro p _; exact ih _ (composePixel_valid m _ _ _ _)

theorem toByte_of_storable (v : ℚ) (h : storableValue v) :
    toByte (fmul 255 v) = ⌊fmul 255 v⌋₊ ∧ toByte (fmul 255 v) ≤ 255 := by
  obtain ⟨-, -, h0, h1⟩ := h
  have e := toByte_of_nonneg (fmul 255 v) h0 (by linarith)
  refine ⟨e, ?_⟩
  have := toByte_lt (fmul 255 v)
  omega

theorem layer_pixel_mem (layers : List image4b) (hne : layers ≠ [])
    (hsize : ∀ L ∈ layers, L.width = (layers.head hne).width ∧
      L.height = (layers.head hne).height ∧ L.pixels.length = L.width * L.height)
    (i : ℕ) (hi : i < (layers.head hne).width * (layers.head hne).height) :
    ∀ L ∈ layers, L.pixel i ∈ L.pixels := by
  intro L hL
  obtain ⟨hw, hh, hl⟩ := hsize L hL
  have hiL : i < L.pixels.length := by rw [hl, hw, hh]; exact hi
  rw [image4b.pixel_eq_getElem L i hiL]
  exact List.getElem_mem hiL

/-- Every pass of `compose` over well-formed layers blends in-range values. -/
theorem compose_pass_storable (m : Libm) (layers : List image4b) (hne : layers ≠ [])
    (hsize : ∀ L ∈ layers, L.width = (layers.head hne).width ∧
      L.height = (layers.head hne).height ∧ L.pixels.length = L.width * L.height)
    (hvalid : ∀ L ∈ layers, ∀ p ∈ L.pixels, p.valid)
    (premultiplied no_srgb : Bool)
    (hpre : premultiplied = false ∨
      ∀ L ∈ layers, ∀ p ∈ L.pixels, p.x ≤ p.w ∧ p.y ≤ p.w ∧ p.z ≤ p.w)
    (hpow : no_srgb = true ∨ PowUnitRange m)
    (i : ℕ) (hi : i < (layers.head hne).width * (layers.head hne).height)
    (pre : List image4b) (L : image4b) (post : List image4b) (hsplit : layers = pre ++ L :: post) :
    ((pre.foldl (composeLayer m premultiplied no_srgb)
      (image4b.make (layers.head hne).width (layers.head hne).height)).pixel i).valid ∧
    (composeColor m premultiplied no_srgb (L.pixel i)
      ((pre.foldl (composeLayer m premultiplied no_srgb)
        (image4b.make (layers.head hne).width (layers.head hne).height)).pixel i)).storable ∧
    (composeLayer m premultiplied no_srgb
      (pre.foldl (composeLayer m premultiplied no_srgb)
        (image4b.make (layers.head hne).width (layers.head hne).height)) L).pixel i
      = composePixel m premultiplied no_srgb (L.pixel i)
        ((pre.foldl (composeLayer m premultiplied no_srgb)
          (image4b.make (layers.head hne).width (layers.head hne).height)).pixel i) := by
  obtain ⟨h1, h2⟩ := pass_pixel m premultiplied no_srgb layers hne hsize i hi pre L post hsplit
  have hLmem : L ∈ layers := by rw [hsplit]; simp
  have hpm := layer_pixel_mem layers hne hsize i hi L hLmem
  have hacc : ((pre.foldl (composeLayer m premultiplied no_srgb)
      (image4b.make (layers.head hne).width (layers.head hne).height)).pixel i).valid := by
    rw [h1]
    exact foldl_composePixel_valid m premultiplied no_srgb i pre _ (by decide)
  refine ⟨hacc, ?_, h2⟩
  apply composeColor_storable m premultiplied no_srgb _ _ (hvalid L hLmem _ hpm) hacc _ hpow
  rcases hpre with h | h
  · exact Or.inl h
  · exact Or.inr (h L hLmem _ hpm)

set_option maxRecDepth 100000 in
/-- C12, as stated, fails: with `premultiplied = true` a layer pixel (255,0,0,0)
over an accumulator pixel (255,255,255,255) blends to the red value 2, so
510 is converted to a byte and the stored red byte wraps to 254. -/
theorem compose_range_counterexample :
    (compose Libm.intPow [layerWhite] true true).pixel 0 = ⟨255, 255, 255, 255⟩ ∧
    (composeColor Libm.intPow true true (layerOverbright.pixel 0) ⟨255, 255, 255, 255⟩).x = 2 ∧
    fmul 255 (composeColor Libm.intPow true true (layerOverbright.pixel 0)
      ⟨255, 255, 255, 255⟩).x = 510 ∧
    compose Libm.intPow [layerWhite, layerOverbright] true true
      = ⟨1, 1, [⟨254, 255, 255, 255⟩]⟩ := by
  decide!

/-- Range of the blended channels of one pass, for a C library whose `pow` keeps
the unit interval when the colour space is sRGB: the blended pixel is storable
and the stored bytes are the integer parts of `255.0f * channel`. -/
theorem compose_stores_of_unit_range (m : Libm) (layers : List image4b) (hne : layers ≠ [])
    (hsize : ∀ L ∈ layers, L.width = (layers.head hne).width ∧
      L.height = (layers.head hne).height ∧ L.pixels.length = L.width * L.height)
    (hvalid : ∀ L ∈ layers, ∀ p ∈ L.pixels, p.valid)
    (premultiplied no_srgb : Bool)
    (hpre : premultiplied = false ∨
      ∀ L ∈ layers, ∀ p ∈ L.pixels, p.x ≤ p.w ∧ p.y ≤ p.w ∧ p.z ≤ p.w)
    (hpow : no_srgb = true ∨ PowUnitRange m)
    (i : ℕ) (hi : i < (layers.head hne).width * (layers.head hne).height)
    (pre : List image4b) (L : image4b) (post : List image4b) (hsplit : layers = pre ++ L :: post) :
    (composeColor m premultiplied no_srgb (L.pixel i)
      ((pre.foldl (composeLayer m premultiplied no_srgb)
        (image4b.make (layers.head hne).width (layers.head hne).height)).pixel i)).storable ∧
    ((composeLayer m premultiplied no_srgb
      (pre.foldl (composeLayer m premultiplied no_srgb)
        (image4b.make (layers.head hne).width (layers.head hne).height)) L).pixel i)
      = ⟨⌊fmul 255 (composeColor m premultiplied no_srgb (L.pixel i)
            ((pre.foldl (composeLayer m premultiplied no_srgb)
              (image4b.make (layers.head hne).width (layers.head hne).height)).pixel i)).x⌋₊,
         ⌊fmul 255 (composeColor m premultiplied no_srgb (L.pixel i)
            ((pre.foldl (composeLayer m premultiplied no_srgb)
              (image4b.make (layers.head hne).width (layers.head hne).height)).pixel i)).y⌋₊,
         ⌊fmul 255 (composeColor m premultiplied no_srgb (L.pixel i)
            ((pre.foldl (composeLayer m premultiplied no_srgb)
              (image4b.make (layers.head hne).width (layers.head hne).height)).pixel i)).z⌋₊,
         ⌊fmul 255 (composeColor m premultiplied no_srgb (L.pixel i)
            ((pre.foldl (composeLayer m premultiplied no_srgb)
              (image4b.make (layers.head hne).width (layers.head hne).height)).pixel i)).w⌋₊⟩ := by
  obtain ⟨-, hs, he⟩ := compose_pass_storable m layers hne hsize hvalid premultiplied no_srgb
    hpre hpow i hi pre L post hsplit
  refine ⟨hs, ?_⟩
  rw [he]
  obtain ⟨sx, sy, sz, sw⟩ := hs
  unfold composePixel
  simp only [(toByte_of_storable _ sx).1, (toByte_of_storable _ sy).1,
    (toByte_of_storable _ sz).1, (toByte_of_storable _ sw).1]

/-- The range invariant of the accumulator, for a C library whose `pow` keeps the
unit interval when the colour space is sRGB. -/
theorem compose_range_of_unit_range (m : Libm) (layers : List image4b) (hne : layers ≠ [])
    (hsize : ∀ L ∈ layers, L.width = (layers.head hne).width ∧
      L.height = (layers.head hne).height ∧ L.pixels.length = L.width * L.height)
    (hvalid : ∀ L ∈ layers, ∀ p ∈ L.pixels, p.valid)
    (premultiplied no_srgb : Bool)
    (hpre : premultiplied = false ∨
      ∀ L ∈ layers, ∀ p ∈ L.pixels, p.x ≤ p.w ∧ p.y ≤ p.w ∧ p.z ≤ p.w)
    (hpow : no_srgb = true ∨ PowUnitRange m)
    (i : ℕ) (hi : i < (layers.head hne).width * (layers.head hne).height) :
    (∀ (pre : List image4b) (L : image4b) (post : List image4b), layers = pre ++ L :: post →
      ((pre.foldl (composeLayer m premultiplied no_srgb)
        (image4b.make (layers.head hne).width (layers.head hne).height)).pixel i).valid ∧
      (composeColor m premultiplied no_srgb (L.pixel i)
        ((pre.foldl (composeLayer m premultiplied no_srgb)
          (image4b.make (layers.head hne).width (layers.head hne).height)).pixel i)).storable ∧
      ((composeLayer m premultiplied no_srgb
        (pre.foldl (composeLayer m premultiplied no_srgb)
          (image4b.make (layers.head hne).width (layers.head hne).height)) L).pixel i).valid) ∧
    ((compose m layers premultiplied no_srgb).pixel i).valid := by
  constructor
  · intro pre L post hsplit
    obtain ⟨h1, h2, h3⟩ := compose_pass_storable m layers hne hsize hvalid premultiplied no_srgb
      hpre hpow i hi pre L post hsplit
    exact ⟨h1, h2, by rw [h3]; exact composePixel_valid m _ _ _ _⟩
  · rw [compose_pixel_fold m layers premultiplied no_srgb hne hsize i hi]
    exact foldl_composePixel_valid m premultiplied no_srgb i layers _ (by decide)

/-! ## Incremental compositing -/

/-- In linear colour space a premultiplied pixel of valid bytes composited onto
transparent black is stored unchanged. -/
theorem composePixel_over_zero (m : Libm) (p : vec4b) (hp : p.valid) :
    composePixel m true true p ⟨0, 0, 0, 0⟩ = p := by
  obtain ⟨hx, hy, hz, hw⟩ := hp
  cases p with
  | mk px py pz pw =>
    simp only at hx hy hz hw
    simp [composePixel, composeColor, normalize255, vec4f.add, vec4f.scale, fdiv_zero_left,
      fmul_zero_left, byte_table_add _ hx, byte_table_add _ hy, byte_table_add _ hz,
      byte_table_add _ hw]

theorem zipWith_replicate_left {α β : Type} (f : α → β → α) (z : β) :
    ∀ (l : List α), (∀ a ∈ l, f a z = a) →
      List.zipWith f l (List.replicate l.length z) = l := by
  intro l
  induction l with
  | nil => intro _; simp
  | cons a t ih =>
    intro hf
    simp only [List.length_cons, List.replicate_succ, List.zipWith_cons_cons]
    rw [hf a (List.mem_cons_self _ _), ih (fun a' ha' => hf a' (List.mem_cons_of_mem _ ha'))]

/-- The result of `compose` on a non-empty sequence of equally-sized layers has
the size of the first layer and consists of valid bytes. -/
theorem compose_result_wf (m : Libm) (layers : List image4b) (premultiplied no_srgb : Bool)
    (hne : layers ≠ [])
    (hsize : ∀ L ∈ layers, L.width = (layers.head hne).width ∧
      L.height = (layers.head hne).height ∧ L.pixels.length = L.width * L.height) :
    (compose m layers premultiplied no_srgb).width = (layers.head hne).width ∧
    (compose m layers premultiplied no_srgb).height = (layers.head hne).height ∧
    (compose m layers premultiplied no_srgb).pixels.length
      = (layers.head hne).width * (layers.head hne).height ∧
    ∀ p ∈ (compose m layers premultiplied no_srgb).pixels, p.valid := by
  obtain ⟨h1, h2, h3⟩ := foldl_composeLayer_size m premultiplied no_srgb layers
    (image4b.make (layers.head hne).width (layers.head hne).height)
  rw [← compose_ne_nil m layers premultiplied no_srgb hne] at h1 h2 h3
  have hlen : (compose m layers premultiplied no_srgb).pixels.length
      = (layers.head hne).width * (layers.head hne).height := by
    rw [h3]; simp [image4b.make]
  refine ⟨h1, h2, hlen, ?_⟩
  intro p hp
  obtain ⟨j, hj, rfl⟩ := List.getElem_of_mem hp
  rw [← image4b.pixel_eq_getElem _ j hj,
    compose_pixel_fold m layers premultiplied no_srgb hne hsize j (by rw [← hlen]; exact hj)]
  exact foldl_composePixel_valid m premultiplied no_srgb j layers _ (by decide)

/-- C17 (compose is incremental for premultiplied linear input): for a non-empty
sequence `xs` of equally-sized layers and a layer `L` of the same size, with
`premultiplied = true` in linear colour space,
`compose(xs ++ [L]) = compose([compose(xs), L])`. -/
theorem compose_incremental (m : Libm) (xs : List image4b) (L : image4b) (hne : xs ≠ [])
    (hsize : ∀ K ∈ xs, K.width = (xs.head hne).width ∧
      K.height = (xs.head hne).height ∧ K.pixels.length = K.width * K.height)
    (_hL : L.width = (xs.head hne).width ∧ L.height = (xs.head hne).height ∧
      L.pixels.length = L.width * L.height) :
    compose m (xs ++ [L]) true true = compose m [compose m xs true true, L] true true := by
  obtain ⟨rw', rh, rl, rv⟩ := compose_result_wf m xs true true hne hsize
  have hne' : xs ++ [L] ≠ [] := by simp
  have hhead : (xs ++ [L]).head hne' = xs.head hne := List.head_append_of_ne_nil hne
  have hlhs : compose m (xs ++ [L]) true true
      = composeLayer m true true (compose m xs true true) L := by
    rw [compose_ne_nil m (xs ++ [L]) true true hne', List.foldl_append, hhead,
      ← compose_ne_nil m xs true true hne]
    rfl
  have hrhs : compose m [compose m xs true true, L] true true
      = composeLayer m true true
          (composeLayer m true true
            (image4b.make (compose m xs true true).width (compose m xs true true).height)
            (compose m xs true true)) L := rfl
  have hid : composeLayer m true true
      (image4b.make (compose m xs true true).width (compose m xs true true).height)
      (compose m xs true true) = compose m xs true true := by
    have hlen : (compose m xs true true).pixels.length
        = (image4b.make (compose m xs true true).width
            (compose m xs true true).height).pixels.length := by
      simp [image4b.make, rl, rw', rh]
    rw [composeLayer_eq m true true _ _ hlen]
    have hz : (image4b.make (compose m xs true true).width
        (compose m xs true true).height).pixels
        = List.replicate (compose m xs true true).pixels.length ⟨0, 0, 0, 0⟩ := by
      simp [image4b.make, rl, rw', rh]
    rw [hz, zipWith_replicate_left _ _ _ (fun a ha => composePixel_over_zero m a (rv a ha))]
    rfl
  rw [hlhs, hrhs, hid]

set_option maxRecDepth 100000 in
theorem compose_incremental_witness :
    compose Libm.intPow ([layerPremult, layerHalf] ++ [layerMixed]) true true
      = compose Libm.intPow [compose Libm.intPow [layerPremult, layerHalf] true true, layerMixed]
          true true :=
  compose_incremental Libm.intPow [layerPremult, layerHalf] layerMixed (by simp) (by decide)
    (by decide)

/-! ## The tone curve -/

theorem filmic_eq_fdiv (x : ℚ) : filmic x = fdiv (filmicNum x) (filmicDen x) := rfl

theorem filmic_eq_filmicWith (x : ℚ) : filmic x = filmicWith f32round x := rfl

theorem filmicExact_eq_filmicWith (x : ℚ) : filmicExact x = filmicWith id x := rfl

set_option maxRecDepth 100000 in
theorem c243_val : c243 = 10192159 / 4194304 := by decide!

set_option maxRecDepth 100000 in
theorem c059_val : c059 = 9898557 / 16777216 := by decide!

set_option maxRecDepth 100000 in
theorem c014_val : c014 = 9395241 / 67108864 := by decide!

set_option maxRecDepth 100000 in
theorem filmicDen_floor_pos : 0 < f32round (-(1 / 8) + c014) := by decide!

theorem f32round_eighth : f32round (1 / 8) = 1 / 8 := by
  have := f32round_two_zpow (-3) (by norm_num)
  have h : (2 : ℚ) ^ (-3 : ℤ) = 1 / 8 := by
    rw [show (-3 : ℤ) = -((3 : ℕ) : ℤ) by norm_num, zpow_neg, zpow_natCast]; norm_num
  rwa [h] at this

theorem f32round_rel_lower (q : ℚ) (hq : (1 : ℚ) / 1024 ≤ q) :
    q * (1 - 1 / 2 ^ 24) ≤ f32round q ∧ f32round q ≤ q * (1 + 1 / 2 ^ 24) := by
  have hn : (2 : ℚ) ^ (-126 : ℤ) ≤ q := by
    refine le_trans ?_ hq
    rw [show (-126 : ℤ) = -((126 : ℕ) : ℤ) by norm_num, zpow_neg, zpow_natCast]
    norm_num
  have := abs_le.mp (f32round_rel_err q hn)
  constructor <;> linarith [this.1, this.2]

/-- The `float` denominator of `filmic` is positive for every input, so the
division of `filmic` never divides by zero. -/
theorem filmicDen_pos (x : ℚ) : 0 < filmicDen x := by
  have hc243 : (0 : ℚ) ≤ c243 := by rw [c243_val]; norm_num
  have hc059 : (0 : ℚ) ≤ c059 := by rw [c059_val]; norm_num
  have key : -(1 / 8) ≤ fadd (fmul (fmul c243 x) x) (fmul c059 x) := by
    have h8 : f32round (-(1 / 8)) = -(1 / 8) := by rw [f32round_neg, f32round_eighth]
    rw [← h8]
    apply f32round_mono
    rcases le_or_lt 0 x with hx | hx
    · have hA : 0 ≤ fmul (fmul c243 x) x :=
        f32round_nonneg _ (mul_nonneg (f32round_nonneg _ (mul_nonneg hc243 hx)) hx)
      have hB : 0 ≤ fmul c059 x := f32round_nonneg _ (mul_nonneg hc059 hx)
      linarith
    · -- negative input: write `x = -t`
      obtain ⟨t, ht, rfl⟩ : ∃ t : ℚ, 0 < t ∧ x = -t := ⟨-x, by linarith, by ring⟩
      have hP : fmul c243 (-t) = -fmul c243 t := by
        unfold fmul; rw [mul_neg, f32round_neg]
      have hA : fmul (fmul c243 (-t)) (-t) = fmul (fmul c243 t) t := by
        rw [hP]; unfold fmul; rw [neg_mul_neg]
      have hB : fmul c059 (-t) = -fmul c059 t := by
        unfold fmul; rw [mul_neg, f32round_neg]
      rw [hA, hB]
      have hP0 : 0 ≤ fmul c243 t := f32round_nonneg _ (mul_nonneg hc243 (le_of_lt ht))
      have hA0 : 0 ≤ fmul (fmul c243 t) t := f32round_nonneg _ (mul_nonneg hP0 (le_of_lt ht))
      rcases le_or_lt t (1 / 8) with h8t | h8t
      · have hQ : fmul c059 t ≤ 1 / 8 := by
          have := f32round_mono (c059 * t) (1 / 8) (by
            rw [c059_val]; nlinarith)
          rw [f32round_eighth] at this
          exact this
        linarith
      · have hP1 : 24 / 10 * t ≤ fmul c243 t := by
          have h := (f32round_rel_lower (c243 * t) (by rw [c243_val]; nlinarith)).1
          unfold fmul
          rw [c243_val] at h ⊢
          nlinarith
        have hPt : 24 / 10 * t * t ≤ fmul c243 t * t :=
          mul_le_mul_of_nonneg_right hP1 (le_of_lt ht)
        have hA1 : 239 / 100 * (t * t) ≤ fmul (fmul c243 t) t := by
          have h := (f32round_rel_lower (fmul c243 t * t) (by nlinarith)).1
          unfold fmul at h ⊢
          have h2 : 24 / 10 * t * t * (1 - 1 / 2 ^ 24)
              ≤ f32round (c243 * t) * t * (1 - 1 / 2 ^ 24) :=
            mul_le_mul_of_nonneg_right hPt (by norm_num)
          nlinarith
        have hQ1 : fmul c059 t ≤ 6 / 10 * t := by
          have h := (f32round_rel_lower (c059 * t) (by rw [c059_val]; nlinarith)).2
          unfold fmul
          rw [c059_val] at h ⊢
          nlinarith
        nlinarith [sq_nonneg (t - 126 / 1000)]
  have hmono := f32round_mono (-(1 / 8) + c014)
    (fadd (fmul (fmul c243 x) x) (fmul c059 x) + c014) (by linarith)
  exact lt_of_lt_of_le filmicDen_floor_pos hmono

set_option maxRecDepth 100000 in
theorem filmic_zero : filmic 0 = 0 := by decide!

/-! ## The tone curve in binary32 -/

theorem filmicDenExact_pos {K : Type} [LinearOrderedField K] (x : K) :
    0 < filmicDenExact x := by
  unfold filmicDenExact
  nlinarith [sq_nonneg (x + 59 / 486)]

/-- The exact tone curve is non-negative, strictly increasing and below
`2.51/2.43` on the non-negative numbers. -/
theorem filmicExact_order {K : Type} [LinearOrderedField K] (x y : K) (hx : 0 ≤ x)
    (hxy : x < y) :
    0 ≤ filmicExact x ∧ filmicExact x < filmicExact y ∧ filmicExact y < 251 / 243 := by
  have hy : 0 < y := lt_of_le_of_lt hx hxy
  have hdx := filmicDenExact_pos x
  have hdy := filmicDenExact_pos y
  refine ⟨?_, ?_, ?_⟩
  · unfold filmicExact
    apply div_nonneg _ (le_of_lt hdx)
    unfold filmicNumExact
    nlinarith [mul_nonneg hx hx]
  · unfold filmicExact
    rw [div_lt_div_iff₀ hdx hdy]
    unfold filmicNumExact filmicDenExact
    have h1 : 0 < y - x := by linarith
    have h2 : 0 ≤ x * y := mul_nonneg hx (le_of_lt hy)
    have key : (251 / 100 * y * y + 3 / 100 * y) * (243 / 100 * x * x + 59 / 100 * x + 14 / 100)
        - (251 / 100 * x * x + 3 / 100 * x) * (243 / 100 * y * y + 59 / 100 * y + 14 / 100)
        = (y - x) * ((251 / 100 * (59 / 100) - 3 / 100 * (243 / 100)) * (x * y)
            + 251 / 100 * (14 / 100) * (x + y) + 3 / 100 * (14 / 100)) := by ring
    have hpos : 0 < (251 / 100 * (59 / 100) - 3 / 100 * (243 / 100)) * (x * y)
        + 251 / 100 * (14 / 100) * (x + y) + 3 / 100 * (14 / 100) := by
      have : (0 : K) ≤ (251 / 100 * (59 / 100) - 3 / 100 * (243 / 100)) * (x * y) :=
        mul_nonneg (by norm_num) h2
      nlinarith
    have := mul_pos h1 hpos
    linarith
  · unfold filmicExact
    rw [div_lt_iff₀ hdy]
    unfold filmicNumExact filmicDenExact
    nlinarith

/-- Error of one rounding: relative `2^-24` in the normal range, absolute
`2^-150` below it. -/
theorem f32round_err (a : ℚ) : |f32round a - a| ≤ |a| / 2 ^ 24 + 1 / 2 ^ 150 := by
  have key : ∀ q : ℚ, 0 ≤ q → |f32round q - q| ≤ q / 2 ^ 24 + 1 / 2 ^ 150 := by
    intro q hq
    by_cases hn : (2 : ℚ) ^ (-126 : ℤ) ≤ q
    · have := f32round_rel_err q hn
      have : (0 : ℚ) ≤ 1 / 2 ^ 150 := by positivity
      linarith [f32round_rel_err q hn]
    · have hlt : q < (2 : ℚ) ^ (-126 + 1 : ℤ) := by
        have h1 : q < (2 : ℚ) ^ (-126 : ℤ) := not_le.mp hn
        have h2 : (2 : ℚ) ^ (-126 : ℤ) ≤ (2 : ℚ) ^ (-126 + 1 : ℤ) :=
          zpow_le_zpow_right₀ (by norm_num) (by norm_num)
        linarith
      have h := f32round_abs_err q (-126) hq hlt le_rfl
      have e : (2 : ℚ) ^ (-126 - 24 : ℤ) = 1 / 2 ^ 150 := by
        rw [show (-126 - 24 : ℤ) = -150 by norm_num, zpow_neg]; norm_num
      rw [e] at h
      have : (0 : ℚ) ≤ q / 2 ^ 24 := by positivity
      linarith
  rcases le_total 0 a with h | h
  · rw [abs_of_nonneg h]; exact key a h
  · have hk := key (-a) (by linarith)
    rw [f32round_neg] at hk
    rw [abs_of_nonpos h]
    have : |(-f32round a) - -a| = |f32round a - a| := by
      rw [show -f32round a - -a = -(f32round a - a) by ring, abs_neg]
    rw [this] at hk
    exact hk

/-- Error of a product by `x` of an approximated factor. -/
theorem fmul_err (p a x α : ℚ) (h : |p - a| ≤ α) :
    |fmul p x - a * x| ≤ (|a| + α) * |x| / 2 ^ 24 + 1 / 2 ^ 150 + α * |x| := by
  unfold fmul
  have h1 := f32round_err (p * x)
  have hp : |p| ≤ |a| + α := by
    have := abs_sub_abs_le_abs_sub p a
    linarith
  have h2 : |p * x| ≤ (|a| + α) * |x| := by
    rw [abs_mul]; exact mul_le_mul_of_nonneg_right hp (abs_nonneg x)
  have h3 : |p * x - a * x| ≤ α * |x| := by
    rw [← sub_mul, abs_mul]; exact mul_le_mul_of_nonneg_right h (abs_nonneg x)
  have h4 : |f32round (p * x) - a * x| ≤ |f32round (p * x) - p * x| + |p * x - a * x| := by
    have := abs_add (f32round (p * x) - p * x) (p * x - a * x)
    rwa [sub_add_sub_cancel] at this
  have h5 : |p * x| / 2 ^ 24 ≤ (|a| + α) * |x| / 2 ^ 24 :=
    div_le_div_of_nonneg_right h2 (by positivity)
  linarith

/-- Error of a sum of two approximated terms. -/
theorem fadd_err (p q a b α β : ℚ) (ha : |p - a| ≤ α) (hb : |q - b| ≤ β) :
    |fadd p q - (a + b)| ≤ (|a| + |b| + α + β) / 2 ^ 24 + 1 / 2 ^ 150 + α + β := by
  unfold fadd
  have h1 := f32round_err (p + q)
  have hp : |p| ≤ |a| + α := by
    have := abs_sub_abs_le_abs_sub p a
    linarith
  have hq : |q| ≤ |b| + β := by
    have := abs_sub_abs_le_abs_sub q b
    linarith
  have h2 : |p + q| ≤ |a| + |b| + α + β := by
    have := abs_add p q
    linarith
  have h3 : |(p + q) - (a + b)| ≤ α + β := by
    have := abs_add (p - a) (q - b)
    rw [show p - a + (q - b) = p + q - (a + b) by ring] at this
    linarith
  have h4 : |f32round (p + q) - (a + b)|
      ≤ |f32round (p + q) - (p + q)| + |(p + q) - (a + b)| := by
    have := abs_add (f32round (p + q) - (p + q)) ((p + q) - (a + b))
    rwa [sub_add_sub_cancel] at this
  have h5 : |p + q| / 2 ^ 24 ≤ (|a| + |b| + α + β) / 2 ^ 24 :=
    div_le_div_of_nonneg_right h2 (by positivity)
  linarith

set_option maxRecDepth 100000 in
theorem c251_val : c251 = 10527703 / 4194304 := by decide!

set_option maxRecDepth 100000 in
theorem c003_val : c003 = 16106127 / 536870912 := by decide!

/-- The numerator that `filmic` computes in binary32 against the exact one. -/
theorem filmicNum_err (x : ℚ) :
    |filmicNum x - filmicNumExact x|
      ≤ 11 * (x * x) / 2 ^ 24 + |x| / (10 * 2 ^ 24) + 3 * |x| / 2 ^ 150 + 4 / 2 ^ 150 := by
  have hX : 0 ≤ |x| := abs_nonneg x
  have hS : |x| * |x| = x * x := abs_mul_abs_self x
  have hS0 : 0 ≤ x * x := mul_self_nonneg x
  have k1 : |c251 - 251 / 100| ≤ 1 / 2 ^ 23 := by
    rw [c251_val, abs_le]; constructor <;> norm_num
  have k3 : |c003 - 3 / 100| ≤ 1 / 2 ^ 30 := by
    rw [c003_val, abs_le]; constructor <;> norm_num
  -- 2.51f * x
  have e1 := fmul_err c251 (251 / 100) x (1 / 2 ^ 23) k1
  rw [abs_of_pos (by norm_num : (0 : ℚ) < 251 / 100)] at e1
  have b1 : |fmul c251 x - 251 / 100 * x| ≤ 5 * |x| / 2 ^ 24 + 1 / 2 ^ 150 := by
    linarith
  -- (2.51f * x) * x
  have e2 := fmul_err (fmul c251 x) (251 / 100 * x) x _ b1
  rw [abs_mul, abs_of_pos (by norm_num : (0 : ℚ) < 251 / 100)] at e2
  have b2 : |fmul (fmul c251 x) x - 251 / 100 * x * x|
      ≤ 8 * (x * x) / 2 ^ 24 + 2 * |x| / 2 ^ 150 + 1 / 2 ^ 150 := by
    linarith
  -- 0.03f * x
  have e3 := fmul_err c003 (3 / 100) x (1 / 2 ^ 30) k3
  rw [abs_of_pos (by norm_num : (0 : ℚ) < 3 / 100)] at e3
  have b3 : |fmul c003 x - 3 / 100 * x| ≤ |x| / (20 * 2 ^ 24) + 1 / 2 ^ 150 := by
    linarith
  -- the sum
  have e4 := fadd_err _ _ _ _ _ _ b2 b3
  have a1 : |(251 / 100 : ℚ) * x * x| = 251 / 100 * (x * x) := by
    rw [mul_assoc, abs_mul, abs_of_pos (by norm_num : (0 : ℚ) < 251 / 100), abs_of_nonneg hS0]
  have a2 : |(3 / 100 : ℚ) * x| = 3 / 100 * |x| := by
    rw [abs_mul, abs_of_pos (by norm_num : (0 : ℚ) < 3 / 100)]
  rw [a1, a2] at e4
  unfold filmicNum filmicNumExact
  linarith

/-- The denominator that `filmic` computes in binary32 against the exact one. -/
theorem filmicDen_err (x : ℚ) :
    |filmicDen x - filmicDenExact x|
      ≤ 14 * (x * x) / 2 ^ 24 + 3 * |x| / 2 ^ 24 + 3 / (10 * 2 ^ 24)
        + 4 * |x| / 2 ^ 150 + 6 / 2 ^ 150 := by
  have hX : 0 ≤ |x| := abs_nonneg x
  have hS : |x| * |x| = x * x := abs_mul_abs_self x
  have hS0 : 0 ≤ x * x := mul_self_nonneg x
  have k1 : |c243 - 243 / 100| ≤ 1 / 2 ^ 23 := by
    rw [c243_val, abs_le]; constructor <;> norm_num
  have k3 : |c059 - 59 / 100| ≤ 1 / 2 ^ 25 := by
    rw [c059_val, abs_le]; constructor <;> norm_num
  have k5 : |c014 - 14 / 100| ≤ 1 / 2 ^ 27 := by
    rw [c014_val, abs_le]; constructor <;> norm_num
  have e1 := fmul_err c243 (243 / 100) x (1 / 2 ^ 23) k1
  rw [abs_of_pos (by norm_num : (0 : ℚ) < 243 / 100)] at e1
  have b1 : |fmul c243 x - 243 / 100 * x| ≤ 5 * |x| / 2 ^ 24 + 1 / 2 ^ 150 := by
    linarith
  have e2 := fmul_err (fmul c243 x) (243 / 100 * x) x _ b1
  rw [abs_mul, abs_of_pos (by norm_num : (0 : ℚ) < 243 / 100)] at e2
  have b2 : |fmul (fmul c243 x) x - 243 / 100 * x * x|
      ≤ 8 * (x * x) / 2 ^ 24 + 2 * |x| / 2 ^ 150 + 1 / 2 ^ 150 := by
    linarith
  have e3 := fmul_err c059 (59 / 100) x (1 / 2 ^ 25) k3
  rw [abs_of_pos (by norm_num : (0 : ℚ) < 59 / 100)] at e3
  have b3 : |fmul c059 x - 59 / 100 * x| ≤ 6 * |x| / (5 * 2 ^ 24) + 1 / 2 ^ 150 := by
    linarith
  have e4 := fadd_err _ _ _ _ _ _ b2 b3
  have a1 : |(243 / 100 : ℚ) * x * x| = 243 / 100 * (x * x) := by
    rw [mul_assoc, abs_mul, abs_of_pos (by norm_num : (0 : ℚ) < 243 / 100), abs_of_nonneg hS0]
  have a2 : |(59 / 100 : ℚ) * x| = 59 / 100 * |x| := by
    rw [abs_mul, abs_of_pos (by norm_num : (0 : ℚ) < 59 / 100)]
  rw [a1, a2] at e4
  have b4 : |fadd (fmul (fmul c243 x) x) (fmul c059 x) - (243 / 100 * x * x + 59 / 100 * x)|
      ≤ 11 * (x * x) / 2 ^ 24 + 2 * |x| / 2 ^ 24 + 3 * |x| / 2 ^ 150 + 4 / 2 ^ 150 := by
    linarith
  have e5 := fadd_err _ _ _ _ _ _ b4 k5
  have a3 : |(243 / 100 : ℚ) * x * x + 59 / 100 * x| ≤ 243 / 100 * (x * x) + 59 / 100 * |x| := by
    have := abs_add ((243 / 100 : ℚ) * x * x) (59 / 100 * x)
    rw [a1, a2] at this; exact this
  rw [abs_of_pos (by norm_num : (0 : ℚ) < 14 / 100)] at e5
  unfold filmicDen filmicDenExact
  linarith

/-- Error of a quotient of approximated numerator and denominator, all measured
against a common positive scale `Dp`. -/
theorem quotient_err (N D Ns Ds Dp κ lam c : ℚ) (hDp : 0 < Dp) (hκ : 0 < κ) (hlam : 0 < lam)
    (hN : |N - Ns| ≤ 5 / 2 ^ 24 * Dp) (hD : |D - Ds| ≤ 6 / 2 ^ 24 * Dp)
    (hNs : |Ns| ≤ 104 / 100 * Dp) (hDs : κ * Dp ≤ Ds) (hl : lam ≤ κ - 6 / 2 ^ 24)
    (hc : 5 / 2 ^ 24 * κ + 624 / 100 / 2 ^ 24 ≤ c * (κ * lam)) :
    0 < D ∧ |N / D - Ns / Ds| ≤ c ∧ |Ns / Ds| ≤ 104 / 100 / κ := by
  have hDs0 : 0 < Ds := lt_of_lt_of_le (mul_pos hκ hDp) hDs
  have hD1 : lam * Dp ≤ D := by
    have h1 := (abs_le.mp hD).1
    have h2 : lam * Dp ≤ (κ - 6 / 2 ^ 24) * Dp := mul_le_mul_of_nonneg_right hl (le_of_lt hDp)
    linarith
  have hD0 : 0 < D := lt_of_lt_of_le (mul_pos hlam hDp) hD1
  have hc0 : 0 ≤ c := by
    by_contra hneg
    have : c * (κ * lam) < 0 := mul_neg_of_neg_of_pos (not_le.mp hneg) (mul_pos hκ hlam)
    have : (0 : ℚ) ≤ 5 / 2 ^ 24 * κ + 624 / 100 / 2 ^ 24 := by positivity
    linarith
  refine ⟨hD0, ?_, ?_⟩
  · have hdiff : N / D - Ns / Ds = ((N - Ns) * Ds - Ns * (D - Ds)) / (D * Ds) := by
      field_simp; ring
    rw [hdiff, abs_div, abs_of_pos (mul_pos hD0 hDs0), div_le_iff₀ (mul_pos hD0 hDs0)]
    have t1 : |(N - Ns) * Ds - Ns * (D - Ds)| ≤ |N - Ns| * Ds + |Ns| * |D - Ds| := by
      have := abs_sub ((N - Ns) * Ds) (Ns * (D - Ds))
      rw [abs_mul, abs_mul, abs_of_pos hDs0] at this
      exact this
    have t2 : |N - Ns| * Ds ≤ 5 / 2 ^ 24 * Dp * Ds :=
      mul_le_mul_of_nonneg_right hN (le_of_lt hDs0)
    have t3 : |Ns| * |D - Ds| ≤ 104 / 100 * Dp * (6 / 2 ^ 24 * Dp) :=
      mul_le_mul hNs hD (abs_nonneg _) (by positivity)
    -- the scale against the product of the denominators
    have hb : 624 / 100 / 2 ^ 24 ≤ (c * lam - 5 / 2 ^ 24) * κ := by linarith
    have hb0 : 0 ≤ c * lam - 5 / 2 ^ 24 := by
      by_contra hneg
      have : (c * lam - 5 / 2 ^ 24) * κ < 0 := mul_neg_of_neg_of_pos (not_le.mp hneg) hκ
      have : (0 : ℚ) ≤ 624 / 100 / 2 ^ 24 := by positivity
      linarith
    have u1 : c * (lam * Dp) * Ds ≤ c * D * Ds :=
      mul_le_mul_of_nonneg_right (mul_le_mul_of_nonneg_left hD1 hc0) (le_of_lt hDs0)
    have u2 : (c * lam - 5 / 2 ^ 24) * Dp * (κ * Dp) ≤ (c * lam - 5 / 2 ^ 24) * Dp * Ds :=
      mul_le_mul_of_nonneg_left hDs (mul_nonneg hb0 (le_of_lt hDp))
    have u3 : 624 / 100 / 2 ^ 24 * (Dp * Dp) ≤ (c * lam - 5 / 2 ^ 24) * κ * (Dp * Dp) :=
      mul_le_mul_of_nonneg_right hb (by positivity)
    have e1 : c * (lam * Dp) * Ds
        = 5 / 2 ^ 24 * Dp * Ds + (c * lam - 5 / 2 ^ 24) * Dp * Ds := by ring
    have e2 : (c * lam - 5 / 2 ^ 24) * Dp * (κ * Dp)
        = (c * lam - 5 / 2 ^ 24) * κ * (Dp * Dp) := by ring
    have e3 : 104 / 100 * Dp * (6 / 2 ^ 24 * Dp) = 624 / 100 / 2 ^ 24 * (Dp * Dp) := by ring
    have e4 : c * (D * Ds) = c * D * Ds := by ring
    rw [e4]
    linarith
  · rw [abs_div, abs_of_pos hDs0, div_le_div_iff₀ hDs0 hκ]
    have : |Ns| * κ ≤ 104 / 100 * Dp * κ := mul_le_mul_of_nonneg_right hNs (le_of_lt hκ)
    have : 104 / 100 * (κ * Dp) ≤ 104 / 100 * Ds := mul_le_mul_of_nonneg_left hDs (by norm_num)
    linarith

/-- The common scale of the error bounds: the denominator of the tone curve with
`|x|` for `x`. -/
theorem filmic_scale (x : ℚ) :
    0 < 243 / 100 * (x * x) + 59 / 100 * |x| + 14 / 100 ∧
    |filmicNum x - filmicNumExact x|
      ≤ 5 / 2 ^ 24 * (243 / 100 * (x * x) + 59 / 100 * |x| + 14 / 100) ∧
    |filmicDen x - filmicDenExact x|
      ≤ 6 / 2 ^ 24 * (243 / 100 * (x * x) + 59 / 100 * |x| + 14 / 100) ∧
    |filmicNumExact x| ≤ 104 / 100 * (243 / 100 * (x * x) + 59 / 100 * |x| + 14 / 100) ∧
    3 / 10 * (243 / 100 * (x * x) + 59 / 100 * |x| + 14 / 100) ≤ filmicDenExact x ∧
    (0 ≤ x → 1 * (243 / 100 * (x * x) + 59 / 100 * |x| + 14 / 100) ≤ filmicDenExact x) := by
  have hX : 0 ≤ |x| := abs_nonneg x
  have hS : |x| * |x| = x * x := abs_mul_abs_self x
  have hS0 : 0 ≤ x * x := mul_self_nonneg x
  have hn := filmicNum_err x
  have hd := filmicDen_err x
  have hxl : -|x| ≤ x := neg_abs_le x
  have hxu : x ≤ |x| := le_abs_self x
  refine ⟨by positivity, by linarith, by linarith, ?_, ?_, ?_⟩
  · unfold filmicNumExact
    rw [abs_le]
    constructor <;> nlinarith
  · unfold filmicDenExact
    nlinarith [sq_nonneg (|x| - 2255 / 10000)]
  · intro h0
    unfold filmicDenExact
    rw [abs_of_nonneg h0]; linarith

/-- The value that `filmic` computes in binary32 is within `2^-17` of the exact
quotient, for every input. -/
theorem filmic_err (x : ℚ) : |filmic x - filmicExact x| ≤ 1 / 2 ^ 17 := by
  obtain ⟨hDp, hN, hD, hNs, hDs, -⟩ := filmic_scale x
  obtain ⟨hD0, hq, hQ⟩ := quotient_err (filmicNum x) (filmicDen x) (filmicNumExact x)
    (filmicDenExact x) _ (3 / 10) (299 / 1000) (87 / 2 ^ 24) hDp (by norm_num) (by norm_num)
    hN hD hNs hDs (by norm_num) (by norm_num)
  have hr := f32round_err (filmicNum x / filmicDen x)
  have habs : |filmicNum x / filmicDen x| ≤ 104 / 100 / (3 / 10) + 87 / 2 ^ 24 := by
    have := abs_sub_abs_le_abs_sub (filmicNum x / filmicDen x)
      (filmicNumExact x / filmicDenExact x)
    linarith
  have htri : |filmic x - filmicExact x|
      ≤ |f32round (filmicNum x / filmicDen x) - filmicNum x / filmicDen x|
        + |filmicNum x / filmicDen x - filmicNumExact x / filmicDenExact x| := by
    have := abs_add (f32round (filmicNum x / filmicDen x) - filmicNum x / filmicDen x)
      (filmicNum x / filmicDen x - filmicNumExact x / filmicDenExact x)
    rw [sub_add_sub_cancel] at this
    exact this
  have h5 : |filmicNum x / filmicDen x| / 2 ^ 24
      ≤ (104 / 100 / (3 / 10) + 87 / 2 ^ 24) / 2 ^ 24 :=
    div_le_div_of_nonneg_right habs (by positivity)
  have hnum : (104 / 100 / (3 / 10) + 87 / 2 ^ 24) / 2 ^ 24 + 1 / 2 ^ 150 + 87 / 2 ^ 24
      ≤ (1 : ℚ) / 2 ^ 17 := by norm_num
  linarith

/-- On non-negative inputs the value that `filmic` computes in binary32 is
within `2^-20` of the exact quotient. -/
theorem filmic_err_nonneg (x : ℚ) (hx : 0 ≤ x) : |filmic x - filmicExact x| ≤ 1 / 2 ^ 20 := by
  obtain ⟨hDp, hN, hD, hNs, -, hDs⟩ := filmic_scale x
  obtain ⟨hD0, hq, hQ⟩ := quotient_err (filmicNum x) (filmicDen x) (filmicNumExact x)
    (filmicDenExact x) _ 1 (999 / 1000) (12 / 2 ^ 24) hDp (by norm_num) (by norm_num)
    hN hD hNs (hDs hx) (by norm_num) (by norm_num)
  have hr := f32round_err (filmicNum x / filmicDen x)
  have habs : |filmicNum x / filmicDen x| ≤ 104 / 100 / 1 + 12 / 2 ^ 24 := by
    have := abs_sub_abs_le_abs_sub (filmicNum x / filmicDen x)
      (filmicNumExact x / filmicDenExact x)
    linarith
  have htri : |filmic x - filmicExact x|
      ≤ |f32round (filmicNum x / filmicDen x) - filmicNum x / filmicDen x|
        + |filmicNum x / filmicDen x - filmicNumExact x / filmicDenExact x| := by
    have := abs_add (f32round (filmicNum x / filmicDen x) - filmicNum x / filmicDen x)
      (filmicNum x / filmicDen x - filmicNumExact x / filmicDenExact x)
    rw [sub_add_sub_cancel] at this
    exact this
  have h5 : |filmicNum x / filmicDen x| / 2 ^ 24
      ≤ (104 / 100 / 1 + 12 / 2 ^ 24) / 2 ^ 24 :=
    div_le_div_of_nonneg_right habs (by positivity)
  have hnum : (104 / 100 / 1 + 12 / 2 ^ 24) / 2 ^ 24 + 1 / 2 ^ 150 + 12 / 2 ^ 24
      ≤ (1 : ℚ) / 2 ^ 20 := by norm_num
  linarith

/-- The denominator that `filmic` computes in binary32 is at least `1/32`. -/
theorem filmicDen_ge (x : ℚ) : 1 / 32 ≤ filmicDen x := by
  obtain ⟨hDp, -, hD, -, hDs, -⟩ := filmic_scale x
  have h1 := (abs_le.mp hD).1
  have hX : 0 ≤ |x| := abs_nonneg x
  have hS0 : 0 ≤ x * x := mul_self_nonneg x
  linarith

theorem filmicNum_nonneg (x : ℚ) (hx : 0 ≤ x) : 0 ≤ filmicNum x := by
  unfold filmicNum fadd fmul
  have p251 : 0 ≤ c251 := by rw [c251_val]; norm_num
  have p003 : 0 ≤ c003 := by rw [c003_val]; norm_num
  have h1 : 0 ≤ f32round (c251 * x) := f32round_nonneg _ (mul_nonneg p251 hx)
  have h2 : 0 ≤ f32round (f32round (c251 * x) * x) := f32round_nonneg _ (mul_nonneg h1 hx)
  have h3 : 0 ≤ f32round (c003 * x) := f32round_nonneg _ (mul_nonneg p003 hx)
  exact f32round_nonneg _ (add_nonneg h2 h3)

theorem filmic_nonneg (x : ℚ) (hx : 0 ≤ x) : 0 ≤ filmic x := by
  show 0 ≤ f32round (filmicNum x / filmicDen x)
  exact f32round_nonneg _ (div_nonneg (filmicNum_nonneg x hx) (le_of_lt (filmicDen_pos x)))

theorem F32.ofRat_fin (q : ℚ) (h : |f32round q| ≤ FLT_MAX) :
    F32.ofRat q = F32.fin (f32round q) := by
  obtain ⟨h1, h2⟩ := abs_le.mp h
  unfold F32.ofRat
  rw [if_neg (not_lt.mpr h2), if_neg (not_lt.mpr h1)]

theorem f32round_abs_mono (a b : ℚ) (h : |a| ≤ b) : |f32round a| ≤ f32round b := by
  obtain ⟨h1, h2⟩ := abs_le.mp h
  rw [abs_le]
  constructor
  · have := f32round_mono (-b) a h1
    rw [f32round_neg] at this; exact this
  · exact f32round_mono a b h2

/-- The value of `filmic` is bounded in absolute value. -/
theorem filmic_abs_le (x : ℚ) : |filmic x| ≤ 4 := by
  obtain ⟨hDp, hN, hD, hNs, hDs, -⟩ := filmic_scale x
  obtain ⟨-, -, hQ⟩ := quotient_err (filmicNum x) (filmicDen x) (filmicNumExact x)
    (filmicDenExact x) _ (3 / 10) (299 / 1000) (87 / 2 ^ 24) hDp (by norm_num) (by norm_num)
    hN hD hNs hDs (by norm_num) (by norm_num)
  have he := filmic_err x
  have hQ' : |filmicExact x| ≤ 104 / 100 / (3 / 10) := hQ
  have := abs_sub_abs_le_abs_sub (filmic x) (filmicExact x)
  have c : (104 : ℚ) / 100 / (3 / 10) + 1 / 2 ^ 17 ≤ 4 := by norm_num
  linarith

set_option maxRecDepth 1000000 in
theorem filmic_bounds_table :
    (0 < c251 ∧ 0 < c003 ∧ 0 < c243 ∧ 0 < c059 ∧ 0 < c014) ∧
    (fmul c251 (2 ^ 63) ≤ FLT_MAX ∧ fmul (fmul c251 (2 ^ 63)) (2 ^ 63) ≤ FLT_MAX ∧
      fmul c003 (2 ^ 63) ≤ FLT_MAX ∧ filmicNum (2 ^ 63) ≤ FLT_MAX) ∧
    (fmul c243 (2 ^ 63) ≤ FLT_MAX ∧ fmul (fmul c243 (2 ^ 63)) (2 ^ 63) ≤ FLT_MAX ∧
      fmul c059 (2 ^ 63) ≤ FLT_MAX ∧
      fadd (fmul (fmul c243 (2 ^ 63)) (2 ^ 63)) (fmul c059 (2 ^ 63)) ≤ FLT_MAX ∧
      filmicDen (2 ^ 63) ≤ FLT_MAX) ∧
    (4 : ℚ) ≤ FLT_MAX := by
  decide!

/-- Bound of a product by `x` in the range `|x| ≤ 2^63`. -/
theorem fmul_abs_le (p B x : ℚ) (hp : |p| ≤ B) (hx : |x| ≤ 2 ^ 63) :
    |fmul p x| ≤ fmul B (2 ^ 63) := by
  unfold fmul
  apply f32round_abs_mono
  rw [abs_mul]
  exact mul_le_mul hp hx (abs_nonneg x) (le_trans (abs_nonneg p) hp)

theorem fadd_abs_le (p q A B : ℚ) (hp : |p| ≤ A) (hq : |q| ≤ B) :
    |fadd p q| ≤ fadd A B := by
  unfold fadd
  apply f32round_abs_mono
  have := abs_add p q
  linarith

/-- No operation of `filmic` overflows for `|x| ≤ 2^63`: the IEEE 754 evaluation is
finite and is the value of the model without overflow. -/
theorem filmicIEEE_finite (x : ℚ) (hx : |x| ≤ 2 ^ 63) :
    filmicIEEE (F32.fin x) = F32.fin (filmic x) := by
  obtain ⟨⟨p251, p003, p243, p059, p014⟩, ⟨n1, n2, n3, n4⟩, ⟨d1, d2, d3, d4, d5⟩, hfour⟩ :=
    filmic_bounds_table
  have a251 : |c251| ≤ c251 := le_of_eq (abs_of_pos p251)
  have a003 : |c003| ≤ c003 := le_of_eq (abs_of_pos p003)
  have a243 : |c243| ≤ c243 := le_of_eq (abs_of_pos p243)
  have a059 : |c059| ≤ c059 := le_of_eq (abs_of_pos p059)
  have a014 : |c014| ≤ c014 := le_of_eq (abs_of_pos p014)
  have N1 := fmul_abs_le c251 c251 x a251 hx
  have N2 := fmul_abs_le _ _ x N1 hx
  have N3 := fmul_abs_le c003 c003 x a003 hx
  have N4 := fadd_abs_le _ _ _ _ N2 N3
  have D1 := fmul_abs_le c243 c243 x a243 hx
  have D2 := fmul_abs_le _ _ x D1 hx
  have D3 := fmul_abs_le c059 c059 x a059 hx
  have D4 := fadd_abs_le _ _ _ _ D2 D3
  have D5 := fadd_abs_le _ _ _ _ D4 a014
  have hden : filmicDen x ≠ 0 := ne_of_gt (filmicDen_pos x)
  have R := le_trans (filmic_abs_le x) hfour
  have s1 : (F32.fin c251).mul (F32.fin x) = F32.fin (fmul c251 x) :=
    F32.ofRat_fin _ (le_trans N1 n1)
  have s2 : (F32.fin (fmul c251 x)).mul (F32.fin x) = F32.fin (fmul (fmul c251 x) x) :=
    F32.ofRat_fin _ (le_trans N2 n2)
  have s3 : (F32.fin c003).mul (F32.fin x) = F32.fin (fmul c003 x) :=
    F32.ofRat_fin _ (le_trans N3 n3)
  have s4 : (F32.fin (fmul (fmul c251 x) x)).add (F32.fin (fmul c003 x))
      = F32.fin (filmicNum x) := F32.ofRat_fin _ (le_trans N4 n4)
  have t1 : (F32.fin c243).mul (F32.fin x) = F32.fin (fmul c243 x) :=
    F32.ofRat_fin _ (le_trans D1 d1)
  have t2 : (F32.fin (fmul c243 x)).mul (F32.fin x) = F32.fin (fmul (fmul c243 x) x) :=
    F32.ofRat_fin _ (le_trans D2 d2)
  have t3 : (F32.fin c059).mul (F32.fin x) = F32.fin (fmul c059 x) :=
    F32.ofRat_fin _ (le_trans D3 d3)
  have t4 : (F32.fin (fmul (fmul c243 x) x)).add (F32.fin (fmul c059 x))
      = F32.fin (fadd (fmul (fmul c243 x) x) (fmul c059 x)) :=
    F32.ofRat_fin _ (le_trans D4 d4)
  have t5 : (F32.fin (fadd (fmul (fmul c243 x) x) (fmul c059 x))).add (F32.fin c014)
      = F32.fin (filmicDen x) := F32.ofRat_fin _ (le_trans D5 d5)
  have q1 : (F32.fin (filmicNum x)).div (F32.fin (filmicDen x)) = F32.fin (filmic x) := by
    show (if filmicDen x = 0 then _ else F32.ofRat (filmicNum x / filmicDen x)) = _
    rw [if_neg hden]
    exact F32.ofRat_fin _ R
  unfold filmicIEEE
  simp only [s1, s2, s3, s4, t1, t2, t3, t4, t5, q1]

set_option maxRecDepth 1000000 in
/-- C13, as stated, fails on the code: at the `float` `2^64` the products
`2.51f*x*x` and `2.43f*x*x` overflow to infinity and `filmic` returns NaN, at
`1.28125 * 2^63` only the numerator overflows and `filmic` returns infinity, and
at `1` the computed value is not the exact quotient. -/
theorem filmic_overflow_counterexample :
    IsF32 (2 ^ 64) ∧ filmicIEEE (F32.fin (2 ^ 64)) = F32.nan ∧
    IsF32 (41 / 32 * 2 ^ 63) ∧ filmicIEEE (F32.fin (41 / 32 * 2 ^ 63)) = F32.pinf ∧
    IsF32 1 ∧ filmic 1 ≠ (251 / 100 * 1 ^ 2 + 3 / 100 * 1) / (243 / 100 * 1 ^ 2 + 59 / 100 * 1
      + 14 / 100) := by
  decide!

/-- C13 (filmic is defined, amended): the denominator `2.43*y^2 + 0.59*y + 0.14`
is strictly positive for every real `y`; for every input `x` with
`|x| ≤ 2^63` the denominator that `filmic` computes in binary32 is at least
`1/32` and no operation of `filmic` overflows, so the division does not divide
by zero, the result is finite, and it is within `2^-17` of
`(2.51*x^2 + 0.03*x) / (2.43*x^2 + 0.59*x + 0.14)`. -/
theorem filmic_defined_in_range (x : ℚ) (hx : |x| ≤ 2 ^ 63) :
    (∀ y : ℝ, 0 < 243 / 100 * y ^ 2 + 59 / 100 * y + 14 / 100) ∧
    1 / 32 ≤ filmicDen x ∧
    filmicIEEE (F32.fin x) = F32.fin (filmic x) ∧
    |filmic x - (251 / 100 * x ^ 2 + 3 / 100 * x) / (243 / 100 * x ^ 2 + 59 / 100 * x + 14 / 100)|
      ≤ 1 / 2 ^ 17 := by
  refine ⟨fun y => ?_, filmicDen_ge x, filmicIEEE_finite x hx, ?_⟩
  · have := filmicDenExact_pos y
    unfold filmicDenExact at this
    nlinarith
  · have h := filmic_err x
    have e : filmicExact x
        = (251 / 100 * x ^ 2 + 3 / 100 * x) / (243 / 100 * x ^ 2 + 59 / 100 * x + 14 / 100) := by
      unfold filmicExact filmicNumExact filmicDenExact
      ring_nf
    rw [e] at h; exact h

theorem filmic_defined_in_range_witness :
    |(-3 : ℚ)| ≤ 2 ^ 63 ∧ 1 / 32 ≤ filmicDen (-3) ∧
    filmicIEEE (F32.fin (-3)) = F32.fin (filmic (-3)) :=
  ⟨by norm_num [abs_le], (filmic_defined_in_range (-3) (by norm_num [abs_le])).2.1,
   (filmic_defined_in_range (-3) (by norm_num [abs_le])).2.2.1⟩

set_option maxRecDepth 1000000 in
/-- C19, as stated, fails on the code: between the neighbouring `float`s
`0.5 + 2^-23` and `0.5 + 3 * 2^-24` the computed value decreases, the smallest
positive `float` gives the same value as 0, at `1000000384` the computed value
exceeds `2.51/2.43`, and at `2^65` the result is NaN. -/
theorem filmic_order_counterexample :
    (IsF32 (1 / 2 + 2 / 2 ^ 24) ∧ IsF32 (1 / 2 + 3 / 2 ^ 24) ∧
      (0 : ℚ) ≤ 1 / 2 + 2 / 2 ^ 24 ∧ (1 / 2 + 2 / 2 ^ 24 : ℚ) < 1 / 2 + 3 / 2 ^ 24 ∧
      filmic (1 / 2 + 3 / 2 ^ 24) < filmic (1 / 2 + 2 / 2 ^ 24)) ∧
    (IsF32 (1 / 2 ^ 149) ∧ (0 : ℚ) < 1 / 2 ^ 149 ∧ filmic (1 / 2 ^ 149) = filmic 0) ∧
    (IsF32 1000000384 ∧ 251 / 243 < filmic 1000000384) ∧
    (IsF32 (2 ^ 65) ∧ filmicIEEE (F32.fin (2 ^ 65)) = F32.nan) := by
  decide!

/-- C19 (filmic preserves brightness order, amended): `filmic(0) = 0`, and for
all `0 ≤ x < y ≤ 2^63` the computed values are finite, `0 ≤ filmic(x)`,
`filmic(x) < filmic(y) + 2^-19` and `filmic(y) < 2.51/2.43 + 2^-20`: the
computed value is within `2^-20` of the exact curve, which is non-negative,
strictly increasing and below `2.51/2.43`, so the order of two inputs is
preserved as soon as their exact values differ by more than `2^-19`. -/
theorem filmic_order_up_to_rounding (x y : ℚ) (hx : 0 ≤ x) (hxy : x < y) (hy : y ≤ 2 ^ 63) :
    filmic 0 = 0 ∧
    (filmicIEEE (F32.fin x) = F32.fin (filmic x) ∧
      filmicIEEE (F32.fin y) = F32.fin (filmic y)) ∧
    0 ≤ filmic x ∧ filmic x < filmic y + 1 / 2 ^ 19 ∧ filmic y < 251 / 243 + 1 / 2 ^ 20 ∧
    (|filmic x - filmicExact x| ≤ 1 / 2 ^ 20 ∧ |filmic y - filmicExact y| ≤ 1 / 2 ^ 20) ∧
    (0 ≤ filmicExact x ∧ filmicExact x < filmicExact y ∧ filmicExact y < 251 / 243) ∧
    (filmicExact x + 1 / 2 ^ 19 < filmicExact y → filmic x < filmic y) := by
  have hy0 : 0 ≤ y := le_trans hx (le_of_lt hxy)
  have ex := filmic_err_nonneg x hx
  have ey := filmic_err_nonneg y hy0
  obtain ⟨o1, o2, o3⟩ := filmicExact_order x y hx hxy
  obtain ⟨x1, x2⟩ := abs_le.mp ex
  obtain ⟨y1, y2⟩ := abs_le.mp ey
  have hax : |x| ≤ 2 ^ 63 := by rw [abs_of_nonneg hx]; linarith
  have hay : |y| ≤ 2 ^ 63 := by rw [abs_of_nonneg hy0]; exact hy
  have c : (1 : ℚ) / 2 ^ 20 + 1 / 2 ^ 20 = 1 / 2 ^ 19 := by norm_num
  refine ⟨filmic_zero, ⟨filmicIEEE_finite x hax, filmicIEEE_finite y hay⟩, filmic_nonneg x hx,
    by linarith, by linarith, ⟨ex, ey⟩, ⟨o1, o2, o3⟩, fun h => by linarith⟩

theorem filmic_order_up_to_rounding_witness :
    (0 : ℚ) ≤ 1 ∧ (1 : ℚ) < 2 ∧ (2 : ℚ) ≤ 2 ^ 63 ∧
    filmic 1 < filmic 2 + 1 / 2 ^ 19 ∧ filmic 2 < 251 / 243 + 1 / 2 ^ 20 :=
  ⟨by norm_num, by norm_num, by norm_num,
   (filmic_order_up_to_rounding 1 2 (by norm_num) (by norm_num) (by norm_num)).2.2.2.1,
   (filmic_order_up_to_rounding 1 2 (by norm_num) (by norm_num) (by norm_num)).2.2.2.2.1⟩

/-! ## The gamma round trip in real arithmetic -/

/-- The exponents `2.2f` and `1.0f/2.2f` of the code are inverse to each other up
to `2^-26`: their product is `1 + e` with `-2^-26 ≤ e ≤ 0`. -/
theorem gamma_product :
    -(1 / 67108864 : ℝ) ≤ ((INVERSE_GAMMA : ℚ) : ℝ) * ((GAMMA : ℚ) : ℝ) - 1 ∧
    ((INVERSE_GAMMA : ℚ) : ℝ) * ((GAMMA : ℚ) : ℝ) - 1 ≤ 0 := by
  rw [GAMMA_val, INVERSE_GAMMA_val]
  constructor <;> norm_num

/-- For `0 ≤ x ≤ 1` and an exponent `s` in `[1 - d, 1]`, `x ≤ x^s ≤ x + d`. -/
theorem rpow_near_one (x s d : ℝ) (h0 : 0 ≤ x) (h1 : x ≤ 1) (hs1 : s ≤ 1) (hs0 : 0 ≤ s)
    (hd : 1 - d ≤ s) : x ≤ x ^ s ∧ x ^ s ≤ x + d := by
  constructor
  · have := Real.rpow_le_rpow_of_exponent_ge' h0 h1 hs0 hs1
    rwa [Real.rpow_one] at this
  · have h := Real.geom_mean_le_arith_mean2_weighted hs0 (by linarith : 0 ≤ 1 - s) h0
      (by norm_num : (0 : ℝ) ≤ 1) (by ring)
    rw [Real.one_rpow, mul_one] at h
    nlinarith

theorem gamma_roundtrip_real (x : ℝ) (h0 : 0 ≤ x) (h1 : x ≤ 1) :
    x ≤ x ^ (((INVERSE_GAMMA : ℚ) : ℝ) * ((GAMMA : ℚ) : ℝ)) ∧
    x ^ (((INVERSE_GAMMA : ℚ) : ℝ) * ((GAMMA : ℚ) : ℝ)) ≤ x + 1 / 67108864 := by
  obtain ⟨g1, g2⟩ := gamma_product
  exact rpow_near_one x _ _ h0 h1 (by linarith) (by linarith) (by linarith)

/-- C14 (gamma round-trip): for every real `f` in `[0,1]`, the encoded value
`f^INVERSE_GAMMA` stays in `[0,1]`; decoding it with the exponent `2.2f` of the
code gives a value within `1e-5` of `f`; with the exact exponents `1/2.2` and
`2.2` the round trip is the identity; and with the C library's `pow`, accurate
to a relative error of `2^-19` on the two calls, the computed round trip of a
`float` `f` is within `1e-5` of `f` as well. -/
theorem gamma_roundtrip (x : ℝ) (h0 : 0 ≤ x) (h1 : x ≤ 1) :
    (0 ≤ x ^ ((INVERSE_GAMMA : ℚ) : ℝ) ∧ x ^ ((INVERSE_GAMMA : ℚ) : ℝ) ≤ 1) ∧
    |(x ^ ((INVERSE_GAMMA : ℚ) : ℝ)) ^ ((GAMMA : ℚ) : ℝ) - x| ≤ 1 / 100000 ∧
    (x ^ ((1 : ℝ) / (22 / 10))) ^ ((22 : ℝ) / 10) = x ∧
    (∀ (m : Libm) (f : ℚ), (f : ℝ) = x →
      PowAccurateTo m (1 / 2 ^ 19) f INVERSE_GAMMA →
      PowAccurateTo m (1 / 2 ^ 19) (m.pow f INVERSE_GAMMA) GAMMA →
      |((m.pow (m.pow f INVERSE_GAMMA) GAMMA : ℚ) : ℝ) - x| ≤ 1 / 100000) := by
  have hI0 : (0 : ℝ) ≤ ((INVERSE_GAMMA : ℚ) : ℝ) := by
    exact_mod_cast le_of_lt INVERSE_GAMMA_pos
  have hG0 : (0 : ℝ) ≤ ((GAMMA : ℚ) : ℝ) := by exact_mod_cast le_of_lt GAMMA_pos
  have hG3 : ((GAMMA : ℚ) : ℝ) ≤ 3 := by rw [GAMMA_val]; norm_num
  obtain ⟨r1, r2⟩ := gamma_roundtrip_real x h0 h1
  have hmul : (x ^ ((INVERSE_GAMMA : ℚ) : ℝ)) ^ ((GAMMA : ℚ) : ℝ)
      = x ^ (((INVERSE_GAMMA : ℚ) : ℝ) * ((GAMMA : ℚ) : ℝ)) := (Real.rpow_mul h0 _ _).symm
  refine ⟨⟨Real.rpow_nonneg h0 _, Real.rpow_le_one h0 h1 hI0⟩, ?_, ?_, ?_⟩
  · rw [hmul, abs_le]; constructor <;> linarith
  · rw [← Real.rpow_mul h0]
    have : (1 : ℝ) / (22 / 10) * (22 / 10) = 1 := by norm_num
    rw [this, Real.rpow_one]
  · intro m f hf hE hD
    unfold PowAccurateTo at hE hD
    rw [hf] at hE
    set E : ℝ := ((m.pow f INVERSE_GAMMA : ℚ) : ℝ) with hEdef
    set D : ℝ := ((m.pow (m.pow f INVERSE_GAMMA) GAMMA : ℚ) : ℝ) with hDdef
    set A : ℝ := x ^ ((INVERSE_GAMMA : ℚ) : ℝ) with hAdef
    have hA0 : 0 ≤ A := Real.rpow_nonneg h0 _
    have hε : (((1 / 2 ^ 19 : ℚ)) : ℝ) = 1 / 524288 := by norm_num
    rw [hε] at hE hD
    obtain ⟨e1, e2⟩ := abs_le.mp hE
    have hElo : A * (1 - 1 / 524288) ≤ E := by linarith
    have hEhi : E ≤ A * (1 + 1 / 524288) := by linarith
    have hE0 : 0 ≤ E := le_trans (mul_nonneg hA0 (by norm_num)) hElo
    have hEg0 : 0 ≤ E ^ ((GAMMA : ℚ) : ℝ) := Real.rpow_nonneg hE0 _
    obtain ⟨d1, d2⟩ := abs_le.mp hD
    -- powers of the error factors
    have hup : ((1 + 1 / 524288 : ℝ)) ^ ((GAMMA : ℚ) : ℝ) ≤ (1 + 1 / 524288 : ℝ) ^ (3 : ℕ) := by
      rw [← Real.rpow_natCast]
      exact Real.rpow_le_rpow_of_exponent_le (by norm_num) (by simpa using hG3)
    have hlo : ((1 - 1 / 524288 : ℝ)) ^ (3 : ℕ) ≤ (1 - 1 / 524288 : ℝ) ^ ((GAMMA : ℚ) : ℝ) := by
      rw [← Real.rpow_natCast]
      exact Real.rpow_le_rpow_of_exponent_ge (by norm_num) (by norm_num) (by simpa using hG3)
    have hEgup : E ^ ((GAMMA : ℚ) : ℝ)
        ≤ A ^ ((GAMMA : ℚ) : ℝ) * (1 + 1 / 524288 : ℝ) ^ (3 : ℕ) := by
      have h := Real.rpow_le_rpow hE0 hEhi hG0
      rw [Real.mul_rpow hA0 (by norm_num)] at h
      exact le_trans h (mul_le_mul_of_nonneg_left hup (Real.rpow_nonneg hA0 _))
    have hEglo : A ^ ((GAMMA : ℚ) : ℝ) * (1 - 1 / 524288 : ℝ) ^ (3 : ℕ)
        ≤ E ^ ((GAMMA : ℚ) : ℝ) := by
      have h := Real.rpow_le_rpow (mul_nonneg hA0 (by norm_num)) hElo hG0
      rw [Real.mul_rpow hA0 (by norm_num)] at h
      exact le_trans (mul_le_mul_of_nonneg_left hlo (Real.rpow_nonneg hA0 _)) h
    rw [hAdef, hmul] at hEgup hEglo
    set T : ℝ := x ^ (((INVERSE_GAMMA : ℚ) : ℝ) * ((GAMMA : ℚ) : ℝ)) with hTdef
    have hT0 : 0 ≤ T := le_trans h0 r1
    have hT1 : T ≤ 1 + 1 / 67108864 := by linarith
    have hc3u : (1 + 1 / 524288 : ℝ) ^ (3 : ℕ) * (1 + 1 / 524288) ≤ 1 + 8 / 1000000 := by
      norm_num
    have hc3l : (1 - 8 / 1000000 : ℝ) ≤ (1 - 1 / 524288 : ℝ) ^ (3 : ℕ) * (1 - 1 / 524288) := by
      norm_num
    have hDup : D ≤ T * (1 + 8 / 1000000) := by
      have h1 : D ≤ E ^ ((GAMMA : ℚ) : ℝ) * (1 + 1 / 524288) := by linarith
      have h2 : E ^ ((GAMMA : ℚ) : ℝ) * (1 + 1 / 524288)
          ≤ T * (1 + 1 / 524288 : ℝ) ^ (3 : ℕ) * (1 + 1 / 524288) :=
        mul_le_mul_of_nonneg_right hEgup (by norm_num)
      have h3 : T * (1 + 1 / 524288 : ℝ) ^ (3 : ℕ) * (1 + 1 / 524288)
          ≤ T * (1 + 8 / 1000000) := by
        rw [mul_assoc]; exact mul_le_mul_of_nonneg_left hc3u hT0
      linarith
    have hDlo : T * (1 - 8 / 1000000) ≤ D := by
      have h1 : E ^ ((GAMMA : ℚ) : ℝ) * (1 - 1 / 524288) ≤ D := by linarith
      have h2 : T * (1 - 1 / 524288 : ℝ) ^ (3 : ℕ) * (1 - 1 / 524288)
          ≤ E ^ ((GAMMA : ℚ) : ℝ) * (1 - 1 / 524288) :=
        mul_le_mul_of_nonneg_right hEglo (by norm_num)
      have h3 : T * (1 - 8 / 1000000)
          ≤ T * (1 - 1 / 524288 : ℝ) ^ (3 : ℕ) * (1 - 1 / 524288) := by
        rw [mul_assoc]; exact mul_le_mul_of_nonneg_left hc3l hT0
      linarith
    rw [abs_le]
    constructor
    · nlinarith
    · nlinarith

theorem PowAccurateTo_one (m : Libm) (tol y : ℚ) (ht : 0 ≤ tol) : PowAccurateTo m tol 1 y := by
  unfold PowAccurateTo
  rw [m.pow_base_one]
  have : (0 : ℝ) ≤ (tol : ℝ) := by exact_mod_cast ht
  simp [this]

theorem gamma_roundtrip_witness :
    (0 : ℝ) ≤ 1 / 2 ∧ (1 / 2 : ℝ) ≤ 1 ∧
    |((1 / 2 : ℝ) ^ ((INVERSE_GAMMA : ℚ) : ℝ)) ^ ((GAMMA : ℚ) : ℝ) - 1 / 2| ≤ 1 / 100000 ∧
    |((Libm.intPow.pow (Libm.intPow.pow 1 INVERSE_GAMMA) GAMMA : ℚ) : ℝ) - 1| ≤ 1 / 100000 :=
  ⟨by norm_num, by norm_num,
   (gamma_roundtrip (1 / 2) (by norm_num) (by norm_num)).2.1,
   (gamma_roundtrip 1 (by norm_num) (by norm_num)).2.2.2 Libm.intPow 1 (by norm_num)
     (PowAccurateTo_one _ _ _ (by norm_num))
     (by rw [Libm.intPow.pow_base_one]; exact PowAccurateTo_one _ _ _ (by norm_num))⟩

/-! ## The correctly rounded power as the C library -/

theorem roundEvenReal_err (t : ℝ) : |(roundEvenReal t : ℝ) - t| ≤ 1 / 2 := by
  have h1 : (⌊t⌋ : ℝ) ≤ t := Int.floor_le t
  have h2 : t < ⌊t⌋ + 1 := Int.lt_floor_add_one t
  unfold roundEvenReal
  simp only
  rw [abs_le]
  split_ifs <;> push_cast <;> constructor <;> linarith

theorem roundEvenReal_upper (t : ℝ) : roundEvenReal t ≤ ⌊t⌋ + 1 := by
  unfold roundEvenReal
  simp only
  split_ifs <;> omega

theorem roundEvenReal_lower (t : ℝ) : ⌊t⌋ ≤ roundEvenReal t := by
  unfold roundEvenReal
  simp only
  split_ifs <;> omega

theorem roundEvenReal_intCast (G : ℤ) : roundEvenReal (G : ℝ) = G := by
  unfold roundEvenReal
  simp

theorem roundEvenReal_le_of_le_int (t : ℝ) (G : ℤ) (h : t ≤ (G : ℝ)) :
    roundEvenReal t ≤ G := by
  rcases eq_or_lt_of_le h with h1 | h1
  · rw [h1, roundEvenReal_intCast]
  · have : ⌊t⌋ < G := Int.floor_lt.mpr h1
    have := roundEvenReal_upper t
    omega

theorem roundEvenReal_nonneg (t : ℝ) (h : 0 ≤ t) : 0 ≤ roundEvenReal t := by
  have : 0 ≤ ⌊t⌋ := Int.floor_nonneg.mpr h
  have := roundEvenReal_lower t
  omega

theorem f32roundReal_nonneg (r : ℝ) (h : 0 ≤ r) : 0 ≤ f32roundReal r := by
  unfold f32roundReal
  split_ifs with h0
  · exact le_rfl
  · have ht : 0 ≤ r / (2 : ℝ) ^ (max (Int.log 2 |r|) (-126) - 23) := by positivity
    have := roundEvenReal_nonneg _ ht
    have hz : (0 : ℚ) ≤ (roundEvenReal (r / (2 : ℝ) ^ (max (Int.log 2 |r|) (-126) - 23)) : ℚ) := by
      exact_mod_cast this
    positivity

/-- Relative error of the rounding of a real number of the normal range. -/
theorem f32roundReal_rel_err (r : ℝ) (hr : (2 : ℝ) ^ (-126 : ℤ) ≤ r) :
    |((f32roundReal r : ℚ) : ℝ) - r| ≤ r / 2 ^ 24 := by
  have hpos : 0 < r := lt_of_lt_of_le (by positivity) hr
  have hlog : (-126 : ℤ) ≤ Int.log 2 r := by
    have := (Int.zpow_le_iff_le_log (b := 2) (by norm_num) hpos (x := -126)).mp
      (by exact_mod_cast hr)
    exact this
  have hle : (2 : ℝ) ^ Int.log 2 r ≤ r := by
    have := Int.zpow_log_le_self (b := 2) (by norm_num) hpos
    exact_mod_cast this
  unfold f32roundReal
  rw [if_neg (ne_of_gt hpos), abs_of_pos hpos, max_eq_left hlog]
  generalize Int.log 2 r = e at hle
  have hu : (0 : ℝ) < (2 : ℝ) ^ (e - 23) := by positivity
  have herr := roundEvenReal_err (r / (2 : ℝ) ^ (e - 23))
  have hcast : (((roundEvenReal (r / (2 : ℝ) ^ (e - 23)) : ℚ) * (2 : ℚ) ^ (e - 23) : ℚ) : ℝ)
      = (roundEvenReal (r / (2 : ℝ) ^ (e - 23)) : ℝ) * (2 : ℝ) ^ (e - 23) := by
    push_cast; rfl
  rw [hcast]
  have hsplit : (roundEvenReal (r / (2 : ℝ) ^ (e - 23)) : ℝ) * (2 : ℝ) ^ (e - 23) - r
      = ((roundEvenReal (r / (2 : ℝ) ^ (e - 23)) : ℝ) - r / (2 : ℝ) ^ (e - 23))
        * (2 : ℝ) ^ (e - 23) := by
    field_simp
  rw [hsplit, abs_mul, abs_of_pos hu]
  have h24 : (2 : ℝ) ^ (e - 23) = 2 ^ e / 2 ^ 23 := by
    rw [zpow_sub₀ (by norm_num)]; norm_num
  calc |(roundEvenReal (r / (2 : ℝ) ^ (e - 23)) : ℝ) - r / (2 : ℝ) ^ (e - 23)| * (2 : ℝ) ^ (e - 23)
      ≤ 1 / 2 * (2 : ℝ) ^ (e - 23) := mul_le_mul_of_nonneg_right herr (le_of_lt hu)
    _ = 2 ^ e / 2 ^ 24 := by rw [h24]; ring
    _ ≤ r / 2 ^ 24 := div_le_div_of_nonneg_right hle (by positivity)

theorem intLog_ratCast (c : ℚ) (hc : 0 < c) : Int.log 2 ((c : ℚ) : ℝ) = ilog2 c := by
  obtain ⟨s1, s2⟩ := ilog2_spec c hc
  have hcr : (0 : ℝ) < (c : ℝ) := by exact_mod_cast hc
  have r1 : ((2 : ℕ) : ℝ) ^ ilog2 c ≤ (c : ℝ) := by
    have : (((2 : ℚ) ^ ilog2 c : ℚ) : ℝ) ≤ (c : ℝ) := by exact_mod_cast s1
    push_cast at this ⊢; exact this
  have r2 : (c : ℝ) < ((2 : ℕ) : ℝ) ^ (ilog2 c + 1) := by
    have : (c : ℝ) < (((2 : ℚ) ^ (ilog2 c + 1) : ℚ) : ℝ) := by exact_mod_cast s2
    push_cast at this ⊢; exact this
  have a1 := (Int.zpow_le_iff_le_log (b := 2) (by norm_num) hcr).mp r1
  have a2 := (Int.lt_zpow_iff_log_lt (b := 2) (by norm_num) hcr).mp r2
  omega

/-- The rounding of a positive real does not exceed a binary32 value above it. -/
theorem f32roundReal_le_float (r : ℝ) (c : ℚ) (hr : 0 < r) (hrc : r ≤ (c : ℝ))
    (hc : IsF32 c) : f32roundReal r ≤ c := by
  have hcr : (0 : ℝ) < (c : ℝ) := lt_of_lt_of_le hr hrc
  have hc0 : 0 < c := by exact_mod_cast hcr
  have hlog : Int.log 2 r ≤ ilog2 c := by
    rw [← intLog_ratCast c hc0]
    exact Int.log_mono_right hr hrc
  have hceq : c = (roundEven (c / f32ulp c) : ℚ) * f32ulp c := by
    have := f32round_eq c (ne_of_gt hc0)
    rw [hc] at this; exact this
  unfold f32ulp at hceq
  rw [abs_of_pos hc0] at hceq
  unfold f32roundReal
  rw [if_neg (ne_of_gt hr), abs_of_pos hr]
  generalize roundEven (c / (2 : ℚ) ^ (max (ilog2 c) (-126) - 23)) = M at hceq
  generalize hEc : max (ilog2 c) (-126) - 23 = Ec at hceq
  generalize hEr : max (Int.log 2 r) (-126) - 23 = Er
  have hle : Er ≤ Ec := by
    rw [← hEc, ← hEr]
    have : max (Int.log 2 r) (-126) ≤ max (ilog2 c) (-126) := max_le_max hlog le_rfl
    omega
  obtain ⟨n, hn⟩ : ∃ n : ℕ, Ec = Er + n := ⟨(Ec - Er).toNat, by omega⟩
  have hsplit : (2 : ℚ) ^ Ec = (2 : ℚ) ^ n * (2 : ℚ) ^ Er := by
    rw [hn]; exact two_zpow_split Er n
  have hcG : c = ((M * 2 ^ n : ℤ) : ℚ) * (2 : ℚ) ^ Er := by
    rw [hceq, hsplit]; push_cast; ring
  have huR : (0 : ℝ) < (2 : ℝ) ^ Er := by positivity
  have huQ : (0 : ℚ) < (2 : ℚ) ^ Er := by positivity
  have ht : r / (2 : ℝ) ^ Er ≤ ((M * 2 ^ n : ℤ) : ℝ) := by
    rw [div_le_iff₀ huR]
    have : (c : ℝ) = ((M * 2 ^ n : ℤ) : ℝ) * (2 : ℝ) ^ Er := by
      have := congrArg (fun q : ℚ => (q : ℝ)) hcG
      simp only at this
      rw [this]; push_cast; rfl
    rw [← this]; exact hrc
  have hre := roundEvenReal_le_of_le_int _ _ ht
  have hreQ : (roundEvenReal (r / (2 : ℝ) ^ Er) : ℚ) ≤ ((M * 2 ^ n : ℤ) : ℚ) := by
    exact_mod_cast hre
  calc (roundEvenReal (r / (2 : ℝ) ^ Er) : ℚ) * (2 : ℚ) ^ Er
      ≤ ((M * 2 ^ n : ℤ) : ℚ) * (2 : ℚ) ^ Er := mul_le_mul_of_nonneg_right hreQ (le_of_lt huQ)
    _ = c := hcG.symm

theorem GAMMA_real : (1 : ℝ) ≤ (GAMMA : ℝ) ∧ (GAMMA : ℝ) ≤ 3 := by
  rw [GAMMA_val]; constructor <;> norm_num

theorem INVERSE_GAMMA_real : (0 : ℝ) < (INVERSE_GAMMA : ℝ) ∧ (INVERSE_GAMMA : ℝ) ≤ 3 := by
  rw [INVERSE_GAMMA_val]; constructor <;> norm_num

theorem isF32_one : IsF32 1 := f32round_one

/-- The correctly rounded power keeps the unit interval, as the real powers do. -/
theorem PowUnitRange_rounded : PowUnitRange Libm.rounded := by
  intro x hx h0 h1
  have hg : GAMMA ≠ 0 := ne_of_gt GAMMA_pos
  have hi : INVERSE_GAMMA ≠ 0 := ne_of_gt INVERSE_GAMMA_pos
  show (0 ≤ (if GAMMA = 0 then 1 else if x = 1 then 1 else if x = 0 then 0
      else f32roundReal ((x : ℝ) ^ (GAMMA : ℝ))) ∧
    (if GAMMA = 0 then 1 else if x = 1 then 1 else if x = 0 then 0
      else f32roundReal ((x : ℝ) ^ (GAMMA : ℝ))) ≤ x) ∧
    (0 ≤ (if INVERSE_GAMMA = 0 then 1 else if x = 1 then 1 else if x = 0 then 0
      else f32roundReal ((x : ℝ) ^ (INVERSE_GAMMA : ℝ))) ∧
    (if INVERSE_GAMMA = 0 then 1 else if x = 1 then 1 else if x = 0 then 0
      else f32roundReal ((x : ℝ) ^ (INVERSE_GAMMA : ℝ))) ≤ 1)
  rw [if_neg hg, if_neg hi]
  by_cases hx1 : x = 1
  · rw [if_pos hx1, if_pos hx1, hx1]; norm_num
  rw [if_neg hx1, if_neg hx1]
  by_cases hx0 : x = 0
  · rw [if_pos hx0, if_pos hx0, hx0]; norm_num
  rw [if_neg hx0, if_neg hx0]
  have hpos : 0 < x := lt_of_le_of_ne h0 (Ne.symm hx0)
  have hposR : (0 : ℝ) < (x : ℝ) := by exact_mod_cast hpos
  have h1R : (x : ℝ) ≤ 1 := by exact_mod_cast h1
  refine ⟨⟨f32roundReal_nonneg _ (le_of_lt (Real.rpow_pos_of_pos hposR _)), ?_⟩,
    ⟨f32roundReal_nonneg _ (le_of_lt (Real.rpow_pos_of_pos hposR _)), ?_⟩⟩
  · apply f32roundReal_le_float _ _ (Real.rpow_pos_of_pos hposR _) _ hx
    have := Real.rpow_le_rpow_of_exponent_ge hposR h1R GAMMA_real.1
    rwa [Real.rpow_one] at this
  · apply f32roundReal_le_float _ _ (Real.rpow_pos_of_pos hposR _) _ isF32_one
    have := Real.rpow_le_one (le_of_lt hposR) h1R (le_of_lt INVERSE_GAMMA_real.1)
    exact_mod_cast this

/-- The correctly rounded power has a relative error of at most `2^-24`, hence
of at most `1/4096`, on the unit interval. -/
theorem PowAccurate_rounded (x y : ℚ) (hx0 : 0 ≤ x) (hx1 : x ≤ 1) (hy0 : 0 < y) (hy3 : y ≤ 3)
    (hx : x = 0 ∨ (1 : ℚ) / 2 ^ 42 ≤ x) : PowAccurate Libm.rounded x y := by
  unfold PowAccurate
  show |(((if y = 0 then 1 else if x = 1 then 1 else if x = 0 then 0
      else f32roundReal ((x : ℝ) ^ (y : ℝ)) : ℚ)) : ℝ) - (x : ℝ) ^ (y : ℝ)|
    ≤ (x : ℝ) ^ (y : ℝ) / 4096
  have hyR : (0 : ℝ) < (y : ℝ) := by exact_mod_cast hy0
  rw [if_neg (ne_of_gt hy0)]
  by_cases h1 : x = 1
  · rw [if_pos h1, h1]; simp
  rw [if_neg h1]
  by_cases h0 : x = 0
  · rw [if_pos h0, h0]
    simp [Real.zero_rpow (ne_of_gt hyR)]
  rw [if_neg h0]
  have hlow : (1 : ℚ) / 2 ^ 42 ≤ x := by
    rcases hx with h | h
    · exact absurd h h0
    · exact h
  have hposR : (0 : ℝ) < (x : ℝ) := by
    have : 0 < x := lt_of_le_of_ne hx0 (Ne.symm h0)
    exact_mod_cast this
  have h1R : (x : ℝ) ≤ 1 := by exact_mod_cast hx1
  have hlowR : (1 : ℝ) / 2 ^ 42 ≤ (x : ℝ) := by
    have h : ((((1 : ℚ) / 2 ^ 42 : ℚ)) : ℝ) ≤ (x : ℝ) := Rat.cast_le.mpr hlow
    push_cast at h
    exact h
  have hy3R : (y : ℝ) ≤ 3 := by exact_mod_cast hy3
  have hr : (2 : ℝ) ^ (-126 : ℤ) ≤ (x : ℝ) ^ (y : ℝ) := by
    have a1 : (x : ℝ) ^ (3 : ℝ) ≤ (x : ℝ) ^ (y : ℝ) :=
      Real.rpow_le_rpow_of_exponent_ge hposR h1R hy3R
    have a2 : ((1 : ℝ) / 2 ^ 42) ^ (3 : ℝ) ≤ (x : ℝ) ^ (3 : ℝ) :=
      Real.rpow_le_rpow (by positivity) hlowR (by norm_num)
    have a3 : ((1 : ℝ) / 2 ^ 42) ^ (3 : ℝ) = 1 / 2 ^ 126 := by
      rw [show (3 : ℝ) = ((3 : ℕ) : ℝ) by norm_num, Real.rpow_natCast]; norm_num
    have a4 : (2 : ℝ) ^ (-126 : ℤ) = 1 / 2 ^ 126 := by
      rw [zpow_neg]; norm_num
    rw [a4, ← a3]; exact le_trans a2 a1
  have herr := f32roundReal_rel_err _ hr
  have hpw : 0 < (x : ℝ) ^ (y : ℝ) := Real.rpow_pos_of_pos hposR _
  calc |((f32roundReal ((x : ℝ) ^ (y : ℝ)) : ℚ) : ℝ) - (x : ℝ) ^ (y : ℝ)|
      ≤ (x : ℝ) ^ (y : ℝ) / 2 ^ 24 := herr
    _ ≤ (x : ℝ) ^ (y : ℝ) / 4096 := by
        apply div_le_div_of_nonneg_left (le_of_lt hpw) (by norm_num) (by norm_num)

/-- The two `pow` calls that `compose` makes for a colour byte of an opaque pixel
over the zero accumulator are accurate when `pow` is correctly rounded. -/
theorem GammaAccurate_rounded (b : ℕ) (hb : b < 256) : GammaAccurate Libm.rounded b := by
  obtain ⟨hF, hx0, hx1⟩ := fdiv_byte_unit b hb
  have hG3 : GAMMA ≤ 3 := by rw [GAMMA_val]; norm_num
  have hI3 : INVERSE_GAMMA ≤ 3 := by rw [INVERSE_GAMMA_val]; norm_num
  have hlow : fdiv (b : ℚ) 255 = 0 ∨ (1 : ℚ) / 2 ^ 42 ≤ fdiv (b : ℚ) 255 := by
    rcases Nat.eq_zero_or_pos b with h | h
    · left; rw [h, Nat.cast_zero]; exact fdiv_zero_left 255
    · right
      have h1 : (1 : ℚ) ≤ (b : ℚ) := by exact_mod_cast h
      have h2 := (fdiv_byte_table b hb).1
      have h3 : (1 : ℚ) / 255 ≤ (b : ℚ) / 255 := by
        apply div_le_div_of_nonneg_right h1 (by norm_num)
      have h4 : (1 : ℚ) / 2 ^ 42 ≤ 1 / 255 := by norm_num
      linarith
  have hP1 := PowAccurate_rounded (fdiv (b : ℚ) 255) GAMMA hx0 hx1 GAMMA_pos hG3 hlow
  refine ⟨hP1, ?_⟩
  unfold PowAccurate at hP1
  obtain ⟨⟨hp0, hp1⟩, -⟩ := PowUnitRange_rounded (fdiv (b : ℚ) 255) hF hx0 hx1
  generalize hp : Libm.rounded.pow (fdiv (b : ℚ) 255) GAMMA = p at hp0 hp1 hP1 ⊢
  have hx'0 : 0 ≤ fadd p 0 := by
    unfold fadd; rw [add_zero]; exact f32round_nonneg p hp0
  have hx'1 : fadd p 0 ≤ 1 := by
    unfold fadd; rw [add_zero]
    have := f32round_mono p 1 (le_trans hp1 hx1)
    rwa [f32round_one] at this
  apply PowAccurate_rounded _ _ hx'0 hx'1 INVERSE_GAMMA_pos hI3
  rcases Nat.eq_zero_or_pos b with h | h
  · left
    have hz : fdiv (b : ℚ) 255 = 0 := by rw [h, Nat.cast_zero]; exact fdiv_zero_left 255
    have : p = 0 := by
      rw [← hp, hz]; exact Libm.rounded.pow_base_zero GAMMA GAMMA_pos
    rw [this]; unfold fadd; rw [add_zero, f32round_zero]
  · right
    have h1 : (1 : ℚ) ≤ (b : ℚ) := by exact_mod_cast h
    have h2 := (fdiv_byte_table b hb).1
    have hx255 : (1 : ℚ) / 255 ≤ fdiv (b : ℚ) 255 := by
      have h3 : (1 : ℚ) / 255 ≤ (b : ℚ) / 255 := by
        apply div_le_div_of_nonneg_right h1 (by norm_num)
      linarith
    have hxR : (1 : ℝ) / 255 ≤ ((fdiv (b : ℚ) 255 : ℚ) : ℝ) := by
      have h : ((((1 : ℚ) / 255 : ℚ)) : ℝ) ≤ ((fdiv (b : ℚ) 255 : ℚ) : ℝ) :=
        Rat.cast_le.mpr hx255
      push_cast at h; exact h
    have hx1R : ((fdiv (b : ℚ) 255 : ℚ) : ℝ) ≤ 1 := by exact_mod_cast hx1
    have hposR : (0 : ℝ) < ((fdiv (b : ℚ) 255 : ℚ) : ℝ) := lt_of_lt_of_le (by norm_num) hxR
    have a1 : ((fdiv (b : ℚ) 255 : ℚ) : ℝ) ^ (3 : ℝ)
        ≤ ((fdiv (b : ℚ) 255 : ℚ) : ℝ) ^ (GAMMA : ℝ) :=
      Real.rpow_le_rpow_of_exponent_ge hposR hx1R GAMMA_real.2
    have a2 : ((1 : ℝ) / 255) ^ (3 : ℝ) ≤ ((fdiv (b : ℚ) 255 : ℚ) : ℝ) ^ (3 : ℝ) :=
      Real.rpow_le_rpow (by positivity) hxR (by norm_num)
    have a3 : ((1 : ℝ) / 255) ^ (3 : ℝ) = 1 / 16581375 := by
      rw [show (3 : ℝ) = ((3 : ℕ) : ℝ) by norm_num, Real.rpow_natCast]; norm_num
    have hr : (1 : ℝ) / 16581375 ≤ ((fdiv (b : ℚ) 255 : ℚ) : ℝ) ^ (GAMMA : ℝ) := by
      rw [← a3]; exact le_trans a2 a1
    have hpR : (1 : ℝ) / 2 ^ 25 ≤ (p : ℝ) := by
      have := (abs_le.mp hP1).1
      have h4096 : ((fdiv (b : ℚ) 255 : ℚ) : ℝ) ^ (GAMMA : ℝ) / 4096
          ≤ ((fdiv (b : ℚ) 255 : ℚ) : ℝ) ^ (GAMMA : ℝ) / 2 := by
        apply div_le_div_of_nonneg_left (le_trans (by norm_num) hr) (by norm_num) (by norm_num)
      have c : (1 : ℝ) / 2 ^ 25 ≤ 1 / 16581375 / 2 := by norm_num
      linarith
    have hpQ : (1 : ℚ) / 2 ^ 25 ≤ p := by
      have h : ((((1 : ℚ) / 2 ^ 25 : ℚ)) : ℝ) ≤ (p : ℝ) := by push_cast; exact hpR
      exact Rat.cast_le.mp h
    have hfl : f32round ((2 : ℚ) ^ (-25 : ℤ)) = (2 : ℚ) ^ (-25 : ℤ) :=
      f32round_two_zpow (-25) (by norm_num)
    have e25 : (2 : ℚ) ^ (-25 : ℤ) = 1 / 2 ^ 25 := by
      rw [zpow_neg]; norm_num
    have hm := f32round_mono ((2 : ℚ) ^ (-25 : ℤ)) p (by rw [e25]; exact hpQ)
    rw [hfl, e25] at hm
    unfold fadd; rw [add_zero]
    have c2 : (1 : ℚ) / 2 ^ 42 ≤ 1 / 2 ^ 25 := by norm_num
    linarith

/-- C2 (compose identity layer): composing a single layer whose alpha is 255
everywhere with `premultiplied = true` reproduces the layer exactly in linear
colour space, whatever the C library; in sRGB colour space, with `pow` the
correctly rounded power, the size and every alpha byte are reproduced and every
colour byte is the input byte or one less; and so it is for every C library whose
`pow` calls on the layer's colour bytes are accurate to a relative error of
`1/4096`. -/
theorem compose_identity_layer (L : image4b)
    (hwf : L.pixels.length = L.width * L.height)
    (hbytes : ∀ p ∈ L.pixels, p.valid) (halpha : ∀ p ∈ L.pixels, p.w = 255) :
    (∀ m : Libm, compose m [L] true true = L) ∧
    ((compose Libm.rounded [L] true false).width = L.width ∧
      (compose Libm.rounded [L] true false).height = L.height ∧
      (compose Libm.rounded [L] true false).pixels.length = L.pixels.length ∧
      ∀ i, i < L.pixels.length →
        ((L.pixel i).x - 1 ≤ ((compose Libm.rounded [L] true false).pixel i).x ∧
          ((compose Libm.rounded [L] true false).pixel i).x ≤ (L.pixel i).x) ∧
        ((L.pixel i).y - 1 ≤ ((compose Libm.rounded [L] true false).pixel i).y ∧
          ((compose Libm.rounded [L] true false).pixel i).y ≤ (L.pixel i).y) ∧
        ((L.pixel i).z - 1 ≤ ((compose Libm.rounded [L] true false).pixel i).z ∧
          ((compose Libm.rounded [L] true false).pixel i).z ≤ (L.pixel i).z) ∧
        ((compose Libm.rounded [L] true false).pixel i).w = (L.pixel i).w) ∧
    (∀ m : Libm,
      (∀ p ∈ L.pixels, GammaAccurate m p.x ∧ GammaAccurate m p.y ∧ GammaAccurate m p.z) →
      (compose m [L] true false).width = L.width ∧
      (compose m [L] true false).height = L.height ∧
      (compose m [L] true false).pixels.length = L.pixels.length ∧
      ∀ i, i < L.pixels.length →
        ((L.pixel i).x - 1 ≤ ((compose m [L] true false).pixel i).x ∧
          ((compose m [L] true false).pixel i).x ≤ (L.pixel i).x) ∧
        ((L.pixel i).y - 1 ≤ ((compose m [L] true false).pixel i).y ∧
          ((compose m [L] true false).pixel i).y ≤ (L.pixel i).y) ∧
        ((L.pixel i).z - 1 ≤ ((compose m [L] true false).pixel i).z ∧
          ((compose m [L] true false).pixel i).z ≤ (L.pixel i).z) ∧
        ((compose m [L] true false).pixel i).w = (L.pixel i).w) := by
  refine ⟨fun m => (compose_identity_of_accurate m L hwf hbytes halpha).1, ?_,
    fun m => (compose_identity_of_accurate m L hwf hbytes halpha).2⟩
  apply (compose_identity_of_accurate Libm.rounded L hwf hbytes halpha).2
  intro p hp
  obtain ⟨hx, hy, hz, -⟩ := hbytes p hp
  exact ⟨GammaAccurate_rounded p.x hx, GammaAccurate_rounded p.y hy,
    GammaAccurate_rounded p.z hz⟩

theorem compose_identity_layer_witness :
    layerOpaque.pixels.length = layerOpaque.width * layerOpaque.height ∧
    (∀ p ∈ layerOpaque.pixels, p.valid) ∧ (∀ p ∈ layerOpaque.pixels, p.w = 255) ∧
    compose Libm.intPow [layerOpaque] true true = layerOpaque ∧
    (127 ≤ ((compose Libm.rounded [layerOpaque] true false).pixel 0).x ∧
      ((compose Libm.rounded [layerOpaque] true false).pixel 0).x ≤ 128) ∧
    (63 ≤ ((compose Libm.rounded [layerOpaque] true false).pixel 0).y ∧
      ((compose Libm.rounded [layerOpaque] true false).pixel 0).y ≤ 64) ∧
    ((compose Libm.rounded [layerOpaque] true false).pixel 1).w = 255 :=
  ⟨by decide, by decide, by decide,
   (compose_identity_layer layerOpaque (by decide) (by decide) (by decide)).1 Libm.intPow,
   ((compose_identity_layer layerOpaque (by decide) (by decide) (by decide)).2.1.2.2.2 0
      (by decide)).1,
   ((compose_identity_layer layerOpaque (by decide) (by decide) (by decide)).2.1.2.2.2 0
      (by decide)).2.1,
   ((compose_identity_layer layerOpaque (by decide) (by decide) (by decide)).2.1.2.2.2 1
      (by decide)).2.2.2⟩

/-- C12 (compose stores only in-range bytes, amended): for a non-empty sequence
of equally-sized layers of valid bytes, when `premultiplied = false`, or
`premultiplied = true` and no colour byte exceeds its pixel's alpha byte, every
channel value blended in any layer pass lies in `[0,1]`, the value
`255 * channel` converted to a byte lies in `[0,255]`, and the stored byte is its
integer part: in linear colour space for every C library, in sRGB colour space
with `pow` the correctly rounded power, and with every `pow` that maps the
`float`s `x` of `[0,1]` into `[0,x]` at the exponent `2.2f` and into `[0,1]` at
the exponent `1.0f/2.2f`. -/
theorem compose_stores_in_range (layers : List image4b) (hne : layers ≠ [])
    (hsize : ∀ L ∈ layers, L.width = (layers.head hne).width ∧
      L.height = (layers.head hne).height ∧ L.pixels.length = L.width * L.height)
    (hvalid : ∀ L ∈ layers, ∀ p ∈ L.pixels, p.valid)
    (premultiplied : Bool)
    (hpre : premultiplied = false ∨
      ∀ L ∈ layers, ∀ p ∈ L.pixels, p.x ≤ p.w ∧ p.y ≤ p.w ∧ p.z ≤ p.w)
    (i : ℕ) (hi : i < (layers.head hne).width * (layers.head hne).height)
    (pre : List image4b) (L : image4b) (post : List image4b) (hsplit : layers = pre ++ L :: post) :
    (∀ m : Libm,
      (composeColor m premultiplied true (L.pixel i)
        ((pre.foldl (composeLayer m premultiplied true)
          (image4b.make (layers.head hne).width (layers.head hne).height)).pixel i)).storable ∧
      ((composeLayer m premultiplied true
        (pre.foldl (composeLayer m premultiplied true)
          (image4b.make (layers.head hne).width (layers.head hne).height)) L).pixel i)
        = ⟨⌊fmul 255 (composeColor m premultiplied true (L.pixel i)
              ((pre.foldl (composeLayer m premultiplied true)
                (image4b.make (layers.head hne).width (layers.head hne).height)).pixel i)).x⌋₊,
           ⌊fmul 255 (composeColor m premultiplied true (L.pixel i)
              ((pre.foldl (composeLayer m premultiplied true)
                (image4b.make (layers.head hne).width (layers.head hne).height)).pixel i)).y⌋₊,
           ⌊fmul 255 (composeColor m premultiplied true (L.pixel i)
              ((pre.foldl (composeLayer m premultiplied true)
                (image4b.make (layers.head hne).width (layers.head hne).height)).pixel i)).z⌋₊,
           ⌊fmul 255 (composeColor m premultiplied true (L.pixel i)
              ((pre.foldl (composeLayer m premultiplied true)
                (image4b.make (layers.head hne).width (layers.head hne).height)).pixel i)).w⌋₊⟩) ∧
    ((composeColor Libm.rounded premultiplied false (L.pixel i)
      ((pre.foldl (composeLayer Libm.rounded premultiplied false)
        (image4b.make (layers.head hne).width (layers.head hne).height)).pixel i)).storable ∧
    ((composeLayer Libm.rounded premultiplied false
      (pre.foldl (composeLayer Libm.rounded premultiplied false)
        (image4b.make (layers.head hne).width (layers.head hne).height)) L).pixel i)
      = ⟨⌊fmul 255 (composeColor Libm.rounded premultiplied false (L.pixel i)
            ((pre.foldl (composeLayer Libm.rounded premultiplied false)
              (image4b.make (layers.head hne).width (layers.head hne).height)).pixel i)).x⌋₊,
         ⌊fmul 255 (composeColor Libm.rounded premultiplied false (L.pixel i)
            ((pre.foldl (composeLayer Libm.rounded premultiplied false)
              (image4b.make (layers.head hne).width (layers.head hne).height)).pixel i)).y⌋₊,
         ⌊fmul 255 (composeColor Libm.rounded premultiplied false (L.pixel i)
            ((pre.foldl (composeLayer Libm.rounded premultiplied false)
              (image4b.make (layers.head hne).width (layers.head hne).height)).pixel i)).z⌋₊,
         ⌊fmul 255 (composeColor Libm.rounded premultiplied false (L.pixel i)
            ((pre.foldl (composeLayer Libm.rounded premultiplied false)
              (image4b.make (layers.head hne).width (layers.head hne).height)).pixel i)).w⌋₊⟩) ∧
    (∀ m : Libm, PowUnitRange m →
    (composeColor m premultiplied false (L.pixel i)
        ((pre.foldl (composeLayer m premultiplied false)
          (image4b.make (layers.head hne).width (layers.head hne).height)).pixel i)).storable ∧
      ((composeLayer m premultiplied false
        (pre.foldl (composeLayer m premultiplied false)
          (image4b.make (layers.head hne).width (layers.head hne).height)) L).pixel i)
        = ⟨⌊fmul 255 (composeColor m premultiplied false (L.pixel i)
              ((pre.foldl (composeLayer m premultiplied false)
                (image4b.make (layers.head hne).width (layers.head hne).height)).pixel i)).x⌋₊,
           ⌊fmul 255 (composeColor m premultiplied false (L.pixel i)
              ((pre.foldl (composeLayer m premultiplied false)
                (image4b.make (layers.head hne).width (layers.head hne).height)).pixel i)).y⌋₊,
           ⌊fmul 255 (composeColor m premultiplied false (L.pixel i)
              ((pre.foldl (composeLayer m premultiplied false)
                (image4b.make (layers.head hne).width (layers.head hne).height)).pixel i)).z⌋₊,
           ⌊fmul 255 (composeColor m premultiplied false (L.pixel i)
              ((pre.foldl (composeLayer m premultiplied false)
                (image4b.make (layers.head hne).width (layers.head hne).height)).pixel i)).w⌋₊⟩) := by
  exact ⟨fun m => compose_stores_of_unit_range m layers hne hsize hvalid premultiplied true hpre
      (Or.inl rfl) i hi pre L post hsplit,
    compose_stores_of_unit_range Libm.rounded layers hne hsize hvalid premultiplied false hpre
      (Or.inr PowUnitRange_rounded) i hi pre L post hsplit,
    fun m hm => compose_stores_of_unit_range m layers hne hsize hvalid premultiplied false hpre
      (Or.inr hm) i hi pre L post hsplit⟩

set_option maxRecDepth 100000 in
theorem compose_stores_in_range_witness :
    (composeColor Libm.rounded false false (layerMixed.pixel 0)
      (([layerHalf].foldl (composeLayer Libm.rounded false false)
        (image4b.make ([layerHalf, layerMixed].head (by simp)).width
          ([layerHalf, layerMixed].head (by simp)).height)).pixel 0)).storable ∧
    (composeColor Libm.intPow false true (layerMixed.pixel 0)
      (([layerHalf].foldl (composeLayer Libm.intPow false true)
        (image4b.make ([layerHalf, layerMixed].head (by simp)).width
          ([layerHalf, layerMixed].head (by simp)).height)).pixel 0)).storable :=
  ⟨(compose_stores_in_range [layerHalf, layerMixed] (by simp) (by decide) (by decide)
      false (Or.inl rfl) 0 (by decide) [layerHalf] layerMixed [] rfl).2.1.1,
   ((compose_stores_in_range [layerHalf, layerMixed] (by simp) (by decide) (by decide)
      false (Or.inl rfl) 0 (by decide) [layerHalf] layerMixed [] rfl).1 Libm.intPow).1⟩

/-- C16 (compose stays in range on well-formed input): for a non-empty sequence
of equally-sized layers of valid bytes, if `premultiplied = false`, or
`premultiplied = true` and in every layer pixel each of R, G, B is at most the
alpha, then before every layer pass the accumulator pixel has all channels in
`[0,255]`, the pass blends channels in `[0,1]` whose products with 255 lie in
`[0,255]`, and the accumulator pixel after the pass and the final pixel again
have all channels in `[0,255]`: in linear colour space for every C library, in
sRGB colour space with `pow` the correctly rounded power, and with every `pow`
that maps the `float`s `x` of `[0,1]` into `[0,x]` at the exponent `2.2f` and
into `[0,1]` at the exponent `1.0f/2.2f`. -/
theorem compose_range_invariant (layers : List image4b) (hne : layers ≠ [])
    (hsize : ∀ L ∈ layers, L.width = (layers.head hne).width ∧
      L.height = (layers.head hne).height ∧ L.pixels.length = L.width * L.height)
    (hvalid : ∀ L ∈ layers, ∀ p ∈ L.pixels, p.valid)
    (premultiplied : Bool)
    (hpre : premultiplied = false ∨
      ∀ L ∈ layers, ∀ p ∈ L.pixels, p.x ≤ p.w ∧ p.y ≤ p.w ∧ p.z ≤ p.w)
    (i : ℕ) (hi : i < (layers.head hne).width * (layers.head hne).height) :
    (∀ m : Libm,
      (∀ (pre : List image4b) (L : image4b) (post : List image4b), layers = pre ++ L :: post →
        ((pre.foldl (composeLayer m premultiplied true)
          (image4b.make (layers.head hne).width (layers.head hne).height)).pixel i).valid ∧
        (composeColor m premultiplied true (L.pixel i)
          ((pre.foldl (composeLayer m premultiplied true)
            (image4b.make (layers.head hne).width (layers.head hne).height)).pixel i)).storable ∧
        ((composeLayer m premultiplied true
          (pre.foldl (composeLayer m premultiplied true)
            (image4b.make (layers.head hne).width (layers.head hne).height)) L).pixel i).valid) ∧
      ((compose m layers premultiplied true).pixel i).valid) ∧
    ((∀ (pre : List image4b) (L : image4b) (post : List image4b), layers = pre ++ L :: post →
      ((pre.foldl (composeLayer Libm.rounded premultiplied false)
        (image4b.make (layers.head hne).width (layers.head hne).height)).pixel i).valid ∧
      (composeColor Libm.rounded premultiplied false (L.pixel i)
        ((pre.foldl (composeLayer Libm.rounded premultiplied false)
          (image4b.make (layers.head hne).width (layers.head hne).height)).pixel i)).storable ∧
      ((composeLayer Libm.rounded premultiplied false
        (pre.foldl (composeLayer Libm.rounded premultiplied false)
          (image4b.make (layers.head hne).width (layers.head hne).height)) L).pixel i).valid) ∧
    ((compose Libm.rounded layers premultiplied false).pixel i).valid) ∧
    (∀ m : Libm, PowUnitRange m →
    (∀ (pre : List image4b) (L : image4b) (post : List image4b), layers = pre ++ L :: post →
        ((pre.foldl (composeLayer m premultiplied false)
          (image4b.make (layers.head hne).width (layers.head hne).height)).pixel i).valid ∧
        (composeColor m premultiplied false (L.pixel i)
          ((pre.foldl (composeLayer m premultiplied false)
            (image4b.make (layers.head hne).width (layers.head hne).height)).pixel i)).storable ∧
        ((composeLayer m premultiplied false
          (pre.foldl (composeLayer m premultiplied false)
            (image4b.make (layers.head hne).width (layers.head hne).height)) L).pixel i).valid) ∧
      ((compose m layers premultiplied false).pixel i).valid) := by
  exact ⟨fun m => compose_range_of_unit_range m layers hne hsize hvalid premultiplied true hpre
      (Or.inl rfl) i hi,
    compose_range_of_unit_range Libm.rounded layers hne hsize hvalid premultiplied false hpre
      (Or.inr PowUnitRange_rounded) i hi,
    fun m hm => compose_range_of_unit_range m layers hne hsize hvalid premultiplied false hpre
      (Or.inr hm) i hi⟩

set_option maxRecDepth 100000 in
theorem compose_range_invariant_witness :
    (∀ L ∈ [layerPremult, layerHalf], ∀ p ∈ L.pixels, p.x ≤ p.w ∧ p.y ≤ p.w ∧ p.z ≤ p.w) ∧
    (composeColor Libm.rounded true false (layerHalf.pixel 0)
      (([layerPremult].foldl (composeLayer Libm.rounded true false)
        (image4b.make ([layerPremult, layerHalf].head (by simp)).width
          ([layerPremult, layerHalf].head (by simp)).height)).pixel 0)).storable ∧
    ((compose Libm.rounded [layerPremult, layerHalf] true false).pixel 0).valid ∧
    ((compose Libm.intPow [layerPremult, layerHalf] true true).pixel 0).valid :=
  ⟨by decide,
   ((compose_range_invariant [layerPremult, layerHalf] (by simp) (by decide)
      (by decide) true (Or.inr (by decide)) 0 (by decide)).2.1.1
      [layerPremult] layerHalf [] rfl).2.1,
   (compose_range_invariant [layerPremult, layerHalf] (by simp) (by decide)
      (by decide) true (Or.inr (by decide)) 0 (by decide)).2.1.2,
   ((compose_range_invariant [layerPremult, layerHalf] (by simp) (by decide)
      (by decide) true (Or.inr (by decide)) 0 (by decide)).1 Libm.intPow).2⟩
